import Mathlib

/-!
Verification of the graph-algorithms core of the cs-240-library repository.

The Rust source is shallowly embedded:
* `HashMap` becomes an association list (`List (Nat × β)`), `HashSet` a `List Nat`
  used as a set; iteration order of a hash container is unspecified in Rust, so a
  list models one possible order and universally quantified theorems cover all of
  them.
* machine integers become `Nat` (the algorithms are generic; all claims concern
  non-negative weights).
* loops whose termination is a correctness fact are given an explicit fuel
  argument; top-level wrappers pass a fuel that is proved (or, for concrete
  inputs, computed) to be sufficient, so every definition stays executable.
* a Rust `panic!` / failed `assert!` / `unwrap` on `None` is modelled by an
  `Option` result whose `none` means the call aborts.
-/

namespace Spec2Proof

open scoped List

/-! ## Association lists: the model of `HashMap` -/

/-- Lookup in an association list, the model of `HashMap::get`. -/
def lookupA {β : Type} : List (Nat × β) → Nat → Option β
  | [], _ => none
  | (k, v) :: t, n => if k = n then some v else lookupA t n

/-- Insert-or-replace, the model of `HashMap::insert` (and of in-place update
through `get_mut`). -/
def upsertA {β : Type} : List (Nat × β) → Nat → β → List (Nat × β)
  | [], n, v => [(n, v)]
  | (k, w) :: t, n, v => if k = n then (n, v) :: t else (k, w) :: upsertA t n v

/-- Key removal, the model of `HashMap::remove`. -/
def removeA {β : Type} : List (Nat × β) → Nat → List (Nat × β)
  | [], _ => []
  | (k, w) :: t, n => if k = n then t else (k, w) :: removeA t n

/-- Set insertion on a list used as a `HashSet`. -/
def setIns (l : List Nat) (x : Nat) : List Nat :=
  if x ∈ l then l else x :: l

/-! ## Binary min-heap (`src/data_structures/binary_heap.rs`)

The heap is the inner `Vec<T>`: a `List Nat` whose element at index 0 is the
unused default sentinel. -/

namespace BinaryHeap

/-- Read the backing vector at an index (all source reads are in bounds). -/
def getH (l : List Nat) (i : Nat) : Nat := l.getD i 0

/-- `Vec::swap` (all source swaps are in bounds). -/
def swapH (l : List Nat) (i j : Nat) : List Nat :=
  (l.set i (getH l j)).set j (getH l i)

/-- Helper function `parent_index`. -/
def parent_index (index : Nat) : Option Nat :=
  if index = 1 then none else some (index / 2)

/-- Helper function `left_child_index`. -/
def left_child_index (index : Nat) : Nat := index * 2

/-- `bubble_up`, with fuel for the recursion on the parent index; fuel `index`
is enough since the index strictly decreases. -/
def bubble_up : Nat → List Nat → Nat → List Nat
  | 0, inner, _ => inner
  | fuel + 1, inner, index =>
    match parent_index index with
    | none => inner
    | some parent =>
      if getH inner parent > getH inner index then
        bubble_up fuel (swapH inner index parent) parent
      else inner

/-- The `min_index` computed by one round of `bubble_down`: start at `index`,
then compare sequentially with the two children that exist. -/
def bdTarget (inner : List Nat) (index : Nat) : Nat :=
  let left := left_child_index index
  let min1 := if left ≤ inner.length - 1 ∧ getH inner index > getH inner left then
      left else index
  if left + 1 ≤ inner.length - 1 ∧ getH inner min1 > getH inner (left + 1) then
      left + 1 else min1

/-- `bubble_down`, with fuel; fuel `inner.length` is enough since the index
strictly increases and stays below the length while recursing. -/
def bubble_down : Nat → List Nat → Nat → List Nat
  | 0, inner, _ => inner
  | fuel + 1, inner, index =>
    if bdTarget inner index ≠ index then
      bubble_down fuel (swapH inner index (bdTarget inner index)) (bdTarget inner index)
    else inner

/-- The `for i in (1..n / 2 + 1).rev()` loop of `heapify`: bubble down at
`i, i-1, ..., 1`. -/
def heapifyLoop : Nat → List Nat → List Nat
  | 0, inner => inner
  | i + 1, inner => heapifyLoop i (bubble_down inner.length inner (i + 1))

/-- `heapify`: sentinel, the source elements, then bottom-up bubble-down. -/
def heapify (source : List Nat) : List Nat :=
  heapifyLoop (source.length / 2) (0 :: source)

/-- `BinaryHeap::new`. -/
def new : List Nat := [0]

/-- `BinaryHeap::from_slice`. -/
def from_slice (source : List Nat) : List Nat := heapify source

/-- `BinaryHeap::len` (the sentinel is not counted). -/
def len (h : List Nat) : Nat := h.length - 1

/-- `BinaryHeap::insert`: push, then bubble the new leaf up. -/
def insert (h : List Nat) (item : Nat) : List Nat :=
  let inner := h ++ [item]
  bubble_up (inner.length - 1) inner (inner.length - 1)

/-- `BinaryHeap::min`. -/
def min (h : List Nat) : Option Nat := h[1]?

/-- `BinaryHeap::extract_min`; `none` models the `assert!(size > 0)` panic on an
empty heap. -/
def extract_min (h : List Nat) : Option (Nat × List Nat) :=
  let size := len h
  if size = 0 then none
  else
    let h1 := swapH h 1 size
    let mn := getH h1 size
    let h2 := h1.eraseIdx size
    some (mn, bubble_down h2.length h2 1)

/-- `BinaryHeap::search`, with fuel (the index at least doubles on recursion,
so fuel `h.length` is enough from the real entry index 1). -/
def search (h : List Nat) (item : Nat) : Nat → Nat → Option Nat
  | 0, _ => none
  | fuel + 1, index =>
    if index ≥ h.length then none
    else if item = getH h index then some index
    else if item > getH h index then
      (search h item fuel (left_child_index index)).orElse
        (fun _ => search h item fuel (left_child_index index + 1))
    else none

/-- `BinaryHeap::remove_at`: swap with the last leaf, pop it, bubble down only
(the source never bubbles up here). -/
def remove_at (h : List Nat) (index : Nat) : Nat × List Nat :=
  let n := len h
  let h1 := swapH h index n
  let val := getH h1 n
  let h2 := h1.eraseIdx n
  (val, bubble_down h2.length h2 index)

/-- `BinaryHeap::remove`: linear search from index 1, then positional removal. -/
def remove (h : List Nat) (item : Nat) : List Nat :=
  match search h item h.length 1 with
  | none => h
  | some i => (remove_at h i).2

/-- The extraction loop of `into_sorted_vec`, one `extract_min` per element. -/
def extractAll : Nat → List Nat → List Nat
  | 0, _ => []
  | k + 1, h =>
    match extract_min h with
    | none => []
    | some (m, h') => m :: extractAll k h'

/-- `BinaryHeap::into_sorted_vec`. -/
def into_sorted_vec (h : List Nat) : List Nat := extractAll (len h) h

/-- `heapsort`. -/
def heapsort (list : List Nat) : List Nat := into_sorted_vec (from_slice list)

/-- The min-heap invariant on the backing vector: every non-root, non-sentinel
index is at least its parent (spec §3, §8). -/
def heapOrdered (l : List Nat) : Prop :=
  ∀ i, 2 ≤ i → i < l.length → getH l (i / 2) ≤ getH l i

instance (l : List Nat) : Decidable (heapOrdered l) := by
  unfold heapOrdered; infer_instance

end BinaryHeap

/-! ## Concrete graphs (`src/data_structures/graphs/*.rs`)

Each graph is its `HashMap` of adjacency data, modelled as an association
list. -/

/-- `DirectedGraph<T>`: map from node to set of adjacent nodes. -/
structure DirectedGraph where
  adj : List (Nat × List Nat)
deriving DecidableEq, Repr

namespace DirectedGraph

/-- `DirectedGraph::new`. -/
def new : DirectedGraph := ⟨[]⟩

/-- `get_adj`: neighbours, empty for an unknown node. -/
def get_adj (g : DirectedGraph) (node : Nat) : List Nat :=
  (lookupA g.adj node).getD []

/-- `contains`. -/
def contains (g : DirectedGraph) (item : Nat) : Bool :=
  (lookupA g.adj item).isSome

/-- `get_all`: the key set. -/
def get_all (g : DirectedGraph) : List Nat := g.adj.map Prod.fst

/-- `len`. -/
def len (g : DirectedGraph) : Nat := g.adj.length

/-- `insert_node`: unconditionally maps the node to a fresh empty set. -/
def insert_node (g : DirectedGraph) (node : Nat) : DirectedGraph :=
  ⟨upsertA g.adj node []⟩

/-- `remove_node`: drops the key only (out-edges of others are kept). -/
def remove_node (g : DirectedGraph) (node : Nat) : DirectedGraph :=
  ⟨removeA g.adj node⟩

/-- `insert_edge`: only touches the graph when `from` is present. -/
def insert_edge (g : DirectedGraph) (frm dst : Nat) : DirectedGraph :=
  match lookupA g.adj frm with
  | some links => ⟨upsertA g.adj frm (setIns links dst)⟩
  | none => g

/-- `remove_edge`. -/
def remove_edge (g : DirectedGraph) (frm dst : Nat) : DirectedGraph :=
  match lookupA g.adj frm with
  | some links => ⟨upsertA g.adj frm (links.erase dst)⟩
  | none => g

end DirectedGraph

/-- `UndirectedGraph<T>`: same storage, symmetric edge maintenance. -/
structure UndirectedGraph where
  adj : List (Nat × List Nat)
deriving DecidableEq, Repr

namespace UndirectedGraph

/-- `UndirectedGraph::new`. -/
def new : UndirectedGraph := ⟨[]⟩

/-- `get_adj`. -/
def get_adj (g : UndirectedGraph) (node : Nat) : List Nat :=
  (lookupA g.adj node).getD []

/-- `contains`. -/
def contains (g : UndirectedGraph) (item : Nat) : Bool :=
  (lookupA g.adj item).isSome

/-- `get_all`. -/
def get_all (g : UndirectedGraph) : List Nat := g.adj.map Prod.fst

/-- `inner_insert_edge`: one-directional insert, only when `from` is present. -/
def inner_insert_edge (g : UndirectedGraph) (frm dst : Nat) : UndirectedGraph :=
  match lookupA g.adj frm with
  | some links => ⟨upsertA g.adj frm (setIns links dst)⟩
  | none => g

/-- `inner_remove_edge`. -/
def inner_remove_edge (g : UndirectedGraph) (frm dst : Nat) : UndirectedGraph :=
  match lookupA g.adj frm with
  | some links => ⟨upsertA g.adj frm (links.erase dst)⟩
  | none => g

/-- `insert_node`: unconditionally maps the node to a fresh empty set. -/
def insert_node (g : UndirectedGraph) (node : Nat) : UndirectedGraph :=
  ⟨upsertA g.adj node []⟩

/-- `remove_node`: erase the node from each neighbour's set, then drop the key. -/
def remove_node (g : UndirectedGraph) (node : Nat) : UndirectedGraph :=
  let adjn := get_adj g node
  let g1 := adjn.foldl
    (fun acc neighbor =>
      match lookupA acc.adj neighbor with
      | some links => (⟨upsertA acc.adj neighbor (links.erase node)⟩ : UndirectedGraph)
      | none => acc) g
  ⟨removeA g1.adj node⟩

/-- `insert_edge`: both directions via `inner_insert_edge`. -/
def insert_edge (g : UndirectedGraph) (left right : Nat) : UndirectedGraph :=
  inner_insert_edge (inner_insert_edge g left right) right left

/-- `remove_edge`. -/
def remove_edge (g : UndirectedGraph) (left right : Nat) : UndirectedGraph :=
  inner_remove_edge (inner_remove_edge g left right) right left

end UndirectedGraph

/-- `WeightedGraph<T, W>`: map from node to set of `(target, weight)` pairs. -/
structure WeightedGraph where
  adj : List (Nat × List (Nat × Nat))
deriving DecidableEq, Repr

namespace WeightedGraph

/-- `WeightedGraph::new`. -/
def new : WeightedGraph := ⟨[]⟩

/-- `get_adj_weighted`. -/
def get_adj_weighted (g : WeightedGraph) (node : Nat) : List (Nat × Nat) :=
  (lookupA g.adj node).getD []

/-- `get_adj`: targets of the weighted set, collected into a set. -/
def get_adj (g : WeightedGraph) (node : Nat) : List Nat :=
  ((get_adj_weighted g node).map Prod.fst).dedup

/-- `contains`. -/
def contains (g : WeightedGraph) (item : Nat) : Bool :=
  (lookupA g.adj item).isSome

/-- `get_all`. -/
def get_all (g : WeightedGraph) : List Nat := g.adj.map Prod.fst

/-- `insert_node`: unconditionally maps the node to a fresh empty set. -/
def insert_node (g : WeightedGraph) (node : Nat) : WeightedGraph :=
  ⟨upsertA g.adj node []⟩

/-- `remove_node`. -/
def remove_node (g : WeightedGraph) (node : Nat) : WeightedGraph :=
  ⟨removeA g.adj node⟩

/-- `insert_edge_weighted`: only touches the graph when `from` is present.
A `(target, weight)` pair is inserted with set semantics. -/
def insert_edge_weighted (g : WeightedGraph) (frm dst weight : Nat) : WeightedGraph :=
  match lookupA g.adj frm with
  | some links =>
      ⟨upsertA g.adj frm (if (dst, weight) ∈ links then links else (dst, weight) :: links)⟩
  | none => g

/-- `remove_edge_weighted`. -/
def remove_edge_weighted (g : WeightedGraph) (frm dst weight : Nat) : WeightedGraph :=
  match lookupA g.adj frm with
  | some links => ⟨upsertA g.adj frm (links.erase (dst, weight))⟩
  | none => g

end WeightedGraph

/-! ## Association-list lemmas -/

theorem lookupA_upsertA_self {β : Type} (l : List (Nat × β)) (n : Nat) (v : β) :
    lookupA (upsertA l n v) n = some v := by
  induction l with
  | nil => simp [upsertA, lookupA]
  | cons p t ih =>
    obtain ⟨k, w⟩ := p
    by_cases h : k = n
    · simp [upsertA, h, lookupA]
    · simp [upsertA, h, lookupA, ih]

theorem lookupA_upsertA_ne {β : Type} (l : List (Nat × β)) (n m : Nat) (v : β)
    (h : m ≠ n) : lookupA (upsertA l n v) m = lookupA l m := by
  induction l with
  | nil => simp [upsertA, lookupA, Ne.symm h]
  | cons p t ih =>
    obtain ⟨k, w⟩ := p
    by_cases hk : k = n
    · subst hk
      simp [upsertA, lookupA, Ne.symm h]
    · by_cases hm : k = m <;> simp [upsertA, lookupA, hk, hm, h, ih]

theorem lookupA_removeA_ne {β : Type} (l : List (Nat × β)) (n m : Nat)
    (h : m ≠ n) : lookupA (removeA l n) m = lookupA l m := by
  induction l with
  | nil => simp [removeA]
  | cons p t ih =>
    obtain ⟨k, w⟩ := p
    by_cases hk : k = n
    · subst hk
      simp [removeA, lookupA, Ne.symm h]
    · by_cases hm : k = m <;> simp [removeA, lookupA, hk, hm, h, ih]

theorem removeA_sublist {β : Type} (l : List (Nat × β)) (n : Nat) :
    (removeA l n).Sublist l := by
  induction l with
  | nil => simp [removeA]
  | cons p t ih =>
    obtain ⟨k, w⟩ := p
    by_cases hk : k = n
    · simp only [removeA, if_pos hk]
      exact List.sublist_cons_self (k, w) t
    · simpa [removeA, hk] using ih.cons₂ (k, w)

theorem lookupA_eq_some_mem_keys {β : Type} {l : List (Nat × β)} {n : Nat} {v : β}
    (h : lookupA l n = some v) : n ∈ l.map Prod.fst := by
  induction l with
  | nil => simp [lookupA] at h
  | cons p t ih =>
    obtain ⟨k, w⟩ := p
    by_cases hk : k = n
    · simp [hk]
    · simp [lookupA, hk] at h
      simp [ih h]

theorem lookupA_removeA_self_of_nodup {β : Type} {l : List (Nat × β)} (n : Nat)
    (hnd : (l.map Prod.fst).Nodup) : lookupA (removeA l n) n = none := by
  induction l with
  | nil => simp [removeA, lookupA]
  | cons p t ih =>
    obtain ⟨k, w⟩ := p
    simp only [List.map_cons, List.nodup_cons] at hnd
    by_cases hk : k = n
    · subst hk
      simp only [removeA, if_pos rfl]
      cases hl : lookupA t k with
      | none => exact hl
      | some v => exact absurd (lookupA_eq_some_mem_keys hl) hnd.1
    · simp [removeA, lookupA, hk, ih hnd.2]

theorem keys_upsertA {β : Type} (l : List (Nat × β)) (n : Nat) (v : β) :
    (upsertA l n v).map Prod.fst =
      if n ∈ l.map Prod.fst then l.map Prod.fst else l.map Prod.fst ++ [n] := by
  induction l with
  | nil => simp [upsertA]
  | cons p t ih =>
    obtain ⟨k, w⟩ := p
    by_cases hk : k = n
    · subst hk
      simp [upsertA]
    · by_cases hn : n ∈ t.map Prod.fst <;>
        simp [upsertA, hk, Ne.symm hk, hn, ih]

theorem keys_upsertA_nodup {β : Type} {l : List (Nat × β)} (n : Nat) (v : β)
    (hnd : (l.map Prod.fst).Nodup) : ((upsertA l n v).map Prod.fst).Nodup := by
  rw [keys_upsertA]
  by_cases hn : n ∈ l.map Prod.fst
  · simpa [hn]
  · simpa [hn] using List.Nodup.append hnd (by simp) (by simpa using hn)

theorem mem_setIns {l : List Nat} {x y : Nat} : y ∈ setIns l x ↔ y = x ∨ y ∈ l := by
  unfold setIns
  by_cases h : x ∈ l
  · simp only [if_pos h]
    constructor
    · exact Or.inr
    · rintro (rfl | hy) <;> [exact h; exact hy]
  · simp [if_neg h]

theorem setIns_nodup {l : List Nat} {x : Nat} (h : l.Nodup) : (setIns l x).Nodup := by
  unfold setIns
  by_cases hx : x ∈ l <;> simp [hx, h]

/-! ## Claim C4: the heap invariant is broken by `remove` -/

/-- C4 (refuting evaluation): `from_slice [1,10,2,20,21,3]` is a valid heap, but
removing item 20 yields backing array `[0,1,10,2,3,21]`, where index 4 holds 3
while its parent index 2 holds 10 — the min-heap invariant is violated, because
`remove_at` only bubbles the moved leaf down and never up. -/
theorem heap_remove_breaks_invariant :
    BinaryHeap.heapOrdered (BinaryHeap.from_slice [1, 10, 2, 20, 21, 3]) ∧
    BinaryHeap.remove (BinaryHeap.from_slice [1, 10, 2, 20, 21, 3]) 20 =
      [0, 1, 10, 2, 3, 21] ∧
    ¬ BinaryHeap.heapOrdered [0, 1, 10, 2, 3, 21] := by
  refine ⟨by decide, by decide, by decide⟩

/-! ## Claim C9: inserting an edge with an absent source is a silent no-op -/

/-- C9: if the source node is absent, `DirectedGraph::insert_edge` and
`WeightedGraph::insert_edge_weighted` leave the graph completely unchanged —
the edge is discarded, no node is created, no error is raised. -/
theorem insert_edge_missing_source_noop (g : DirectedGraph) (gw : WeightedGraph)
    (frm dst w : Nat) :
    (DirectedGraph.contains g frm = false → DirectedGraph.insert_edge g frm dst = g) ∧
    (WeightedGraph.contains gw frm = false →
      WeightedGraph.insert_edge_weighted gw frm dst w = gw) := by
  constructor
  · intro h
    have hl : lookupA g.adj frm = none := by
      cases hl : lookupA g.adj frm with
      | none => rfl
      | some v => simp [DirectedGraph.contains, hl] at h
    unfold DirectedGraph.insert_edge
    simp [hl]
  · intro h
    have hl : lookupA gw.adj frm = none := by
      cases hl : lookupA gw.adj frm with
      | none => rfl
      | some v => simp [WeightedGraph.contains, hl] at h
    unfold WeightedGraph.insert_edge_weighted
    simp [hl]

/-- Witness for C9 at a concrete input: the empty graphs do not contain node 1,
and inserting an edge from 1 leaves them unchanged. -/
theorem insert_edge_missing_source_noop_witness :
    DirectedGraph.insert_edge DirectedGraph.new 1 2 = DirectedGraph.new ∧
    WeightedGraph.insert_edge_weighted WeightedGraph.new 1 2 5 = WeightedGraph.new :=
  ⟨(insert_edge_missing_source_noop DirectedGraph.new WeightedGraph.new 1 2 5).1 (by decide),
   (insert_edge_missing_source_noop DirectedGraph.new WeightedGraph.new 1 2 5).2 (by decide)⟩

/-! ## Claim C10: re-inserting an existing node resets its adjacency -/

/-- C10: for each concrete graph type, `insert_node` on an already present node
with non-empty adjacency resets that node's adjacency to the empty set; in
`UndirectedGraph` a former neighbour `b` still lists `n`, leaving a one-sided
edge. -/
theorem insert_node_resets_adjacency (g : DirectedGraph) (gu : UndirectedGraph)
    (gw : WeightedGraph) (n b : Nat) :
    (DirectedGraph.contains g n = true → DirectedGraph.get_adj g n ≠ [] →
      DirectedGraph.get_adj (DirectedGraph.insert_node g n) n = []) ∧
    (UndirectedGraph.contains gu n = true → UndirectedGraph.get_adj gu n ≠ [] →
      UndirectedGraph.get_adj (UndirectedGraph.insert_node gu n) n = []) ∧
    (WeightedGraph.contains gw n = true → WeightedGraph.get_adj_weighted gw n ≠ [] →
      WeightedGraph.get_adj_weighted (WeightedGraph.insert_node gw n) n = []) ∧
    (b ≠ n → n ∈ UndirectedGraph.get_adj gu b →
      n ∈ UndirectedGraph.get_adj (UndirectedGraph.insert_node gu n) b) := by
  refine ⟨fun _ _ => ?_, fun _ _ => ?_, fun _ _ => ?_, fun hb hm => ?_⟩
  · simp [DirectedGraph.get_adj, DirectedGraph.insert_node, lookupA_upsertA_self]
  · simp [UndirectedGraph.get_adj, UndirectedGraph.insert_node, lookupA_upsertA_self]
  · simp [WeightedGraph.get_adj_weighted, WeightedGraph.insert_node, lookupA_upsertA_self]
  · simpa [UndirectedGraph.get_adj, UndirectedGraph.insert_node,
      lookupA_upsertA_ne _ _ _ _ hb] using hm

/-- Witness for C10 at a concrete input: the two-node undirected graph with the
edge 1–2; re-inserting node 1 empties its adjacency while node 2 still lists 1. -/
theorem insert_node_resets_adjacency_witness :
    (DirectedGraph.get_adj
      (DirectedGraph.insert_node (DirectedGraph.mk [(1, [2]), (2, [])]) 1) 1 = []) ∧
    (UndirectedGraph.get_adj
      (UndirectedGraph.insert_node (UndirectedGraph.mk [(1, [2]), (2, [1])]) 1) 1 = []) ∧
    (WeightedGraph.get_adj_weighted
      (WeightedGraph.insert_node (WeightedGraph.mk [(1, [(2, 7)]), (2, [])]) 1) 1 = []) ∧
    (1 ∈ UndirectedGraph.get_adj
      (UndirectedGraph.insert_node (UndirectedGraph.mk [(1, [2]), (2, [1])]) 1) 2) := by
  obtain ⟨h1, h2, h3, h4⟩ := insert_node_resets_adjacency (DirectedGraph.mk [(1, [2]), (2, [])])
    (UndirectedGraph.mk [(1, [2]), (2, [1])]) (WeightedGraph.mk [(1, [(2, 7)]), (2, [])]) 1 2
  exact ⟨h1 (by decide) (by decide), h2 (by decide) (by decide),
    h3 (by decide) (by decide), h4 (by decide) (by decide)⟩

/-! ## Claim C8: symmetry of `UndirectedGraph` under mutation sequences -/

/-- A mutation of an `UndirectedGraph` through its `IGraphMut`/`IGraphEdgeMut`
interface. -/
inductive UOp : Type
  | insN : Nat → UOp
  | remN : Nat → UOp
  | insE : Nat → Nat → UOp
  | remE : Nat → Nat → UOp
deriving DecidableEq, Repr

/-- Apply one mutation. -/
def applyUOp (g : UndirectedGraph) : UOp → UndirectedGraph
  | .insN n => g.insert_node n
  | .remN n => g.remove_node n
  | .insE a b => g.insert_edge a b
  | .remE a b => g.remove_edge a b

/-- Apply a mutation sequence left to right. -/
def applyUOps (g : UndirectedGraph) (ops : List UOp) : UndirectedGraph :=
  ops.foldl applyUOp g

/-- Adjacency symmetry of an undirected graph. -/
def SymmetricU (g : UndirectedGraph) : Prop :=
  ∀ a b, a ∈ g.get_adj b ↔ b ∈ g.get_adj a

/-- The representation invariant actually maintained by the container: distinct
keys, duplicate-free adjacency sets, and symmetry. -/
def GoodU (g : UndirectedGraph) : Prop :=
  (g.adj.map Prod.fst).Nodup ∧ (∀ x, (g.get_adj x).Nodup) ∧ SymmetricU g

/-- A sequence of mutations that never re-inserts an existing node and only
inserts edges whose two endpoints are present. -/
inductive SafeUOps : UndirectedGraph → List UOp → Prop
  | nil (g : UndirectedGraph) : SafeUOps g []
  | cons (g : UndirectedGraph) (op : UOp) (ops : List UOp)
      (hn : ∀ n, op = UOp.insN n → g.contains n = false)
      (he : ∀ a b, op = UOp.insE a b → g.contains a = true ∧ g.contains b = true)
      (hrest : SafeUOps (applyUOp g op) ops) : SafeUOps g (op :: ops)

namespace UndirectedGraph

theorem get_adj_insert_node (g : UndirectedGraph) (n x : Nat) :
    (g.insert_node n).get_adj x = if x = n then [] else g.get_adj x := by
  by_cases h : x = n
  · simp [get_adj, insert_node, h, lookupA_upsertA_self]
  · simp [get_adj, insert_node, h, lookupA_upsertA_ne _ _ _ _ h]

theorem contains_insert_node (g : UndirectedGraph) (n x : Nat) :
    (g.insert_node n).contains x = if x = n then true else g.contains x := by
  by_cases h : x = n
  · simp [contains, insert_node, h, lookupA_upsertA_self]
  · simp [contains, insert_node, h, lookupA_upsertA_ne _ _ _ _ h]

theorem get_adj_inner_insert_edge_of_contains (g : UndirectedGraph) (a b : Nat)
    (ha : g.contains a = true) (x : Nat) :
    (g.inner_insert_edge a b).get_adj x =
      if x = a then setIns (g.get_adj a) b else g.get_adj x := by
  cases hl : lookupA g.adj a with
  | none => simp [contains, hl] at ha
  | some links =>
    by_cases h : x = a
    · simp [get_adj, inner_insert_edge, hl, h, lookupA_upsertA_self]
    · simp [get_adj, inner_insert_edge, hl, h, lookupA_upsertA_ne _ _ _ _ h]

theorem inner_insert_edge_of_not_contains (g : UndirectedGraph) (a b : Nat)
    (ha : g.contains a = false) : g.inner_insert_edge a b = g := by
  cases hl : lookupA g.adj a with
  | none => simp [inner_insert_edge, hl]
  | some links => simp [contains, hl] at ha

theorem contains_inner_insert_edge (g : UndirectedGraph) (a b x : Nat) :
    (g.inner_insert_edge a b).contains x = g.contains x := by
  cases hl : lookupA g.adj a with
  | none => simp [inner_insert_edge, hl]
  | some links =>
    by_cases h : x = a
    · subst h
      simp [contains, inner_insert_edge, hl, lookupA_upsertA_self]
    · simp [contains, inner_insert_edge, hl, lookupA_upsertA_ne _ _ _ _ h]

theorem get_adj_inner_remove_edge (g : UndirectedGraph) (a b x : Nat) :
    (g.inner_remove_edge a b).get_adj x =
      if x = a then (g.get_adj a).erase b else g.get_adj x := by
  cases hl : lookupA g.adj a with
  | none =>
    by_cases h : x = a <;> simp [get_adj, inner_remove_edge, hl, h]
  | some links =>
    by_cases h : x = a
    · simp [get_adj, inner_remove_edge, hl, h, lookupA_upsertA_self]
    · simp [get_adj, inner_remove_edge, hl, h, lookupA_upsertA_ne _ _ _ _ h]

/-- Membership in the adjacency sets after `insert_edge` with both endpoints
present. -/
theorem mem_get_adj_insert_edge (g : UndirectedGraph) (a b : Nat)
    (ha : g.contains a = true) (hb : g.contains b = true) (u v : Nat) :
    u ∈ (g.insert_edge a b).get_adj v ↔
      (v = b ∧ u = a) ∨ (v = a ∧ u = b) ∨ u ∈ g.get_adj v := by
  have hb1 : (g.inner_insert_edge a b).contains b = true := by
    rw [contains_inner_insert_edge]; exact hb
  have A1 : ∀ x, (g.inner_insert_edge a b).get_adj x =
      if x = a then setIns (g.get_adj a) b else g.get_adj x :=
    get_adj_inner_insert_edge_of_contains g a b ha
  show u ∈ ((g.inner_insert_edge a b).inner_insert_edge b a).get_adj v ↔ _
  rw [get_adj_inner_insert_edge_of_contains _ b a hb1]
  by_cases hvb : v = b
  · rw [if_pos hvb, A1]
    by_cases hba : b = a
    · rw [if_pos hba]
      simp only [mem_setIns, hvb, hba]
      tauto
    · rw [if_neg hba]
      simp only [mem_setIns, hvb, hba]
      tauto
  · rw [if_neg hvb, A1]
    by_cases hva : v = a
    · rw [if_pos hva]
      have hab : ¬ (a = b) := fun h => hvb (hva.trans h)
      simp only [mem_setIns, hva, hab]
      tauto
    · rw [if_neg hva]
      simp only [hva, hvb]
      tauto

/-- Membership in the adjacency sets after `remove_edge` (duplicate-free
adjacency assumed). -/
theorem mem_get_adj_remove_edge (g : UndirectedGraph) (a b : Nat)
    (hnd : ∀ x, (g.get_adj x).Nodup) (u v : Nat) :
    u ∈ (g.remove_edge a b).get_adj v ↔
      u ∈ g.get_adj v ∧ ¬(v = a ∧ u = b) ∧ ¬(v = b ∧ u = a) := by
  have A1 : ∀ x, (g.inner_remove_edge a b).get_adj x =
      if x = a then (g.get_adj a).erase b else g.get_adj x :=
    get_adj_inner_remove_edge g a b
  show u ∈ ((g.inner_remove_edge a b).inner_remove_edge b a).get_adj v ↔ _
  rw [get_adj_inner_remove_edge _ b a]
  by_cases hvb : v = b
  · rw [if_pos hvb, A1]
    by_cases hba : b = a
    · rw [if_pos hba]
      rw [List.Nodup.mem_erase_iff ((hnd a).erase b), List.Nodup.mem_erase_iff (hnd a)]
      simp only [hvb, hba]
      tauto
    · rw [if_neg hba]
      rw [List.Nodup.mem_erase_iff (hnd b)]
      simp only [hvb, hba]
      tauto
  · rw [if_neg hvb, A1]
    by_cases hva : v = a
    · rw [if_pos hva]
      have hab : ¬ (a = b) := fun h => hvb (hva.trans h)
      rw [List.Nodup.mem_erase_iff (hnd a)]
      simp only [hva, hab]
      tauto
    · rw [if_neg hva]
      simp only [hva, hvb]
      tauto

/-- One step of the neighbour-cleanup loop inside `remove_node`. -/
def remNbrStep (n : Nat) (acc : UndirectedGraph) (neighbor : Nat) : UndirectedGraph :=
  match lookupA acc.adj neighbor with
  | some links => (⟨upsertA acc.adj neighbor (links.erase n)⟩ : UndirectedGraph)
  | none => acc

theorem remove_node_eq_fold (g : UndirectedGraph) (n : Nat) :
    g.remove_node n = ⟨removeA ((g.get_adj n).foldl (remNbrStep n) g).adj n⟩ := rfl

theorem lookupA_remNbrStep (n : Nat) (g : UndirectedGraph) (y z : Nat) :
    lookupA (remNbrStep n g y).adj z =
      if z = y then (lookupA g.adj y).map (fun l => l.erase n) else lookupA g.adj z := by
  unfold remNbrStep
  cases hl : lookupA g.adj y with
  | none =>
    by_cases h : z = y <;> simp [h, hl]
  | some links =>
    by_cases h : z = y
    · subst h
      simp [lookupA_upsertA_self, hl]
    · simp [h, lookupA_upsertA_ne _ _ _ _ h]

theorem keys_remNbrStep (n : Nat) (g : UndirectedGraph) (y : Nat) :
    (remNbrStep n g y).adj.map Prod.fst = g.adj.map Prod.fst := by
  unfold remNbrStep
  cases hl : lookupA g.adj y with
  | none => rfl
  | some links =>
    simp only
    rw [keys_upsertA, if_pos (lookupA_eq_some_mem_keys hl)]

theorem keys_remNbrFold (n : Nat) (ys : List Nat) :
    ∀ g : UndirectedGraph, (ys.foldl (remNbrStep n) g).adj.map Prod.fst =
      g.adj.map Prod.fst := by
  induction ys with
  | nil => intro g; rfl
  | cons y t ih => intro g; rw [List.foldl_cons, ih, keys_remNbrStep]

theorem lookupA_remNbrFold (n : Nat) (ys : List Nat) (hys : ys.Nodup) :
    ∀ (g : UndirectedGraph) (x : Nat),
      lookupA ((ys.foldl (remNbrStep n) g).adj) x =
        if x ∈ ys then (lookupA g.adj x).map (fun l => l.erase n)
        else lookupA g.adj x := by
  induction ys with
  | nil => intro g x; simp
  | cons y t ih =>
    intro g x
    simp only [List.nodup_cons] at hys
    rw [List.foldl_cons, ih hys.2]
    by_cases hxt : x ∈ t
    · have hxy : x ≠ y := fun h => hys.1 (h ▸ hxt)
      rw [if_pos hxt, if_pos (List.mem_cons.mpr (Or.inr hxt)), lookupA_remNbrStep,
        if_neg hxy]
    · rw [if_neg hxt, lookupA_remNbrStep]
      by_cases hxy : x = y
      · rw [if_pos hxy, if_pos (List.mem_cons.mpr (Or.inl hxy)), hxy]
      · rw [if_neg hxy, if_neg (by simp [hxy, hxt])]

/-- Full characterisation of adjacency after `remove_node`. -/
theorem get_adj_remove_node (g : UndirectedGraph) (n : Nat)
    (hk : (g.adj.map Prod.fst).Nodup) (hnd : (g.get_adj n).Nodup) (x : Nat) :
    (g.remove_node n).get_adj x =
      if x = n then []
      else if x ∈ g.get_adj n then (g.get_adj x).erase n
      else g.get_adj x := by
  rw [remove_node_eq_fold]
  by_cases hxn : x = n
  · subst hxn
    have hk1 : (((g.get_adj x).foldl (remNbrStep x) g).adj.map Prod.fst).Nodup := by
      rw [keys_remNbrFold]; exact hk
    rw [if_pos rfl]
    show (lookupA (removeA ((g.get_adj x).foldl (remNbrStep x) g).adj x) x).getD [] = []
    rw [lookupA_removeA_self_of_nodup x hk1]
    rfl
  · rw [if_neg hxn]
    show (lookupA (removeA ((g.get_adj n).foldl (remNbrStep n) g).adj n) x).getD [] = _
    rw [lookupA_removeA_ne _ _ _ hxn, lookupA_remNbrFold n (g.get_adj n) hnd g x]
    by_cases hmem : x ∈ g.get_adj n
    · rw [if_pos hmem, if_pos hmem]
      cases hl : lookupA g.adj x with
      | none => simp [get_adj, hl]
      | some l => simp [get_adj, hl]
    · rw [if_neg hmem, if_neg hmem]
      rfl

/-- `get_adj` of an absent node is empty. -/
theorem get_adj_eq_nil_of_not_contains (g : UndirectedGraph) (n : Nat)
    (h : g.contains n = false) : g.get_adj n = [] := by
  cases hl : lookupA g.adj n with
  | none => simp [get_adj, hl]
  | some l => simp [contains, hl] at h

theorem keys_inner_insert_edge (g : UndirectedGraph) (a b : Nat) :
    (g.inner_insert_edge a b).adj.map Prod.fst = g.adj.map Prod.fst := by
  unfold inner_insert_edge
  cases hl : lookupA g.adj a with
  | none => rfl
  | some links =>
    simp only
    rw [keys_upsertA, if_pos (lookupA_eq_some_mem_keys hl)]

theorem keys_inner_remove_edge (g : UndirectedGraph) (a b : Nat) :
    (g.inner_remove_edge a b).adj.map Prod.fst = g.adj.map Prod.fst := by
  unfold inner_remove_edge
  cases hl : lookupA g.adj a with
  | none => rfl
  | some links =>
    simp only
    rw [keys_upsertA, if_pos (lookupA_eq_some_mem_keys hl)]

end UndirectedGraph

theorem GoodU_new : GoodU UndirectedGraph.new := by
  refine ⟨by simp [UndirectedGraph.new], fun x => by simp [UndirectedGraph.get_adj,
    UndirectedGraph.new, lookupA], fun a b => ?_⟩
  simp [UndirectedGraph.get_adj, UndirectedGraph.new, lookupA]

theorem GoodU_insert_node (g : UndirectedGraph) (n : Nat) (h : GoodU g)
    (hfresh : g.contains n = false) : GoodU (g.insert_node n) := by
  obtain ⟨hk, hnd, hs⟩ := h
  have hadj : ∀ x, (g.insert_node n).get_adj x = if x = n then [] else g.get_adj x :=
    UndirectedGraph.get_adj_insert_node g n
  have hempty : g.get_adj n = [] := UndirectedGraph.get_adj_eq_nil_of_not_contains g n hfresh
  refine ⟨?_, ?_, ?_⟩
  · show ((upsertA g.adj n []).map Prod.fst).Nodup
    exact keys_upsertA_nodup n [] hk
  · intro x
    rw [hadj]
    by_cases hx : x = n <;> simp [hx, hnd x]
  · intro a b
    rw [hadj, hadj]
    by_cases hb : b = n <;> by_cases ha : a = n
    · simp [ha, hb]
    · rw [if_pos hb, if_neg ha]
      simp only [List.not_mem_nil, false_iff]
      intro hmem
      rw [hb] at hmem
      exact List.not_mem_nil a (hempty ▸ (hs n a).mp hmem)
    · rw [if_neg hb, if_pos ha]
      simp only [List.not_mem_nil, iff_false]
      intro hmem
      rw [ha] at hmem
      exact List.not_mem_nil b (hempty ▸ (hs b n).mpr hmem)
    · rw [if_neg hb, if_neg ha]
      exact hs a b

theorem GoodU_remove_node (g : UndirectedGraph) (n : Nat) (h : GoodU g) :
    GoodU (g.remove_node n) := by
  obtain ⟨hk, hnd, hs⟩ := h
  have hadj : ∀ x, (g.remove_node n).get_adj x =
      if x = n then []
      else if x ∈ g.get_adj n then (g.get_adj x).erase n
      else g.get_adj x := UndirectedGraph.get_adj_remove_node g n hk (hnd n)
  refine ⟨?_, ?_, ?_⟩
  · rw [UndirectedGraph.remove_node_eq_fold]
    refine List.Nodup.sublist (List.Sublist.map _ (removeA_sublist _ _)) ?_
    rw [UndirectedGraph.keys_remNbrFold]
    exact hk
  · intro x
    rw [hadj]
    by_cases hx : x = n
    · rw [if_pos hx]
      exact List.nodup_nil
    · rw [if_neg hx]
      by_cases hm : x ∈ g.get_adj n
      · rw [if_pos hm]
        exact (hnd x).erase n
      · rw [if_neg hm]
        exact hnd x
  · intro a b
    rw [hadj, hadj]
    by_cases hb : b = n
    · rw [if_pos hb]
      simp only [List.not_mem_nil, false_iff]
      by_cases ha : a = n
      · rw [if_pos ha]
        exact List.not_mem_nil b
      · rw [if_neg ha]
        by_cases ham : a ∈ g.get_adj n
        · rw [if_pos ham]
          intro hmem
          rw [hb] at hmem
          exact ((List.Nodup.mem_erase_iff (hnd a)).mp hmem).1 rfl
        · rw [if_neg ham]
          intro hmem
          rw [hb] at hmem
          exact ham ((hs n a).mp hmem)
    · rw [if_neg hb]
      by_cases ha : a = n
      · rw [if_pos ha]
        simp only [List.not_mem_nil, iff_false]
        by_cases hbm : b ∈ g.get_adj n
        · rw [if_pos hbm]
          intro hmem
          rw [ha] at hmem
          exact ((List.Nodup.mem_erase_iff (hnd b)).mp hmem).1 rfl
        · rw [if_neg hbm]
          intro hmem
          rw [ha] at hmem
          exact hbm ((hs n b).mp hmem)
      · rw [if_neg ha]
        have hiff : a ∈ g.get_adj b ↔ b ∈ g.get_adj a := hs a b
        by_cases hbm : b ∈ g.get_adj n <;> by_cases ham : a ∈ g.get_adj n
        · rw [if_pos hbm, if_pos ham, List.mem_erase_of_ne ha, List.mem_erase_of_ne hb]
          exact hiff
        · rw [if_pos hbm, if_neg ham, List.mem_erase_of_ne ha]
          exact hiff
        · rw [if_neg hbm, if_pos ham, List.mem_erase_of_ne hb]
          exact hiff
        · rw [if_neg hbm, if_neg ham]
          exact hiff

theorem GoodU_insert_edge (g : UndirectedGraph) (a b : Nat) (h : GoodU g)
    (ha : g.contains a = true) (hb : g.contains b = true) :
    GoodU (g.insert_edge a b) := by
  obtain ⟨hk, hnd, hs⟩ := h
  refine ⟨?_, ?_, ?_⟩
  · show ((g.inner_insert_edge a b).inner_insert_edge b a).adj.map Prod.fst |>.Nodup
    rw [UndirectedGraph.keys_inner_insert_edge, UndirectedGraph.keys_inner_insert_edge]
    exact hk
  · intro x
    have hb1 : (g.inner_insert_edge a b).contains b = true := by
      rw [UndirectedGraph.contains_inner_insert_edge]; exact hb
    show ((g.inner_insert_edge a b).inner_insert_edge b a).get_adj x |>.Nodup
    rw [UndirectedGraph.get_adj_inner_insert_edge_of_contains _ b a hb1]
    have h1 : ∀ y, ((g.inner_insert_edge a b).get_adj y).Nodup := by
      intro y
      rw [UndirectedGraph.get_adj_inner_insert_edge_of_contains _ a b ha]
      by_cases hy : y = a <;> simp [hy, hnd y, setIns_nodup (hnd a)]
    by_cases hx : x = b <;> simp [hx, h1 x, setIns_nodup (h1 b)]
  · intro u v
    rw [UndirectedGraph.mem_get_adj_insert_edge g a b ha hb,
      UndirectedGraph.mem_get_adj_insert_edge g a b ha hb]
    have hiff : u ∈ g.get_adj v ↔ v ∈ g.get_adj u := hs u v
    tauto

theorem GoodU_remove_edge (g : UndirectedGraph) (a b : Nat) (h : GoodU g) :
    GoodU (g.remove_edge a b) := by
  obtain ⟨hk, hnd, hs⟩ := h
  refine ⟨?_, ?_, ?_⟩
  · show ((g.inner_remove_edge a b).inner_remove_edge b a).adj.map Prod.fst |>.Nodup
    rw [UndirectedGraph.keys_inner_remove_edge, UndirectedGraph.keys_inner_remove_edge]
    exact hk
  · intro x
    show ((g.inner_remove_edge a b).inner_remove_edge b a).get_adj x |>.Nodup
    rw [UndirectedGraph.get_adj_inner_remove_edge _ b a]
    have h1 : ∀ y, ((g.inner_remove_edge a b).get_adj y).Nodup := by
      intro y
      rw [UndirectedGraph.get_adj_inner_remove_edge _ a b]
      by_cases hy : y = a <;> simp [hy, hnd y, (hnd a).erase b]
    by_cases hx : x = b <;> simp [hx, h1 x, (h1 b).erase a]
  · intro u v
    rw [UndirectedGraph.mem_get_adj_remove_edge g a b hnd,
      UndirectedGraph.mem_get_adj_remove_edge g a b hnd]
    have hiff : u ∈ g.get_adj v ↔ v ∈ g.get_adj u := hs u v
    tauto

theorem GoodU_applyUOp (g : UndirectedGraph) (op : UOp) (h : GoodU g)
    (hn : ∀ n, op = UOp.insN n → g.contains n = false)
    (he : ∀ a b, op = UOp.insE a b → g.contains a = true ∧ g.contains b = true) :
    GoodU (applyUOp g op) := by
  cases op with
  | insN n => exact GoodU_insert_node g n h (hn n rfl)
  | remN n => exact GoodU_remove_node g n h
  | insE a b => exact GoodU_insert_edge g a b h (he a b rfl).1 (he a b rfl).2
  | remE a b => exact GoodU_remove_edge g a b h

theorem GoodU_applyUOps (ops : List UOp) :
    ∀ g : UndirectedGraph, GoodU g → SafeUOps g ops → GoodU (applyUOps g ops) := by
  induction ops with
  | nil => intro g hg _; exact hg
  | cons op t ih =>
    intro g hg hsafe
    cases hsafe with
    | cons _ _ _ hn he hrest =>
      exact ih (applyUOp g op) (GoodU_applyUOp g op hg hn he) hrest

/-! ### The C8 claim: counterexample and amended theorem -/

/-- C8 (refuting evaluation): starting from `new`, the sequence
insert 1, insert 2, insert edge 1–2, insert 1 again produces a graph where
node 2 still lists 1 but node 1's adjacency was reset: symmetry is broken,
because `insert_node` of an existing node discards its adjacency one-sidedly. -/
theorem undirected_insert_node_breaks_symmetry :
    ¬ SymmetricU (applyUOps UndirectedGraph.new
        [UOp.insN 1, UOp.insN 2, UOp.insE 1 2, UOp.insN 1]) := by
  intro hs
  have h1 : (1 : Nat) ∈ (applyUOps UndirectedGraph.new
      [UOp.insN 1, UOp.insN 2, UOp.insE 1 2, UOp.insN 1]).get_adj 2 := by decide
  have h2 : (2 : Nat) ∉ (applyUOps UndirectedGraph.new
      [UOp.insN 1, UOp.insN 2, UOp.insE 1 2, UOp.insN 1]).get_adj 1 := by decide
  exact h2 ((hs 1 2).mp h1)

/-- C8 (amended): adjacency of an `UndirectedGraph` built from `new()` by a
sequence of `insert_node`/`remove_node`/`insert_edge`/`remove_edge` calls is
symmetric, provided the sequence never calls `insert_node` on a node that is
already present and only calls `insert_edge` when both endpoints are present
(the counterexamples show both provisos are necessary). -/
theorem undirected_symmetry_amended (ops : List UOp)
    (h : SafeUOps UndirectedGraph.new ops) :
    SymmetricU (applyUOps UndirectedGraph.new ops) :=
  (GoodU_applyUOps ops UndirectedGraph.new GoodU_new h).2.2

/-- Witness for C8's amended theorem on a concrete safe sequence. -/
theorem undirected_symmetry_amended_witness :
    SymmetricU (applyUOps UndirectedGraph.new
      [UOp.insN 1, UOp.insN 2, UOp.insE 1 2, UOp.remN 2]) := by
  refine undirected_symmetry_amended _ ?_
  refine SafeUOps.cons _ _ _ (by intro n hn; cases hn; decide) (by intro a b hab; cases hab) ?_
  refine SafeUOps.cons _ _ _ (by intro n hn; cases hn; decide) (by intro a b hab; cases hab) ?_
  refine SafeUOps.cons _ _ _ (by intro n hn; cases hn) (by intro a b hab; cases hab; exact ⟨by decide, by decide⟩) ?_
  refine SafeUOps.cons _ _ _ (by intro n hn; cases hn) (by intro a b hab; cases hab) ?_
  exact SafeUOps.nil _

/-! ## Depth-first search (`src/algorithms/graphs/dfs.rs`)

`depth_first_search` is generic over `IDefiniteGraph`; the core below takes the
node enumeration `all` and adjacency `adj` of the concrete graph. Recursion
depth is bounded by the number of distinct reachable nodes, supplied as fuel by
the per-graph wrappers. -/

/-- The mutable state of `depth_first_search`: the two mark sets, the cycle
flag, the (reverse) topological buffer, and the root set. -/
structure DfsState where
  perm : List Nat
  temp : List Nat
  cyclic : Bool
  order : List Nat
  roots : List Nat
deriving DecidableEq, Repr

/-- The `for node in graph.get_adj(&node)` loop of `dfs_visit`: thread the
state through a visit of each list element. -/
def dfs_visitList (f : Nat → DfsState → DfsState) : List Nat → DfsState → DfsState
  | [], s => s
  | v :: vs, s => dfs_visitList f vs (f v s)

/-- `dfs_visit`. -/
def dfs_visit (adj : Nat → List Nat) : Nat → Nat → DfsState → DfsState
  | 0, _, s => s
  | fuel + 1, node, s =>
    if node ∈ s.perm then { s with roots := s.roots.erase node }
    else if node ∈ s.temp then { s with roots := s.roots.erase node, cyclic := true }
    else
      let s1 : DfsState := { s with temp := setIns s.temp node }
      let s2 := dfs_visitList (dfs_visit adj fuel) (adj node) s1
      { s2 with temp := s2.temp.erase node, perm := setIns s2.perm node,
                order := s2.order ++ [node] }

/-- The whole `depth_first_search`: one `dfs_visit` per unmarked node of the
enumeration, then reverse the emission buffer. -/
def depth_first_search_core (all : List Nat) (adj : Nat → List Nat) (fuel : Nat) :
    DfsState :=
  let s := all.foldl
    (fun st origin =>
      if origin ∉ st.perm ∧ origin ∉ st.temp then
        dfs_visit adj fuel origin { st with roots := setIns st.roots origin }
      else st)
    ⟨[], [], false, [], []⟩
  { s with order := s.order.reverse }

/-- All nodes `depth_first_search` can ever visit on a `DirectedGraph`: keys and
edge targets. -/
def DirectedGraph.dfsUniv (g : DirectedGraph) : List Nat :=
  (g.adj.map Prod.fst ++ (g.adj.map Prod.snd).flatten).dedup

/-- `depth_first_search` instantiated at `DirectedGraph`. -/
def DirectedGraph.depth_first_search (g : DirectedGraph) : DfsState :=
  depth_first_search_core g.get_all g.get_adj (g.dfsUniv.length + 1)

/-- All nodes `depth_first_search` can ever visit on a `WeightedGraph`. -/
def WeightedGraph.dfsUniv (g : WeightedGraph) : List Nat :=
  (g.adj.map Prod.fst ++ (g.adj.map (fun p => p.2.map Prod.fst)).flatten).dedup

/-- `depth_first_search` instantiated at `WeightedGraph` (used by `dag`). -/
def WeightedGraph.depth_first_search (g : WeightedGraph) : DfsState :=
  depth_first_search_core g.get_all g.get_adj (g.dfsUniv.length + 1)

/-! ## Dijkstra's shortest path (`src/algorithms/graphs/dijkstras.rs`) -/

/-- `dist.clone().into_iter().min_by_key(|(_, w)| w)`: the first entry of
minimal weight (Rust's `min_by_key` keeps the earliest among ties). -/
def minByKeyW : List (Nat × Nat) → Option (Nat × Nat)
  | [] => none
  | p :: t =>
    match minByKeyW t with
    | none => some p
    | some q => if p.2 ≤ q.2 then some p else some q

/-- The relax loop over `graph.get_adj_weighted(&node)` of `dijkstras`. -/
def relaxEdges (origin node weight : Nat) (edges : List (Nat × Nat))
    (dist prev : List (Nat × Nat)) : List (Nat × Nat) × List (Nat × Nat) :=
  edges.foldl
    (fun acc e =>
      match lookupA acc.1 e.1, lookupA acc.2 e.1 with
      | some node_weight, some _ =>
        if node_weight > weight + e.2 then
          (upsertA acc.1 e.1 (weight + e.2), upsertA acc.2 e.1 node)
        else acc
      | none, none =>
        if e.1 ≠ origin then
          (upsertA acc.1 e.1 (weight + e.2), upsertA acc.2 e.1 node)
        else acc
      | _, _ => acc)
    (dist, prev)

/-- The backtracking loop `while let Some(curr) = cur`, with fuel; fuel
`prev.length + 1` covers every chain the algorithms build (their chains never
repeat a node). -/
def prevWalkAux (prev : List (Nat × Nat)) : Nat → Option Nat → List Nat → List Nat
  | _, none, res => res
  | 0, some _, res => res
  | fuel + 1, some curr, res => prevWalkAux prev fuel (lookupA prev curr) (res ++ [curr])

/-- Path reconstruction of `dijkstras`/`dag`: follow predecessor links back from
the target, then reverse. -/
def buildPath (prev : List (Nat × Nat)) (target : Nat) : List Nat :=
  (prevWalkAux prev (prev.length + 1) (lookupA prev target) [target]).reverse

/-- The main loop of `dijkstras`, with fuel; the outer `none` models running out
of fuel and is proved unreachable for the fuel the wrapper passes. -/
def dijkstrasLoop (g : WeightedGraph) (origin target : Nat) :
    Nat → List (Nat × Nat) → List (Nat × Nat) → List Nat → Option (Option (List Nat))
  | 0, _, _, _ => none
  | fuel + 1, dist, prev, known =>
    if target ∈ known then some (some (buildPath prev target))
    else
      match minByKeyW dist with
      | some (node, weight) =>
        let dist1 := removeA dist node
        if node ∈ known then dijkstrasLoop g origin target fuel dist1 prev known
        else
          let known1 := setIns known node
          let (dist2, prev2) :=
            relaxEdges origin node weight (g.get_adj_weighted node) dist1 prev
          dijkstrasLoop g origin target fuel dist2 prev2 known1
      | none => some none

/-- Fuel sufficient for `dijkstrasLoop` (proved below): the loop measure is
lexicographic in (unknown nodes, dist entries), both bounded by the universe. -/
def WeightedGraph.dijkstrasFuel (g : WeightedGraph) (origin : Nat) : Nat :=
  ((origin :: g.dfsUniv).length + 2) * ((origin :: g.dfsUniv).length + 2)

/-- `dijkstras`. -/
def dijkstras (g : WeightedGraph) (origin target : Nat) : Option (List Nat) :=
  (dijkstrasLoop g origin target (g.dijkstrasFuel origin) [(origin, 0)] [] []).join

/-! ## DAG shortest path (`src/algorithms/graphs/dag_expl.rs`) -/

/-- The unconditional edge inserts done when the loop reaches `origin`. -/
def dagRelaxOrigin (node : Nat) (edges : List (Nat × Nat))
    (weights preds : List (Nat × Nat)) : List (Nat × Nat) × List (Nat × Nat) :=
  edges.foldl
    (fun acc e => (upsertA acc.1 e.1 e.2, upsertA acc.2 e.1 node))
    (weights, preds)

/-- The relax loop of `dag` for a node after `origin`. In the discovery arm the
source inserts the bare edge weight (`weights.insert(adj.clone(), weight)`),
not `weight + cur_weight`; this is modelled faithfully. -/
def dagRelax (node cur_weight : Nat) (edges : List (Nat × Nat))
    (weights preds : List (Nat × Nat)) : List (Nat × Nat) × List (Nat × Nat) :=
  edges.foldl
    (fun acc e =>
      match lookupA acc.1 e.1, lookupA acc.2 e.1 with
      | some adj_weight, some _ =>
        if adj_weight > e.2 + cur_weight then
          (upsertA acc.1 e.1 (e.2 + cur_weight), upsertA acc.2 e.1 node)
        else acc
      | none, none => (upsertA acc.1 e.1 e.2, upsertA acc.2 e.1 node)
      | _, _ => acc)
    (weights, preds)

/-- The `for node in order` loop of `dag`; outer `none` models the
`weights.get(&node).unwrap()` panic, inner `none` the early `return None`. -/
def dagLoop (g : WeightedGraph) (origin target : Nat) :
    List Nat → List (Nat × Nat) → List (Nat × Nat) → Bool → Option (Option (List Nat))
  | [], _, preds, found =>
    if !found then some none else some (some (buildPath preds target))
  | node :: rest, weights, preds, found =>
    if node = origin then
      let w1 := upsertA weights node 0
      let (w2, p2) := dagRelaxOrigin node (g.get_adj_weighted node) w1 preds
      dagLoop g origin target rest w2 p2 true
    else if found then
      match lookupA weights node with
      | none => none
      | some cur_weight =>
        let (w2, p2) := dagRelax node cur_weight (g.get_adj_weighted node) weights preds
        dagLoop g origin target rest w2 p2 found
    else if node = target then some none
    else dagLoop g origin target rest weights preds found

/-- `dag`: DFS first, `assert!(!cyclic)` (outer `none` on failure), then one
relaxation pass in topological order. -/
def dag (g : WeightedGraph) (origin target : Nat) : Option (Option (List Nat)) :=
  let r := g.depth_first_search
  if r.cyclic then none
  else dagLoop g origin target r.order [] [] false

/-! ## Claim C5: `dag` versus `dijkstras` on acyclic graphs -/

/-- Total weight of a node sequence, reading each step's weight off the graph. -/
def pathCost (g : WeightedGraph) : List Nat → Nat
  | a :: b :: rest =>
    (match (g.get_adj_weighted a).find? (fun e => e.1 = b) with
      | some e => e.2
      | none => 0) + pathCost g (b :: rest)
  | _ => 0

/-- The acyclic diamond 1→2 (weight 10), 1→3 (weight 1), 2→4 (weight 1),
3→4 (weight 2); the shortest 1→4 path is [1,3,4] with weight 3. -/
def dagBugGraph : WeightedGraph :=
  ⟨[(1, [(3, 1), (2, 10)]), (2, [(4, 1)]), (3, [(4, 2)]), (4, [])]⟩

/-- C5 (refuting evaluation): on the acyclic diamond `dagBugGraph`, both
algorithms return a path, but `dag` returns [1,2,4] of total weight 11 while
`dijkstras` returns the true shortest path [1,3,4] of total weight 3. The
discovery arm of `dag`'s relax loop stores the bare edge weight instead of
`cur_weight + weight`, so node 4 is recorded at distance 1 through node 2 and
the later, cheaper relaxation through node 3 never wins. -/
theorem dag_dijkstras_disagree_on_weight :
    (WeightedGraph.depth_first_search dagBugGraph).cyclic = false ∧
    dag dagBugGraph 1 4 = some (some [1, 2, 4]) ∧
    dijkstras dagBugGraph 1 4 = some [1, 3, 4] ∧
    pathCost dagBugGraph [1, 2, 4] = 11 ∧
    pathCost dagBugGraph [1, 3, 4] = 3 := by
  refine ⟨by decide, by decide, by decide, by decide, by decide⟩

/-! ## Claim C7: which precondition violations abort -/

/-- C7 (counterexample): an acyclic graph on which `dag` still aborts. The two
isolated nodes are enumerated as [2, 1], DFS reports no cycle with topological
order [1, 2], and `dag 1 2` hits `weights.get(&2).unwrap()` on `None` — a
panic on an input whose DFS is acyclic, refuting "panics only if cyclic". -/
theorem dag_panics_on_acyclic_graph :
    (WeightedGraph.depth_first_search (WeightedGraph.mk [(2, []), (1, [])])).cyclic
        = false ∧
    dag (WeightedGraph.mk [(2, []), (1, [])]) 1 2 = none := by
  refine ⟨by decide, by decide⟩

/-- C7 (amended): `dag` panics whenever DFS finds the graph cyclic (but may
also panic on acyclic inputs, via the unchecked `unwrap` on nodes that follow
the origin in topological order without being reachable from it), and
`extract_min` panics if and only if the heap is empty. -/
theorem dag_cyclic_and_extract_min_panic :
    (∀ (g : WeightedGraph) (o t : Nat),
        (WeightedGraph.depth_first_search g).cyclic = true → dag g o t = none) ∧
    (∀ h : List Nat, BinaryHeap.extract_min h = none ↔ BinaryHeap.len h = 0) := by
  constructor
  · intro g o t hc
    unfold dag
    simp [hc]
  · intro h
    by_cases hl : BinaryHeap.len h = 0 <;> simp [BinaryHeap.extract_min, hl]

/-- Witness for C7's amended theorem: a one-node self-loop graph is cyclic and
`dag` aborts on it; the empty heap `[0]` has length 0 and `extract_min` aborts. -/
theorem dag_cyclic_and_extract_min_panic_witness :
    dag (WeightedGraph.mk [(1, [(1, 0)])]) 1 1 = none ∧
    (BinaryHeap.extract_min [0] = none ↔ BinaryHeap.len [0] = 0) :=
  ⟨dag_cyclic_and_extract_min_panic.1 (WeightedGraph.mk [(1, [(1, 0)])]) 1 1 (by decide),
   dag_cyclic_and_extract_min_panic.2 [0]⟩

/-! ## Heap correctness (claim C6) -/

namespace BinaryHeap

/-- `Desc i k`: `i` is an ancestor of `k` (including `k` itself) in the
1-indexed heap tree, i.e. repeatedly halving `k` reaches `i`. -/
def Desc (i k : Nat) : Prop := ∃ m, k / 2 ^ m = i

/-- `SubHeap l i`: the subtree rooted at `i` is heap-ordered. -/
def SubHeap (l : List Nat) (i : Nat) : Prop :=
  ∀ j, 2 ≤ j → j < l.length → Desc i (j / 2) → getH l (j / 2) ≤ getH l j

theorem Desc_self (i : Nat) : Desc i i := ⟨0, by simp⟩

theorem Desc_le {i k : Nat} (h : Desc i k) : i ≤ k := by
  obtain ⟨m, rfl⟩ := h
  exact Nat.div_le_self _ _

theorem Desc_child_left (i : Nat) : Desc i (2 * i) :=
  ⟨1, by rw [pow_one]; omega⟩

theorem Desc_child_right (i : Nat) : Desc i (2 * i + 1) :=
  ⟨1, by rw [pow_one]; omega⟩

theorem Desc_of_parent {i k : Nat} (h : Desc i (k / 2)) : Desc i k := by
  obtain ⟨m, hm⟩ := h
  refine ⟨m + 1, ?_⟩
  rw [pow_succ', ← Nat.div_div_eq_div_mul]
  exact hm

theorem Desc_parent_of_ne {i k : Nat} (h : Desc i k) (hne : k ≠ i) :
    Desc i (k / 2) := by
  obtain ⟨m, hm⟩ := h
  cases m with
  | zero => exact absurd (by simpa using hm) hne
  | succ m' =>
    refine ⟨m', ?_⟩
    rw [pow_succ', ← Nat.div_div_eq_div_mul] at hm
    exact hm

theorem Desc_trans {i j k : Nat} (h1 : Desc i j) (h2 : Desc j k) : Desc i k := by
  obtain ⟨a, ha⟩ := h1
  obtain ⟨b, hb⟩ := h2
  refine ⟨b + a, ?_⟩
  rw [pow_add, ← Nat.div_div_eq_div_mul, hb, ha]

theorem Desc_one {k : Nat} (h : 1 ≤ k) : Desc 1 k := by
  induction k using Nat.strong_induction_on with
  | _ k ih =>
    rcases Nat.lt_or_ge k 2 with hk | hk
    · have : k = 1 := by omega
      exact this ▸ Desc_self 1
    · exact Desc_of_parent (ih (k / 2) (by omega) (by omega))

theorem Desc_two_mul_le {a b : Nat} (h : Desc a b) (hne : b ≠ a) : 2 * a ≤ b := by
  have := Desc_le (Desc_parent_of_ne h hne)
  omega

theorem Desc_split {i k : Nat} (hi : 1 ≤ i) (h : Desc i k) (hne : k ≠ i) :
    Desc (2 * i) k ∨ Desc (2 * i + 1) k := by
  obtain ⟨m, hm⟩ := h
  cases m with
  | zero => exact absurd (by simpa using hm) hne
  | succ m' =>
    have hy : (k / 2 ^ m') / 2 = i := by
      rw [Nat.div_div_eq_div_mul, Nat.mul_comm, ← pow_succ']
      exact hm
    have hdesc : Desc (k / 2 ^ m') k := ⟨m', rfl⟩
    have : k / 2 ^ m' = 2 * i ∨ k / 2 ^ m' = 2 * i + 1 := by omega
    rcases this with h2 | h2
    · exact Or.inl (h2 ▸ hdesc)
    · exact Or.inr (h2 ▸ hdesc)

theorem Desc_anc_total {a b x : Nat} (h1 : Desc a x) (h2 : Desc b x) :
    Desc a b ∨ Desc b a := by
  obtain ⟨p, hp⟩ := h1
  obtain ⟨q, hq⟩ := h2
  rcases Nat.le_total p q with hle | hle
  · right
    refine ⟨q - p, ?_⟩
    rw [← hp, Nat.div_div_eq_div_mul, ← pow_add]
    have hpq : p + (q - p) = q := by omega
    rw [hpq, hq]
  · left
    refine ⟨p - q, ?_⟩
    rw [← hq, Nat.div_div_eq_div_mul, ← pow_add]
    have hpq : q + (p - q) = p := by omega
    rw [hpq, hp]

theorem Desc_sibling_disj {i x : Nat} (hi : 1 ≤ i)
    (h1 : Desc (2 * i) x) (h2 : Desc (2 * i + 1) x) : False := by
  rcases Desc_anc_total h1 h2 with h | h
  · have := Desc_two_mul_le h (by omega)
    omega
  · have := Desc_two_mul_le h (by omega)
    omega

theorem not_Desc_zero {i : Nat} (hi : 1 ≤ i) : ¬ Desc i 0 :=
  fun h => by have := Desc_le h; omega

theorem getH_eq (l : List Nat) (i : Nat) : getH l i = (l[i]?).getD 0 := by
  simp [getH, List.getD_eq_getElem?_getD]

theorem getH_eq_getElem {l : List Nat} {i : Nat} (h : i < l.length) :
    getH l i = l[i] := by
  rw [getH_eq, List.getElem?_eq_getElem h]
  rfl

theorem getH_eq_zero_of_le {l : List Nat} {i : Nat} (h : l.length ≤ i) :
    getH l i = 0 := by
  rw [getH_eq, List.getElem?_eq_none h]
  rfl

theorem length_swapH (l : List Nat) (i j : Nat) : (swapH l i j).length = l.length := by
  simp [swapH]

theorem getElem?_swapH_fst {l : List Nat} {i j : Nat} (hi : i < l.length)
    (hj : j < l.length) : (swapH l i j)[i]? = some (getH l j) := by
  by_cases hij : i = j
  · subst hij
    rw [swapH, List.getElem?_set_self (by simpa using hi)]
  · rw [swapH, List.getElem?_set_ne (fun h => hij h.symm),
      List.getElem?_set_self hi]

theorem getElem?_swapH_snd {l : List Nat} {i j : Nat} (hj : j < l.length) :
    (swapH l i j)[j]? = some (getH l i) := by
  rw [swapH, List.getElem?_set_self (by simpa using hj)]

theorem getH_swapH_fst {l : List Nat} {i j : Nat} (hi : i < l.length)
    (hj : j < l.length) : getH (swapH l i j) i = getH l j := by
  rw [getH_eq, getElem?_swapH_fst hi hj]
  rfl

theorem getH_swapH_snd {l : List Nat} {i j : Nat} (hj : j < l.length) :
    getH (swapH l i j) j = getH l i := by
  rw [getH_eq, getElem?_swapH_snd hj]
  rfl

theorem getH_swapH_other {l : List Nat} {i j k : Nat} (hki : k ≠ i) (hkj : k ≠ j) :
    getH (swapH l i j) k = getH l k := by
  rw [getH_eq, getH_eq, swapH, List.getElem?_set_ne (fun h => hkj h.symm),
    List.getElem?_set_ne (fun h => hki h.symm)]

theorem swapH_perm {l : List Nat} {i j : Nat} (hi : i < l.length)
    (hj : j < l.length) : List.Perm (swapH l i j) l := by
  rw [List.perm_iff_count]
  intro a
  have hxj : getH l j = l[j] := getH_eq_getElem hj
  have hxi : getH l i = l[i] := getH_eq_getElem hi
  have hj1 : j < (l.set i (getH l j)).length := by simpa using hj
  rw [swapH, List.count_set _ _ _ _ hj1, List.count_set _ _ _ _ hi]
  have hset : (l.set i (getH l j))[j] = l[j] := by
    by_cases hij : i = j
    · subst hij
      simp [List.getElem_set, hxj]
    · simp [List.getElem_set, hij]
  rw [hset, hxi, hxj]
  simp only [beq_iff_eq]
  have hci : l[i] ∈ l := List.getElem_mem hi
  have hcj : l[j] ∈ l := List.getElem_mem hj
  by_cases hia : l[i] = a <;> by_cases hja : l[j] = a <;>
    simp only [hia, hja, if_true, if_false, if_pos rfl]
  · have hc : 0 < l.count a := List.count_pos_iff.mpr (hia ▸ hci)
    omega
  · have hc : 0 < l.count a := List.count_pos_iff.mpr (hia ▸ hci)
    omega
  · have hc : 0 < l.count a := List.count_pos_iff.mpr (hja ▸ hcj)
    omega
  · omega

theorem SubHeap_mono {l : List Nat} {a b : Nat} (hd : Desc a b) (hs : SubHeap l a) :
    SubHeap l b :=
  fun j h2 hlen hdj => hs j h2 hlen (Desc_trans hd hdj)

theorem Desc_parent_child (j : Nat) : Desc (j / 2) j :=
  ⟨1, by rw [pow_one]⟩

theorem SubHeap_root_le {l : List Nat} {t : Nat} (hs : SubHeap l t) (ht : 1 ≤ t) :
    ∀ j, Desc t j → j < l.length → getH l t ≤ getH l j := by
  intro j
  induction j using Nat.strong_induction_on with
  | _ j ih =>
    intro hd hlen
    by_cases hj : j = t
    · subst hj
      exact le_refl _
    · have h2t : 2 * t ≤ j := Desc_two_mul_le hd hj
      have h2 : 2 ≤ j := by omega
      have hp : Desc t (j / 2) := Desc_parent_of_ne hd hj
      have hple : getH l t ≤ getH l (j / 2) :=
        ih (j / 2) (by omega) hp (by omega)
      exact hple.trans (hs j h2 hlen hp)

theorem bdTarget_eq_spec {l : List Nat} {i : Nat} (hi : 1 ≤ i)
    (h : bdTarget l i = i) :
    (2 * i < l.length → getH l i ≤ getH l (2 * i)) ∧
    (2 * i + 1 < l.length → getH l i ≤ getH l (2 * i + 1)) := by
  simp only [bdTarget, left_child_index] at h
  by_cases c1 : i * 2 ≤ l.length - 1 ∧ getH l i > getH l (i * 2)
  · rw [if_pos c1] at h
    by_cases c2 : i * 2 + 1 ≤ l.length - 1 ∧ getH l (i * 2) > getH l (i * 2 + 1)
    · rw [if_pos c2] at h
      omega
    · rw [if_neg c2] at h
      omega
  · rw [if_neg c1] at h
    constructor
    · intro hlt
      have : ¬ (i * 2 ≤ l.length - 1 ∧ getH l i > getH l (i * 2)) := c1
      have hle : i * 2 ≤ l.length - 1 := by omega
      have := fun hgt => c1 ⟨hle, hgt⟩
      rw [Nat.mul_comm 2 i]
      omega
    · intro hlt
      by_cases c2 : i * 2 + 1 ≤ l.length - 1 ∧ getH l i > getH l (i * 2 + 1)
      · rw [if_pos c2] at h
        omega
      · have hle : i * 2 + 1 ≤ l.length - 1 := by omega
        have := fun hgt => c2 ⟨hle, hgt⟩
        rw [Nat.mul_comm 2 i]
        omega

theorem bdTarget_ne_spec {l : List Nat} {i : Nat} (hi : 1 ≤ i)
    (hne : bdTarget l i ≠ i) :
    (bdTarget l i = 2 * i ∨ bdTarget l i = 2 * i + 1) ∧
    bdTarget l i < l.length ∧
    getH l (bdTarget l i) < getH l i ∧
    (∀ s, (s = 2 * i ∨ s = 2 * i + 1) → s ≠ bdTarget l i → s < l.length →
      getH l (bdTarget l i) ≤ getH l s) := by
  simp only [bdTarget, left_child_index] at hne ⊢
  by_cases c1 : i * 2 ≤ l.length - 1 ∧ getH l i > getH l (i * 2)
  · rw [if_pos c1]
    rw [if_pos c1] at hne
    by_cases c2 : i * 2 + 1 ≤ l.length - 1 ∧ getH l (i * 2) > getH l (i * 2 + 1)
    · rw [if_pos c2] at hne ⊢
      refine ⟨Or.inr (by omega), by omega, by omega, ?_⟩
      intro s hs hsne hslen
      have hs2 : s = i * 2 := by omega
      subst hs2
      omega
    · rw [if_neg c2] at hne ⊢
      refine ⟨Or.inl (by omega), by omega, by omega, ?_⟩
      intro s hs hsne hslen
      have hs2 : s = i * 2 + 1 := by omega
      subst hs2
      have hle : i * 2 + 1 ≤ l.length - 1 := by omega
      have := fun hgt => c2 ⟨hle, hgt⟩
      omega
  · rw [if_neg c1]
    rw [if_neg c1] at hne
    by_cases c2 : i * 2 + 1 ≤ l.length - 1 ∧ getH l i > getH l (i * 2 + 1)
    · rw [if_pos c2] at hne ⊢
      refine ⟨Or.inr (by omega), by omega, by omega, ?_⟩
      intro s hs hsne hslen
      have hs2 : s = i * 2 := by omega
      subst hs2
      have hle : i * 2 ≤ l.length - 1 := by omega
      have := fun hgt => c1 ⟨hle, hgt⟩
      omega
    · rw [if_neg c2] at hne
      omega

theorem bubble_down_basic :
    ∀ (fuel : Nat) (l : List Nat) (i : Nat), 1 ≤ i →
    (bubble_down fuel l i).length = l.length ∧
    List.Perm (bubble_down fuel l i) l ∧
    (∀ k, ¬ Desc i k → getH (bubble_down fuel l i) k = getH l k) ∧
    (∀ j, Desc i j → j < l.length →
      ∃ j0, Desc i j0 ∧ j0 < l.length ∧ getH (bubble_down fuel l i) j = getH l j0) := by
  intro fuel
  induction fuel with
  | zero =>
    intro l i hi
    exact ⟨rfl, List.Perm.refl l, fun k _ => rfl,
      fun j hd hlen => ⟨j, hd, hlen, rfl⟩⟩
  | succ fuel ih =>
    intro l i hi
    by_cases hne : bdTarget l i = i
    · have hstep : bubble_down (fuel + 1) l i = l := by
        simp only [bubble_down, hne, ne_eq, not_true_eq_false, if_false]
      rw [hstep]
      exact ⟨rfl, List.Perm.refl l, fun k _ => rfl,
        fun j hd hlen => ⟨j, hd, hlen, rfl⟩⟩
    · obtain ⟨hchild, htlen, hlt, hsib⟩ := bdTarget_ne_spec hi hne
      set t := bdTarget l i with hT
      have hit : i < t := by omega
      have hilen : i < l.length := by omega
      have hdesc_t : Desc i t := by
        rcases hchild with h | h
        · exact h ▸ Desc_child_left i
        · exact h ▸ Desc_child_right i
      have hstep : bubble_down (fuel + 1) l i = bubble_down fuel (swapH l i t) t := by
        simp only [bubble_down, ← hT, hne, ne_eq, not_false_iff, if_true]
      set l1 := swapH l i t with hL1
      have hlen1 : l1.length = l.length := length_swapH l i t
      obtain ⟨ihlen, ihperm, ihunch, ihval⟩ := ih l1 t (by omega)
      rw [hstep]
      refine ⟨ihlen.trans hlen1, ihperm.trans (swapH_perm hilen htlen), ?_, ?_⟩
      · intro k hk
        have hki : k ≠ i := fun h => hk (h ▸ Desc_self i)
        have hkt : k ≠ t := fun h => hk (h ▸ hdesc_t)
        have hnkt : ¬ Desc t k := fun h => hk (Desc_trans hdesc_t h)
        rw [ihunch k hnkt, hL1, getH_swapH_other hki hkt]
      · intro j hd hlen
        by_cases hdt : Desc t j
        · obtain ⟨j0, hj0d, hj0len, hj0⟩ := ihval j hdt (by omega)
          by_cases hj0t : j0 = t
          · refine ⟨i, Desc_self i, hilen, ?_⟩
            rw [hj0, hj0t, hL1, getH_swapH_snd htlen]
          · have hj0i : j0 ≠ i := by
              have := Desc_le hj0d
              omega
            refine ⟨j0, Desc_trans hdesc_t hj0d, by omega, ?_⟩
            rw [hj0, hL1, getH_swapH_other hj0i hj0t]
        · by_cases hji : j = i
          · refine ⟨t, hdesc_t, htlen, ?_⟩
            have : getH (bubble_down fuel l1 t) j = getH l1 j := ihunch j (hji ▸ hdt)
            rw [this, hji, hL1, getH_swapH_fst hilen htlen]
          · have hjt : j ≠ t := fun h => hdt (h ▸ Desc_self t)
            refine ⟨j, hd, hlen, ?_⟩
            rw [ihunch j hdt, hL1, getH_swapH_other hji hjt]

theorem bubble_down_subheap :
    ∀ (fuel : Nat) (l : List Nat) (i : Nat), 1 ≤ i → l.length - i ≤ fuel →
    SubHeap l (2 * i) → SubHeap l (2 * i + 1) → SubHeap (bubble_down fuel l i) i := by
  intro fuel
  induction fuel with
  | zero =>
    intro l i hi hfuel _ _ j h2 hlen hdj
    simp only [bubble_down] at hlen ⊢
    have := Desc_le hdj
    omega
  | succ fuel ih =>
    intro l i hi hfuel hsl hsr
    by_cases hne : bdTarget l i = i
    · have hstep : bubble_down (fuel + 1) l i = l := by
        simp only [bubble_down, hne, ne_eq, not_true_eq_false, if_false]
      rw [hstep]
      intro j h2 hlen hdj
      by_cases hpi : j / 2 = i
      · have hj : j = 2 * i ∨ j = 2 * i + 1 := by omega
        obtain ⟨hcl, hcr⟩ := bdTarget_eq_spec hi hne
        rcases hj with hj | hj
        · rw [hpi, hj]
          exact hcl (hj ▸ hlen)
        · rw [hpi, hj]
          exact hcr (hj ▸ hlen)
      · rcases Desc_split hi hdj hpi with hd | hd
        · exact hsl j h2 hlen hd
        · exact hsr j h2 hlen hd
    · obtain ⟨hchild, htlen, hlt, hsib⟩ := bdTarget_ne_spec hi hne
      set t := bdTarget l i with hT
      have hit : i < t := by omega
      have hilen : i < l.length := by omega
      have hdesc_t : Desc i t := by
        rcases hchild with h | h
        · exact h ▸ Desc_child_left i
        · exact h ▸ Desc_child_right i
      have hstep : bubble_down (fuel + 1) l i = bubble_down fuel (swapH l i t) t := by
        simp only [bubble_down, ← hT, hne, ne_eq, not_false_iff, if_true]
      set l1 := swapH l i t with hL1
      have hlen1 : l1.length = l.length := length_swapH l i t
      -- the subtree rooted at t is heap-ordered in l
      have hst : SubHeap l t := by
        rcases hchild with h | h
        · exact h ▸ hsl
        · exact h ▸ hsr
      -- positions strictly below t are untouched by the swap
      have hswap_deep : ∀ x, Desc t x → x ≠ t → getH l1 x = getH l x := by
        intro x hdx hxt
        have h2t : 2 * t ≤ x := Desc_two_mul_le hdx hxt
        exact getH_swapH_other (by omega) (by omega)
      have hsub1 : ∀ c, (c = 2 * t ∨ c = 2 * t + 1) → SubHeap l1 c := by
        intro c hc j h2 hlen hdj
        have hct : Desc t c := by
          rcases hc with h | h
          · exact h ▸ Desc_child_left t
          · exact h ▸ Desc_child_right t
        have hdp : Desc t (j / 2) := Desc_trans hct hdj
        have hdjj : Desc t j := Desc_trans hdp (Desc_parent_child j)
        have hp_ne : j / 2 ≠ t := by
          have hcle : c ≤ j / 2 := Desc_le hdj
          rcases hc with h | h <;> omega
        have hj_ne : j ≠ t := by
          have : j / 2 ≤ j := by omega
          have hcle : c ≤ j / 2 := Desc_le hdj
          rcases hc with h | h <;> omega
        rw [hswap_deep _ hdp hp_ne, hswap_deep _ hdjj hj_ne]
        exact hst j h2 (by omega) hdp
      have hr := ih l1 t (by omega) (by omega)
        (hsub1 _ (Or.inl rfl)) (hsub1 _ (Or.inr rfl))
      obtain ⟨blen, _, bunch, bval⟩ := bubble_down_basic fuel l1 t (by omega)
      rw [hstep]
      intro j h2 hlen hdj
      rw [blen, hlen1] at hlen
      -- the root value of the rotated subtree
      have hroot : getH (bubble_down fuel l1 t) i = getH l t := by
        have hnd : ¬ Desc t i := fun h => by have := Desc_le h; omega
        rw [bunch i hnd, hL1, getH_swapH_fst hilen htlen]
      by_cases hpi : j / 2 = i
      · have hj : j = 2 * i ∨ j = 2 * i + 1 := by omega
        rw [hpi, hroot]
        by_cases hjt : j = t
        · obtain ⟨j0, hj0d, hj0len, hj0⟩ := bval t (Desc_self t) (by omega)
          rw [hjt, hj0]
          by_cases hj0t : j0 = t
          · rw [hj0t, hL1, getH_swapH_snd htlen]
            omega
          · rw [hL1, getH_swapH_other (by have := Desc_le hj0d; omega) hj0t]
            exact SubHeap_root_le hst (by omega) j0 hj0d (by rw [hlen1] at hj0len; omega)
        · have hnd : ¬ Desc t j := by
            intro hdx
            have h2t := Desc_two_mul_le hdx hjt
            rcases hchild with h | h <;> rcases hj with h2' | h2' <;> omega
          have hji : j ≠ i := by rcases hj with h2' | h2' <;> omega
          rw [bunch j hnd, hL1, getH_swapH_other hji hjt]
          exact hsib j hj hjt hlen
      · by_cases hdt : Desc t (j / 2)
        · exact hr j h2 (by omega) hdt
        · have hsplit : ∃ s, (s = 2 * i ∨ s = 2 * i + 1) ∧ s ≠ t ∧ Desc s (j / 2) := by
            rcases Desc_split hi hdj hpi with hd | hd
            · exact ⟨2 * i, Or.inl rfl, fun h => hdt (h ▸ hd), hd⟩
            · exact ⟨2 * i + 1, Or.inr rfl, fun h => hdt (h ▸ hd), hd⟩
          obtain ⟨s, hs_or, hst_ne, hsd⟩ := hsplit
          have hshs : SubHeap l s := by
            rcases hs_or with h | h
            · exact h ▸ hsl
            · exact h ▸ hsr
          have hp_nt : j / 2 ≠ t := fun h => hdt (h ▸ Desc_self t)
          have hj_nt : j ≠ t := by
            intro h
            subst h
            rcases hchild with h | h <;> omega
          have hdj_t : ¬ Desc t j := fun h => hdt (Desc_parent_of_ne h hj_nt)
          have hp_ge : s ≤ j / 2 := Desc_le hsd
          have hdiv : j / 2 ≤ j := Nat.div_le_self j 2
          have hj_ni : j ≠ i := by rcases hs_or with h | h <;> omega
          rw [bunch j hdj_t, bunch (j / 2) hdt, hL1,
            getH_swapH_other (fun h => hpi h) hp_nt, getH_swapH_other hj_ni hj_nt]
          exact hshs j h2 hlen hsd

theorem heapOrdered_subHeap_one {h : List Nat} (hord : heapOrdered h) : SubHeap h 1 :=
  fun j h2 hlen _ => hord j h2 hlen

theorem subHeap_one_heapOrdered {h : List Nat} (hs : SubHeap h 1) : heapOrdered h :=
  fun j h2 hlen => hs j h2 hlen (Desc_one (by omega))

theorem heapifyLoop_spec :
    ∀ (i : Nat) (l : List Nat), (∀ j, i < j → 1 ≤ j → SubHeap l j) →
    (heapifyLoop i l).length = l.length ∧
    List.Perm (heapifyLoop i l) l ∧
    getH (heapifyLoop i l) 0 = getH l 0 ∧
    (∀ j, 1 ≤ j → SubHeap (heapifyLoop i l) j) := by
  intro i
  induction i with
  | zero =>
    intro l hl
    exact ⟨rfl, List.Perm.refl l, rfl, fun j hj => hl j (by omega) hj⟩
  | succ i ih =>
    intro l hl
    have hstep : heapifyLoop (i + 1) l = heapifyLoop i (bubble_down l.length l (i + 1)) :=
      rfl
    set l1 := bubble_down l.length l (i + 1) with hL1
    obtain ⟨blen, bperm, bunch, _⟩ := bubble_down_basic l.length l (i + 1) (by omega)
    have hs1 : SubHeap l1 (i + 1) :=
      bubble_down_subheap l.length l (i + 1) (by omega) (by omega)
        (hl _ (by omega) (by omega)) (hl _ (by omega) (by omega))
    have hl1 : ∀ j, i < j → 1 ≤ j → SubHeap l1 j := by
      intro j hij hj1
      by_cases hd : Desc (i + 1) j
      · exact SubHeap_mono hd hs1
      · by_cases hji : j = i + 1
        · exact hji ▸ hs1
        · -- the subtree of j is disjoint from that of i+1
          intro k h2 hklen hdk
          have hklen' : k < l.length := by rw [blen] at hklen; exact hklen
          have hdkk : Desc j k := Desc_trans hdk (Desc_parent_child k)
          have hnd : ∀ x, Desc j x → ¬ Desc (i + 1) x := by
            intro x hjx hix
            rcases Desc_anc_total hjx hix with hcase | hcase
            · have := Desc_le hcase
              omega
            · exact hd hcase
          rw [bunch k (hnd k hdkk), bunch (k / 2) (hnd (k / 2) hdk)]
          exact hl j (by omega) hj1 k h2 hklen' hdk
    obtain ⟨ilen, iperm, ihead, isub⟩ := ih l1 hl1
    rw [hstep]
    refine ⟨ilen.trans blen, iperm.trans bperm, ?_, isub⟩
    rw [ihead, bunch 0 (not_Desc_zero (by omega))]

theorem heapify_spec (src : List Nat) :
    (heapify src).length = src.length + 1 ∧
    List.Perm (heapify src) (0 :: src) ∧
    getH (heapify src) 0 = 0 ∧
    heapOrdered (heapify src) := by
  have hinit : ∀ j, src.length / 2 < j → 1 ≤ j → SubHeap (0 :: src) j := by
    intro j hj hj1 k h2 hklen hdk
    have hge : j ≤ k / 2 := Desc_le hdk
    have : (0 :: src).length = src.length + 1 := rfl
    omega
  obtain ⟨hlen, hperm, hhead, hsub⟩ := heapifyLoop_spec (src.length / 2) (0 :: src) hinit
  exact ⟨by simpa using hlen, hperm, hhead,
    subHeap_one_heapOrdered (hsub 1 (le_refl 1))⟩

theorem extract_min_spec {h : List Nat} (hord : heapOrdered h)
    (hlen : 1 ≤ len h) :
    ∃ h2, extract_min h = some (getH h 1, h2) ∧
      heapOrdered h2 ∧
      h2.length + 1 = h.length ∧
      getH h2 0 = getH h 0 ∧
      List.Perm (h.drop 1) (getH h 1 :: h2.drop 1) ∧
      (∀ x ∈ h.drop 1, getH h 1 ≤ x) := by
  have hsize : len h = h.length - 1 := rfl
  have hhlen : 2 ≤ h.length := by unfold len at hlen; omega
  set size := len h with hS
  have hslen : size < h.length := by omega
  have h1len : 1 < h.length := by omega
  set h1 := swapH h 1 size with hH1
  have hlen1 : h1.length = h.length := length_swapH h 1 size
  have hmval : getH h1 size = getH h 1 := getH_swapH_snd hslen
  set h2p := h1.eraseIdx size with hH2
  have hdrop : h2p = h1.dropLast := (List.dropLast_eq_eraseIdx (by omega)).symm
  have hlen2 : h2p.length = h.length - 1 := by
    rw [hH2, List.length_eraseIdx, if_pos (by omega)]
    omega
  have h1ne : h1 ≠ [] := by
    intro hemp
    rw [hemp] at hlen1
    simp at hlen1
    omega
  have hsplit : h2p ++ [getH h1 size] = h1 := by
    have hgl : getH h1 size = h1.getLast h1ne := by
      rw [List.getLast_eq_getElem h1 h1ne,
        ← getH_eq_getElem (show h1.length - 1 < h1.length by omega)]
      congr 1
      omega
    rw [hdrop, hgl]
    exact List.dropLast_append_getLast h1ne
  have hperm1 : List.Perm h1 h := swapH_perm h1len hslen
  have hperm2 : List.Perm h (getH h 1 :: h2p) := by
    have : List.Perm (h2p ++ [getH h1 size]) (getH h1 size :: h2p) :=
      List.perm_append_singleton _ _
    rw [hsplit, hmval] at this
    exact hperm1.symm.trans this
  -- values strictly inside the old heap are untouched
  have hmid : ∀ x, 2 ≤ x → x < size → getH h2p x = getH h x := by
    intro x h2x hx
    have hne1 : x ≠ 1 := by omega
    have hnes : x ≠ size := by omega
    have : h2p[x]? = h1[x]? := by
      rw [hH2]
      exact List.getElem?_eraseIdx_of_lt h1 size x hx
    rw [getH_eq, getH_eq, this, ← getH_eq, ← getH_eq, hH1, getH_swapH_other hne1 hnes]
  have hsub : ∀ c, (c = 2 ∨ c = 3) → SubHeap h2p c := by
    intro c hc k h2k hklen hdk
    have hcge : c ≤ k / 2 := Desc_le hdk
    have hk2 : k < size := by rw [hlen2] at hklen; omega
    rw [hmid (k / 2) (by omega) (by omega), hmid k (by omega) (by omega)]
    exact hord k h2k (by omega)
  set r := bubble_down h2p.length h2p 1 with hR
  obtain ⟨blen, bperm, bunch, _⟩ := bubble_down_basic h2p.length h2p 1 (le_refl 1)
  have hrstep : extract_min h = some (getH h 1, r) := by
    unfold extract_min
    rw [if_neg (by omega : ¬ len h = 0)]
    show some (getH (swapH h 1 (len h)) (len h),
        bubble_down ((swapH h 1 (len h)).eraseIdx (len h)).length
          ((swapH h 1 (len h)).eraseIdx (len h)) 1) = some (getH h 1, r)
    rw [← hS, ← hH1, hmval, ← hH2, ← hR]
  have hrord : heapOrdered r := by
    apply subHeap_one_heapOrdered
    apply bubble_down_subheap h2p.length h2p 1 (le_refl 1) (by omega)
    · exact hsub 2 (Or.inl rfl)
    · exact hsub 3 (Or.inr rfl)
  have hrhead : getH r 0 = getH h 0 := by
    rw [hR, bunch 0 (not_Desc_zero (le_refl 1))]
    have h0 : h2p[0]? = h1[0]? := by
      rw [hH2]
      exact List.getElem?_eraseIdx_of_lt h1 size 0 (by omega)
    rw [getH_eq, getH_eq, h0, ← getH_eq, ← getH_eq, hH1,
      getH_swapH_other (by omega) (by omega)]
  have hrlen : r.length + 1 = h.length := by
    rw [blen, hlen2]
    omega
  have hrperm : List.Perm h (getH h 1 :: r) :=
    hperm2.trans (List.Perm.cons _ bperm.symm)
  -- strip the sentinel position from the permutation
  have hrne : 1 ≤ r.length := by omega
  have hhdec : getH h 0 :: h.drop 1 = h := by
    have := List.getElem_cons_drop h 0 (by omega)
    rw [← getH_eq_getElem (by omega : 0 < h.length)] at this
    simpa using this
  have hrdec : getH h 0 :: r.drop 1 = r := by
    have := List.getElem_cons_drop r 0 (by omega)
    rw [← getH_eq_getElem (by omega : 0 < r.length), hrhead] at this
    simpa using this
  have hpermdrop : List.Perm (h.drop 1) (getH h 1 :: r.drop 1) := by
    have hstep1 : List.Perm (getH h 0 :: h.drop 1) (getH h 1 :: getH h 0 :: r.drop 1) := by
      rw [hhdec]
      have := hrperm
      rw [← hrdec] at this
      exact this
    have hstep2 : List.Perm (getH h 0 :: h.drop 1) (getH h 0 :: getH h 1 :: r.drop 1) :=
      hstep1.trans (List.Perm.swap _ _ _)
    exact hstep2.cons_inv
  have hmin : ∀ x ∈ h.drop 1, getH h 1 ≤ x := by
    intro x hx
    obtain ⟨n, hn, hxn⟩ := List.mem_iff_getElem.mp hx
    have hnlen : n + 1 < h.length := by
      have := List.length_drop 1 h
      omega
    have hxval : x = getH h (n + 1) := by
      rw [← hxn, getH_eq_getElem hnlen]
      rw [List.getElem_drop]
      congr 1
      omega
    rw [hxval]
    exact SubHeap_root_le (heapOrdered_subHeap_one hord) (le_refl 1) (n + 1)
      (Desc_one (by omega)) hnlen
  exact ⟨r, hrstep, hrord, hrlen, hrhead, hpermdrop, hmin⟩

theorem extractAll_spec :
    ∀ (k : Nat) (h : List Nat), heapOrdered h → len h = k →
    (extractAll k h).Sorted (· ≤ ·) ∧ List.Perm (extractAll k h) (h.drop 1) := by
  intro k
  induction k with
  | zero =>
    intro h _ hk
    have : h.length ≤ 1 := by unfold len at hk; omega
    rw [List.drop_eq_nil_of_le this]
    exact ⟨List.sorted_nil, List.Perm.refl []⟩
  | succ k ih =>
    intro h hord hk
    obtain ⟨h2, hstep, h2ord, h2len, _, hpermdrop, hmin⟩ :=
      extract_min_spec hord (by omega)
    have hk2 : len h2 = k := by
      unfold len at hk ⊢
      omega
    obtain ⟨ihsorted, ihperm⟩ := ih h2 h2ord hk2
    have hunfold : extractAll (k + 1) h = getH h 1 :: extractAll k h2 := by
      show (match extract_min h with
        | none => []
        | some (m, h') => m :: extractAll k h') = getH h 1 :: extractAll k h2
      rw [hstep]
    rw [hunfold]
    constructor
    · rw [List.sorted_cons]
      refine ⟨?_, ihsorted⟩
      intro b hb
      have hb2 : b ∈ h2.drop 1 := (ihperm.mem_iff).mp hb
      have hbh : b ∈ h.drop 1 := (hpermdrop.mem_iff).mpr (List.mem_cons_of_mem _ hb2)
      exact hmin b hbh
    · exact (List.Perm.cons _ ihperm).trans hpermdrop.symm

end BinaryHeap

/-- C6: `from_slice` followed by `into_sorted_vec` (which is exactly
`heapsort`) returns the input multiset sorted ascending: the result is sorted
and a permutation of the input list. -/
theorem heapsort_sorts (l : List Nat) :
    BinaryHeap.heapsort l = BinaryHeap.into_sorted_vec (BinaryHeap.from_slice l) ∧
    (BinaryHeap.heapsort l).Sorted (· ≤ ·) ∧
    List.Perm (BinaryHeap.heapsort l) l := by
  obtain ⟨hlen, hperm, hhead, hord⟩ := BinaryHeap.heapify_spec l
  have hfseq : BinaryHeap.from_slice l = BinaryHeap.heapify l := rfl
  have hfs : BinaryHeap.len (BinaryHeap.from_slice l) = l.length := by
    unfold BinaryHeap.len
    rw [hfseq, hlen]
    omega
  obtain ⟨hsorted, hpermdrop⟩ :=
    BinaryHeap.extractAll_spec l.length (BinaryHeap.from_slice l) hord hfs
  have hh : BinaryHeap.heapsort l =
      BinaryHeap.extractAll l.length (BinaryHeap.from_slice l) := by
    show BinaryHeap.extractAll (BinaryHeap.len (BinaryHeap.from_slice l))
      (BinaryHeap.from_slice l) = _
    rw [hfs]
  have hdropl : List.Perm ((BinaryHeap.from_slice l).drop 1) l := by
    have hne : 0 < (BinaryHeap.from_slice l).length := by
      rw [hfseq, hlen]
      omega
    have hdec : BinaryHeap.getH (BinaryHeap.from_slice l) 0 ::
        (BinaryHeap.from_slice l).drop 1 = BinaryHeap.from_slice l := by
      have := List.getElem_cons_drop (BinaryHeap.from_slice l) 0 hne
      rw [← BinaryHeap.getH_eq_getElem hne] at this
      simpa using this
    have hhead0 : BinaryHeap.getH (BinaryHeap.from_slice l) 0 = 0 := hhead
    have hperm0 : List.Perm (BinaryHeap.getH (BinaryHeap.from_slice l) 0 ::
        (BinaryHeap.from_slice l).drop 1) (0 :: l) := by
      rw [hdec, hfseq]
      exact hperm
    rw [hhead0] at hperm0
    exact hperm0.cons_inv
  refine ⟨rfl, ?_, ?_⟩
  · rw [hh]
    exact hsorted
  · rw [hh]
    exact hpermdrop.trans hdropl

/-! ## Breadth-first search (`src/algorithms/graphs/bfs.rs`) -/

/-- Inner `for adj in graph.get_adj(&node)` loop of `breadth_first_search`:
every neighbour not yet in `known` is recorded there with path `parents` and
pushed onto the next frontier. -/
def bfsVisitAdj (parents : List Nat) :
    List Nat → List (Nat × List Nat) → List Nat → List (Nat × List Nat) × List Nat
  | [], known, nf => (known, nf)
  | adj :: rest, known, nf =>
    match lookupA known adj with
    | some _ => bfsVisitAdj parents rest known nf
    | none => bfsVisitAdj parents rest (upsertA known adj parents) (nf ++ [adj])

/-- The `for node in frontier` loop of `breadth_first_search`: `parents` is the
recorded path to `node` extended with `node` itself (the source `unwrap` on
`known.get(&node)` is always safe, because frontier nodes are always known;
`getD []` makes that case harmless and unreachable). -/
def bfsStep (g : DirectedGraph) :
    List Nat → List (Nat × List Nat) → List Nat → List (Nat × List Nat) × List Nat
  | [], known, nf => (known, nf)
  | node :: rest, known, nf =>
    let r := bfsVisitAdj ((lookupA known node).getD [] ++ [node])
      (g.get_adj node) known nf
    bfsStep g rest r.1 r.2

/-- The `while frontier.len() > 0` loop, with fuel: one unit per layer. -/
def bfsLoop (g : DirectedGraph) :
    Nat → List Nat → List (Nat × List Nat) → List (Nat × List Nat)
  | 0, _, known => known
  | fuel + 1, frontier, known =>
    if frontier.isEmpty then known
    else
      let r := bfsStep g frontier known []
      bfsLoop g fuel r.2 r.1

/-- Every key of `known` lies in this pool (the origin plus all adjacency
targets), and layers are disjoint, so its size bounds the number of loop
iterations. -/
def bfsPool (g : DirectedGraph) (origin : Nat) : List Nat :=
  origin :: (g.adj.map Prod.snd).flatten

/-- `breadth_first_search` on a `DirectedGraph`. -/
def breadth_first_search (g : DirectedGraph) (origin : Nat) :
    List (Nat × List Nat) :=
  bfsLoop g ((bfsPool g origin).length + 1) [origin] [(origin, [])]

/-- One directed edge as the algorithms explore it: `v` is listed among the
out-neighbours of `u`. -/
def EStep (g : DirectedGraph) (u v : Nat) : Prop := v ∈ g.get_adj u

/-- A walk of exactly `k` edges from `o` ending at `n`. -/
def ReachN (g : DirectedGraph) (o : Nat) : Nat → Nat → Prop
  | 0, n => n = o
  | k + 1, n => ∃ m, ReachN g o k m ∧ EStep g m n

/-- `p` is the strict-prefix form of a path from `o` to `n`: the node sequence
`p ++ [n]` starts at `o` and follows edges. -/
def PathOK (g : DirectedGraph) (o : Nat) (p : List Nat) (n : Nat) : Prop :=
  (p ++ [n]).head? = some o ∧ List.Chain' (EStep g) (p ++ [n])

/-- `d` is the least edge count over all walks from `o` to `n`. -/
def distIs (g : DirectedGraph) (o n d : Nat) : Prop :=
  ReachN g o d n ∧ ∀ k, ReachN g o k n → d ≤ k

theorem distIs_unique {g : DirectedGraph} {o n d1 d2 : Nat}
    (h1 : distIs g o n d1) (h2 : distIs g o n d2) : d1 = d2 :=
  Nat.le_antisymm (h1.2 d2 h2.1) (h2.2 d1 h1.1)

theorem reach_exists_min {g : DirectedGraph} {o n k : Nat} (h : ReachN g o k n) :
    ∃ d, d ≤ k ∧ distIs g o n d := by
  induction k using Nat.strong_induction_on with
  | _ k ih =>
    by_cases hlt : ∃ j, j < k ∧ ReachN g o j n
    · obtain ⟨j, hj, hrj⟩ := hlt
      obtain ⟨d, hd, hdist⟩ := ih j hj hrj
      exact ⟨d, by omega, hdist⟩
    · push_neg at hlt
      refine ⟨k, le_refl k, h, fun k' hk' => ?_⟩
      by_contra hcon
      exact hlt k' (by omega) hk'

theorem distIs_succ_pred {g : DirectedGraph} {o n d : Nat}
    (h : distIs g o n (d + 1)) : ∃ m, EStep g m n ∧ distIs g o m d := by
  obtain ⟨⟨m, hm, hmn⟩, hmin⟩ := h
  obtain ⟨d', hd', hdist⟩ := reach_exists_min hm
  have hge : d + 1 ≤ d' + 1 := hmin (d' + 1) ⟨m, hdist.1, hmn⟩
  have hdd : d' = d := by omega
  exact ⟨m, hmn, hdd ▸ hdist⟩

theorem distIs_no_gap {g : DirectedGraph} {o t : Nat}
    (h : ∀ n, ¬ distIs g o n t) : ∀ j n, ¬ distIs g o n (t + j) := by
  intro j
  induction j with
  | zero => exact h
  | succ j ih =>
    intro n hn
    have he : t + (j + 1) = (t + j) + 1 := by omega
    rw [he] at hn
    obtain ⟨m, _, hm⟩ := distIs_succ_pred hn
    exact ih m hm

theorem distIs_exists_le {g : DirectedGraph} {o : Nat} :
    ∀ t n, distIs g o n t → ∀ s, s ≤ t → ∃ m, distIs g o m s := by
  intro t
  induction t with
  | zero =>
    intro n h s hs
    have hz : s = 0 := by omega
    exact ⟨n, hz ▸ h⟩
  | succ t ih =>
    intro n h s hs
    by_cases hst : s = t + 1
    · exact ⟨n, hst ▸ h⟩
    · obtain ⟨m, _, hm⟩ := distIs_succ_pred h
      exact ih m hm s (by omega)

theorem lookupA_eq_some_mem {β : Type} {l : List (Nat × β)} {n : Nat} {v : β}
    (h : lookupA l n = some v) : (n, v) ∈ l := by
  induction l with
  | nil => simp [lookupA] at h
  | cons p t ih =>
    obtain ⟨k, w⟩ := p
    by_cases hk : k = n
    · subst hk
      simp only [lookupA, if_pos] at h
      cases h
      exact List.mem_cons_self _ _
    · simp only [lookupA, if_neg hk] at h
      exact List.mem_cons_of_mem _ (ih h)

theorem bfsVisitAdj_cons_known (parents adjl : List Nat)
    (known : List (Nat × List Nat)) (nf : List Nat) (adj : Nat) (v : List Nat)
    (h : lookupA known adj = some v) :
    bfsVisitAdj parents (adj :: adjl) known nf =
      bfsVisitAdj parents adjl known nf := by
  simp only [bfsVisitAdj, h]

theorem bfsVisitAdj_cons_new (parents adjl : List Nat)
    (known : List (Nat × List Nat)) (nf : List Nat) (adj : Nat)
    (h : lookupA known adj = none) :
    bfsVisitAdj parents (adj :: adjl) known nf =
      bfsVisitAdj parents adjl (upsertA known adj parents) (nf ++ [adj]) := by
  simp only [bfsVisitAdj, h]

theorem bfsVisitAdj_spec (parents : List Nat) :
    ∀ (adjl : List Nat) (known : List (Nat × List Nat)) (nf : List Nat),
    (∀ n p, lookupA known n = some p →
      lookupA (bfsVisitAdj parents adjl known nf).1 n = some p) ∧
    (∀ n p, lookupA known n = none →
      lookupA (bfsVisitAdj parents adjl known nf).1 n = some p →
      n ∈ adjl ∧ p = parents) ∧
    (∀ n, n ∈ adjl →
      (lookupA (bfsVisitAdj parents adjl known nf).1 n).isSome = true) ∧
    (∀ n, n ∈ (bfsVisitAdj parents adjl known nf).2 ↔
      (n ∈ nf ∨ (lookupA known n = none ∧
        (lookupA (bfsVisitAdj parents adjl known nf).1 n).isSome = true))) := by
  intro adjl
  induction adjl with
  | nil =>
    intro known nf
    simp only [bfsVisitAdj]
    refine ⟨fun n p h => h, ?_, ?_, ?_⟩
    · intro n p h1 h2
      rw [h1] at h2
      exact Option.noConfusion h2
    · intro n hn
      exact absurd hn (List.not_mem_nil n)
    · intro n
      constructor
      · intro h
        exact Or.inl h
      · rintro (h | ⟨h1, h2⟩)
        · exact h
        · rw [h1] at h2
          simp at h2
  | cons adj rest ih =>
    intro known nf
    cases hc : lookupA known adj with
    | some v =>
      rw [bfsVisitAdj_cons_known parents rest known nf adj v hc]
      obtain ⟨A1, A2, A3, A4⟩ := ih known nf
      refine ⟨A1, ?_, ?_, A4⟩
      · intro n p h1 h2
        obtain ⟨hmem, hp⟩ := A2 n p h1 h2
        exact ⟨List.mem_cons_of_mem _ hmem, hp⟩
      · intro n hn
        rcases List.mem_cons.mp hn with hn | hn
        · subst hn
          rw [A1 n v hc]
          rfl
        · exact A3 n hn
    | none =>
      rw [bfsVisitAdj_cons_new parents rest known nf adj hc]
      obtain ⟨B1, B2, B3, B4⟩ := ih (upsertA known adj parents) (nf ++ [adj])
      have hself : lookupA (upsertA known adj parents) adj = some parents :=
        lookupA_upsertA_self known adj parents
      have hother : ∀ n, n ≠ adj →
          lookupA (upsertA known adj parents) n = lookupA known n := by
        intro n hn
        exact lookupA_upsertA_ne known adj n parents hn
      refine ⟨?_, ?_, ?_, ?_⟩
      · intro n p h1
        have hne : n ≠ adj := by
          intro he
          rw [he, hc] at h1
          exact Option.noConfusion h1
        apply B1 n p
        rw [hother n hne]
        exact h1
      · intro n p h1 h2
        by_cases hne : n = adj
        · subst hne
          have := B1 n parents hself
          rw [this] at h2
          exact ⟨List.mem_cons_self _ _, (Option.some.inj h2).symm⟩
        · have h1' : lookupA (upsertA known adj parents) n = none := by
            rw [hother n hne]
            exact h1
          obtain ⟨hmem, hp⟩ := B2 n p h1' h2
          exact ⟨List.mem_cons_of_mem _ hmem, hp⟩
      · intro n hn
        rcases List.mem_cons.mp hn with hn | hn
        · subst hn
          rw [B1 n parents hself]
          rfl
        · exact B3 n hn
      · intro n
        by_cases hne : n = adj
        · subst hne
          constructor
          · intro _
            refine Or.inr ⟨hc, ?_⟩
            rw [B1 n parents hself]
            rfl
          · intro _
            exact (B4 n).mpr (Or.inl (by simp))
        · have e1 : (n ∈ nf ++ [adj]) ↔ n ∈ nf := by simp [hne]
          have hB4 := B4 n
          rw [e1, hother n hne] at hB4
          exact hB4

theorem bfsStep_spec (g : DirectedGraph) :
    ∀ (F : List Nat) (known : List (Nat × List Nat)) (nf : List Nat),
    (∀ m ∈ F, (lookupA known m).isSome = true) →
    (∀ n p, lookupA known n = some p →
      lookupA (bfsStep g F known nf).1 n = some p) ∧
    (∀ n p, lookupA known n = none → lookupA (bfsStep g F known nf).1 n = some p →
      ∃ m q, m ∈ F ∧ lookupA known m = some q ∧ EStep g m n ∧ p = q ++ [m]) ∧
    (∀ m ∈ F, ∀ n, EStep g m n →
      (lookupA (bfsStep g F known nf).1 n).isSome = true) ∧
    (∀ n, n ∈ (bfsStep g F known nf).2 ↔ (n ∈ nf ∨ (lookupA known n = none ∧
      (lookupA (bfsStep g F known nf).1 n).isSome = true))) := by
  intro F
  induction F with
  | nil =>
    intro known nf _
    simp only [bfsStep]
    refine ⟨fun n p h => h, ?_, ?_, ?_⟩
    · intro n p h1 h2
      rw [h1] at h2
      exact Option.noConfusion h2
    · intro m hm
      exact absurd hm (List.not_mem_nil m)
    · intro n
      constructor
      · intro h
        exact Or.inl h
      · rintro (h | ⟨h1, h2⟩)
        · exact h
        · rw [h1] at h2
          simp at h2
  | cons node rest ih =>
    intro known nf hF
    obtain ⟨q, hq⟩ := Option.isSome_iff_exists.mp (hF node (List.mem_cons_self _ _))
    have hstep : bfsStep g (node :: rest) known nf =
        bfsStep g rest
          (bfsVisitAdj ((lookupA known node).getD [] ++ [node])
            (g.get_adj node) known nf).1
          (bfsVisitAdj ((lookupA known node).getD [] ++ [node])
            (g.get_adj node) known nf).2 := rfl
    obtain ⟨A1, A2, A3, A4⟩ :=
      bfsVisitAdj_spec ((lookupA known node).getD [] ++ [node])
        (g.get_adj node) known nf
    set parents := (lookupA known node).getD [] ++ [node] with hpar
    set K1 := (bfsVisitAdj parents (g.get_adj node) known nf).1 with hK1
    set nf1 := (bfsVisitAdj parents (g.get_adj node) known nf).2 with hnf1
    have hparq : parents = q ++ [node] := by
      rw [hpar, hq]
      rfl
    have hF1 : ∀ m ∈ rest, (lookupA K1 m).isSome = true := by
      intro m hm
      obtain ⟨q', hq'⟩ :=
        Option.isSome_iff_exists.mp (hF m (List.mem_cons_of_mem _ hm))
      rw [A1 m q' hq']
      rfl
    obtain ⟨B1, B2, B3, B4⟩ := ih K1 nf1 hF1
    rw [hstep]
    refine ⟨?_, ?_, ?_, ?_⟩
    · intro n p h
      exact B1 n p (A1 n p h)
    · intro n p h1 h2
      cases hk1 : lookupA K1 n with
      | some p1 =>
        have hfin := B1 n p1 hk1
        rw [hfin] at h2
        have hpp : p1 = p := Option.some.inj h2
        obtain ⟨hmem, hp⟩ := A2 n p1 h1 hk1
        refine ⟨node, q, List.mem_cons_self _ _, hq, hmem, ?_⟩
        rw [← hpp, hp, hparq]
      | none =>
        obtain ⟨m, q', hm, hq', hE, hp⟩ := B2 n p hk1 h2
        obtain ⟨q0, hq0⟩ :=
          Option.isSome_iff_exists.mp (hF m (List.mem_cons_of_mem _ hm))
        have : lookupA K1 m = some q0 := A1 m q0 hq0
        rw [this] at hq'
        have hqq : q' = q0 := (Option.some.inj hq').symm
        exact ⟨m, q0, List.mem_cons_of_mem _ hm, hq0, hE, by rw [hp, hqq]⟩
    · intro m hm n hE
      rcases List.mem_cons.mp hm with hm | hm
      · subst hm
        obtain ⟨p1, hp1⟩ := Option.isSome_iff_exists.mp (A3 n hE)
        rw [B1 n p1 hp1]
        rfl
      · exact B3 m hm n hE
    · intro n
      have hKn1 : (lookupA known n).isSome = true →
          (lookupA K1 n).isSome = true := by
        intro h
        obtain ⟨p, hp⟩ := Option.isSome_iff_exists.mp h
        rw [A1 n p hp]
        rfl
      have hK1f : (lookupA K1 n).isSome = true →
          (lookupA (bfsStep g rest K1 nf1).1 n).isSome = true := by
        intro h
        obtain ⟨p, hp⟩ := Option.isSome_iff_exists.mp h
        rw [B1 n p hp]
        rfl
      constructor
      · intro h
        rcases (B4 n).mp h with h | ⟨hk1, hfin⟩
        · rcases (A4 n).mp h with h | ⟨hkn, hk1⟩
          · exact Or.inl h
          · exact Or.inr ⟨hkn, hK1f hk1⟩
        · have hkn : lookupA known n = none := by
            cases hkn : lookupA known n with
            | none => rfl
            | some p =>
              rw [A1 n p hkn] at hk1
              exact Option.noConfusion hk1
          exact Or.inr ⟨hkn, hfin⟩
      · rintro (h | ⟨hkn, hfin⟩)
        · exact (B4 n).mpr (Or.inl ((A4 n).mpr (Or.inl h)))
        · cases hk1 : lookupA K1 n with
          | some p =>
            refine (B4 n).mpr (Or.inl ((A4 n).mpr (Or.inr ⟨hkn, ?_⟩)))
            rw [hk1]
            rfl
          | none =>
            exact (B4 n).mpr (Or.inr ⟨hk1, hfin⟩)

/-- The BFS loop invariant at the start of the round exploring layer `t`:
every recorded path is a shortest path of length at most `t`, every node
within distance `t` is recorded, the frontier holds exactly layer `t`, and
every key lies in the node pool. -/
def bfsInv (g : DirectedGraph) (o t : Nat) (F : List Nat)
    (K : List (Nat × List Nat)) : Prop :=
  (∀ n p, lookupA K n = some p →
    PathOK g o p n ∧ distIs g o n p.length ∧ p.length ≤ t) ∧
  (∀ n d, distIs g o n d → d ≤ t → (lookupA K n).isSome = true) ∧
  (∀ n, distIs g o n t → n ∈ F) ∧
  (∀ m ∈ F, ∃ q, lookupA K m = some q ∧ q.length = t) ∧
  (∀ n, (lookupA K n).isSome = true → n ∈ bfsPool g o)

theorem bfs_round (g : DirectedGraph) (o t : Nat) (F : List Nat)
    (K : List (Nat × List Nat)) (hInv : bfsInv g o t F K) :
    bfsInv g o (t + 1) (bfsStep g F K []).2 (bfsStep g F K []).1 := by
  obtain ⟨I1, I2, I3, I4, I5⟩ := hInv
  have hF : ∀ m ∈ F, (lookupA K m).isSome = true := by
    intro m hm
    obtain ⟨q, hq, _⟩ := I4 m hm
    rw [hq]
    rfl
  obtain ⟨S1, S2, S3, S4⟩ := bfsStep_spec g F K [] hF
  have hnew : ∀ n p, lookupA K n = none → lookupA (bfsStep g F K []).1 n = some p →
      PathOK g o p n ∧ distIs g o n (t + 1) ∧ p.length = t + 1 := by
    intro n p h1 h2
    obtain ⟨m, q, hm, hq, hE, hp⟩ := S2 n p h1 h2
    obtain ⟨q0, hq0, hq0len⟩ := I4 m hm
    have hqq : q = q0 := by
      rw [hq0] at hq
      exact (Option.some.inj hq).symm
    subst hqq
    obtain ⟨hPm, hDm, _⟩ := I1 m q hq0
    obtain ⟨hPhead, hPchain⟩ := hPm
    have hqt : q.length = t := hq0len
    constructor
    · constructor
      · rw [hp, List.append_assoc]
        rw [List.head?_append]
        rw [List.head?_append] at hPhead
        cases hh : q.head? with
        | some a =>
          rw [hh] at hPhead
          exact hPhead
        | none =>
          rw [hh] at hPhead
          exact hPhead
      · rw [hp]
        rw [List.chain'_append]
        refine ⟨hPchain, List.chain'_singleton n, ?_⟩
        intro x hx y hy
        rw [List.getLast?_concat] at hx
        cases hx
        cases hy
        exact hE
    · have hreach : ReachN g o (t + 1) n := ⟨m, hqt ▸ hDm.1, hE⟩
      have hmin : ∀ k, ReachN g o k n → t + 1 ≤ k := by
        intro k hk
        by_contra hcon
        obtain ⟨d, hdk, hd⟩ := reach_exists_min hk
        have : (lookupA K n).isSome = true := I2 n d hd (by omega)
        rw [h1] at this
        simp at this
      constructor
      · exact ⟨hreach, hmin⟩
      · rw [hp]
        simp [hqt]
  refine ⟨?_, ?_, ?_, ?_, ?_⟩
  · intro n p h
    cases hk : lookupA K n with
    | some p0 =>
      have := S1 n p0 hk
      rw [this] at h
      have hpp : p0 = p := Option.some.inj h
      subst hpp
      obtain ⟨hP, hD, hle⟩ := I1 n p0 hk
      exact ⟨hP, hD, by omega⟩
    | none =>
      obtain ⟨hP, hD, hlen⟩ := hnew n p hk h
      refine ⟨hP, ?_, by omega⟩
      rw [hlen]
      exact hD
  · intro n d hd hdle
    by_cases hdt : d ≤ t
    · obtain ⟨p, hp⟩ := Option.isSome_iff_exists.mp (I2 n d hd hdt)
      rw [S1 n p hp]
      rfl
    · have hdeq : d = t + 1 := by omega
      subst hdeq
      obtain ⟨m, hE, hm⟩ := distIs_succ_pred hd
      exact S3 m (I3 m hm) n hE
  · intro n hd
    have hnone : lookupA K n = none := by
      cases hk : lookupA K n with
      | none => rfl
      | some p =>
        obtain ⟨_, hD, hle⟩ := I1 n p hk
        have := distIs_unique hd hD
        omega
    have hsome : (lookupA (bfsStep g F K []).1 n).isSome = true := by
      obtain ⟨m, hE, hm⟩ := distIs_succ_pred hd
      exact S3 m (I3 m hm) n hE
    exact (S4 n).mpr (Or.inr ⟨hnone, hsome⟩)
  · intro m hm
    rcases (S4 m).mp hm with h | ⟨hnone, hsome⟩
    · exact absurd h (List.not_mem_nil m)
    · obtain ⟨p, hp⟩ := Option.isSome_iff_exists.mp hsome
      obtain ⟨_, _, hlen⟩ := hnew m p hnone hp
      exact ⟨p, hp, hlen⟩
  · intro n hn
    cases hk : lookupA K n with
    | some p =>
      apply I5
      rw [hk]
      rfl
    | none =>
      obtain ⟨p, hp⟩ := Option.isSome_iff_exists.mp hn
      obtain ⟨m, q, hm, hq, hE, _⟩ := S2 n p hk hp
      unfold EStep at hE
      unfold DirectedGraph.get_adj at hE
      cases hl : lookupA g.adj m with
      | none =>
        rw [hl] at hE
        exact absurd hE (List.not_mem_nil n)
      | some l =>
        rw [hl] at hE
        have hmem : (m, l) ∈ g.adj := lookupA_eq_some_mem hl
        refine List.mem_cons_of_mem _ ?_
        rw [List.mem_flatten]
        exact ⟨l, List.mem_map.mpr ⟨(m, l), hmem, rfl⟩, hE⟩

/-- What holds of `known` when the loop exits: recorded paths are shortest
paths, and every node at any finite distance from the origin is recorded. -/
def bfsPost (g : DirectedGraph) (o : Nat) (K : List (Nat × List Nat)) : Prop :=
  (∀ n p, lookupA K n = some p → PathOK g o p n ∧ distIs g o n p.length) ∧
  (∀ n d, distIs g o n d → (lookupA K n).isSome = true)

theorem bfs_end (g : DirectedGraph) (o t : Nat) (K : List (Nat × List Nat))
    (hInv : bfsInv g o t [] K) : bfsPost g o K := by
  obtain ⟨I1, I2, I3, _, _⟩ := hInv
  have hempty : ∀ n, ¬ distIs g o n t := by
    intro n hn
    exact absurd (I3 n hn) (List.not_mem_nil n)
  refine ⟨fun n p h => ⟨(I1 n p h).1, (I1 n p h).2.1⟩, ?_⟩
  intro n d hd
  by_cases hdt : d ≤ t
  · exact I2 n d hd hdt
  · exfalso
    have : d = t + (d - t) := by omega
    rw [this] at hd
    exact distIs_no_gap hempty (d - t) n hd

theorem bfs_layer_bound (g : DirectedGraph) (o t : Nat) (F : List Nat)
    (K : List (Nat × List Nat)) (hInv : bfsInv g o t F K) (hF : F ≠ []) :
    t < (bfsPool g o).length := by
  classical
  obtain ⟨I1, I2, I3, I4, I5⟩ := hInv
  obtain ⟨n0, hn0⟩ := List.exists_mem_of_ne_nil F hF
  obtain ⟨q, hq, hqlen⟩ := I4 n0 hn0
  have hd0 : distIs g o n0 t := by
    have := (I1 n0 q hq).2.1
    rw [hqlen] at this
    exact this
  have hlev : ∀ s, s ≤ t → ∃ m, distIs g o m s :=
    distIs_exists_le t n0 hd0
  let f : Nat → Nat := fun s => if hs : s ≤ t then (hlev s hs).choose else 0
  have hfd : ∀ s, s ≤ t → distIs g o (f s) s := by
    intro s hs
    have : f s = (hlev s hs).choose := dif_pos hs
    rw [this]
    exact (hlev s hs).choose_spec
  have hmaps : ∀ s ∈ Finset.range (t + 1), f s ∈ (bfsPool g o).toFinset := by
    intro s hs
    rw [Finset.mem_range] at hs
    have hdist := hfd s (by omega)
    have hsome := I2 (f s) s hdist (by omega)
    exact List.mem_toFinset.mpr (I5 (f s) hsome)
  have hinj : Set.InjOn f (Finset.range (t + 1)) := by
    intro s1 hs1 s2 hs2 hfe
    rw [Finset.coe_range, Set.mem_Iio] at hs1 hs2
    have h1 := hfd s1 (by omega)
    have h2 := hfd s2 (by omega)
    rw [hfe] at h1
    exact distIs_unique h1 h2
  have hcard := Finset.card_le_card_of_injOn f hmaps hinj
  rw [Finset.card_range] at hcard
  have hle := List.toFinset_card_le (bfsPool g o)
  omega

theorem bfsLoop_post (g : DirectedGraph) (o : Nat) :
    ∀ (fuel t : Nat) (F : List Nat) (K : List (Nat × List Nat)),
    bfsInv g o t F K → (bfsPool g o).length < t + fuel →
    bfsPost g o (bfsLoop g fuel F K) := by
  intro fuel
  induction fuel with
  | zero =>
    intro t F K hInv hfuel
    cases F with
    | nil => exact bfs_end g o t K hInv
    | cons a F' =>
      exfalso
      have := bfs_layer_bound g o t (a :: F') K hInv (by simp)
      omega
  | succ fuel ih =>
    intro t F K hInv hfuel
    cases F with
    | nil =>
      have he : bfsLoop g (fuel + 1) [] K = K := by
        simp [bfsLoop]
      rw [he]
      exact bfs_end g o t K hInv
    | cons a F' =>
      have he : bfsLoop g (fuel + 1) (a :: F') K =
          bfsLoop g fuel (bfsStep g (a :: F') K []).2
            (bfsStep g (a :: F') K []).1 := by
        simp [bfsLoop]
      rw [he]
      exact ih (t + 1) _ _ (bfs_round g o t (a :: F') K hInv) (by omega)

theorem bfs_init (g : DirectedGraph) (o : Nat) :
    bfsInv g o 0 [o] [(o, [])] := by
  have hlook : ∀ n, lookupA [(o, ([] : List Nat))] n =
      if o = n then some ([] : List Nat) else none := by
    intro n
    rfl
  refine ⟨?_, ?_, ?_, ?_, ?_⟩
  · intro n p h
    rw [hlook] at h
    by_cases ho : o = n
    · rw [if_pos ho] at h
      have hp : p = [] := (Option.some.inj h).symm
      subst hp
      subst ho
      refine ⟨⟨rfl, List.chain'_singleton o⟩, ⟨rfl, fun k _ => Nat.zero_le k⟩, ?_⟩
      exact Nat.le_refl 0
    · rw [if_neg ho] at h
      exact Option.noConfusion h
  · intro n d hd hdle
    have hdz : d = 0 := by omega
    subst hdz
    have hno : n = o := hd.1
    subst hno
    rw [hlook, if_pos rfl]
    rfl
  · intro n hd
    have hno : n = o := hd.1
    subst hno
    exact List.mem_cons_self _ _
  · intro m hm
    have hmo : m = o := by
      rcases List.mem_cons.mp hm with h | h
      · exact h
      · exact absurd h (List.not_mem_nil m)
    subst hmo
    refine ⟨[], ?_, rfl⟩
    rw [hlook, if_pos rfl]
  · intro n hn
    rw [hlook] at hn
    by_cases ho : o = n
    · subst ho
      exact List.mem_cons_self _ _
    · rw [if_neg ho] at hn
      simp at hn

/-- C3: `breadth_first_search g o` returns a map whose keys are exactly the
nodes reachable from `o` (including `o` itself, which maps to the empty
sequence); every recorded value `p` for a node `n` is a path from `o` to `n`
excluding `n` itself, of minimal edge count. -/
theorem bfs_shortest_paths (g : DirectedGraph) (o : Nat) :
    (∀ n, (lookupA (breadth_first_search g o) n).isSome = true ↔
      ∃ k, ReachN g o k n) ∧
    lookupA (breadth_first_search g o) o = some [] ∧
    (∀ n p, lookupA (breadth_first_search g o) n = some p →
      PathOK g o p n ∧ distIs g o n p.length) := by
  have hpost := bfsLoop_post g o ((bfsPool g o).length + 1) 0 [o] [(o, [])]
    (bfs_init g o) (by omega)
  have heq : breadth_first_search g o =
      bfsLoop g ((bfsPool g o).length + 1) [o] [(o, [])] := rfl
  rw [heq]
  obtain ⟨P1, P2⟩ := hpost
  refine ⟨?_, ?_, P1⟩
  · intro n
    constructor
    · intro h
      obtain ⟨p, hp⟩ := Option.isSome_iff_exists.mp h
      exact ⟨p.length, (P1 n p hp).2.1⟩
    · rintro ⟨k, hk⟩
      obtain ⟨d, _, hd⟩ := reach_exists_min hk
      exact P2 n d hd
  · have ho : distIs g o o 0 := ⟨rfl, fun k _ => Nat.zero_le k⟩
    have hsome := P2 o 0 ho
    obtain ⟨p, hp⟩ := Option.isSome_iff_exists.mp hsome
    have hlen : p.length = 0 := distIs_unique (P1 o p hp).2 ho
    have hnil : p = [] := List.eq_nil_of_length_eq_zero hlen
    rw [hp, hnil]

/-! ## DFS correctness (claim C2) -/

/-- A walk of exactly `k` edges from `u` in the adjacency function `adj`. -/
def WalkF (adj : Nat → List Nat) (u : Nat) : Nat → Nat → Prop
  | 0, v => v = u
  | k + 1, v => ∃ m, WalkF adj u k m ∧ v ∈ adj m

/-- A directed cycle in `adj`. -/
def HasCycleF (adj : Nat → List Nat) : Prop :=
  ∃ n k, WalkF adj n (k + 1) n

/-- `v` occurs strictly before `u` in `l`. -/
def before (l : List Nat) (v u : Nat) : Prop :=
  ∃ l1 l2, l = l1 ++ l2 ∧ v ∈ l1 ∧ u ∉ l1 ∧ u ∈ l2

theorem before_append (l l' : List Nat) (v u : Nat) (h : before l v u) :
    before (l ++ l') v u := by
  obtain ⟨l1, l2, he, hv, hnu, hu⟩ := h
  exact ⟨l1, l2 ++ l', by rw [he, List.append_assoc], hv, hnu,
    List.mem_append.mpr (Or.inl hu)⟩

theorem before_irrefl (l : List Nat) (u : Nat) : ¬ before l u u := by
  rintro ⟨l1, l2, _, hv, hnu, _⟩
  exact hnu hv

theorem before_trans {l : List Nat} {a b c : Nat} (h1 : before l a b)
    (h2 : before l b c) : before l a c := by
  obtain ⟨l1, l2, he1, ha, hnb, hb⟩ := h1
  obtain ⟨m1, m2, he2, hbm, hnc, hc⟩ := h2
  have hp1 : l1 <+: l := ⟨l2, he1.symm⟩
  have hp2 : m1 <+: l := ⟨m2, he2.symm⟩
  by_cases hlen : m1.length ≤ l1.length
  · have hpre : m1 <+: l1 := List.prefix_of_prefix_length_le hp2 hp1 hlen
    exact absurd (hpre.subset hbm) hnb
  · have hpre : l1 <+: m1 := List.prefix_of_prefix_length_le hp1 hp2 (by omega)
    exact ⟨m1, m2, he2, hpre.subset ha, hnc, hc⟩

/-- The nodes DFS visits on a `DirectedGraph`: the keys plus every member of a
key's adjacency set. -/
def DirectedGraph.nodes (g : DirectedGraph) : List Nat :=
  (g.get_all ++ (g.get_all.map g.get_adj).flatten).dedup

/-- The `dfs_visit` state invariant over adjacency `adj` and node pool `univ`:
the marks are disjoint sets inside `univ`, the emission buffer mirrors the
permanent marks, the cycle flag is justified by an actual cycle, and every edge
out of a completed node leads to an earlier-completed node unless a cycle has
been found. -/
def DfsInv (adj : Nat → List Nat) (univ : List Nat) (s : DfsState) : Prop :=
  s.temp.Nodup ∧ s.perm.Nodup ∧
  (∀ n ∈ s.temp, n ∉ s.perm) ∧
  (∀ n ∈ s.perm, n ∈ univ) ∧
  (∀ n ∈ s.temp, n ∈ univ) ∧
  s.perm.Perm s.order ∧
  (s.cyclic = true → HasCycleF adj) ∧
  (∀ u ∈ s.perm, ∀ v ∈ adj u, (v ∈ s.perm ∧ before s.order v u) ∨
    s.cyclic = true)

/-- What one `dfs_visit` call guarantees: invariant preservation, the temp set
restored, permanent marks and the buffer only growing, the cycle flag
monotone, and the visited node completed unless a cycle was found. -/
def DfsVisitOut (adj : Nat → List Nat) (univ : List Nat) (v : Nat)
    (s s' : DfsState) : Prop :=
  DfsInv adj univ s' ∧ s'.temp = s.temp ∧
  (∀ n ∈ s.perm, n ∈ s'.perm) ∧
  (∃ tail, s'.order = s.order ++ tail) ∧
  (s.cyclic = true → s'.cyclic = true) ∧
  (v ∈ s'.perm ∨ s'.cyclic = true)

theorem dfs_visitList_go (adj : Nat → List Nat) (univ T P0 : List Nat)
    (f : Nat → DfsState → DfsState)
    (hf : ∀ v s, DfsInv adj univ s → s.temp = T → (∀ n ∈ P0, n ∈ s.perm) →
      (∀ m ∈ T, ∃ k, WalkF adj m (k + 1) v) → v ∈ univ →
      DfsVisitOut adj univ v s (f v s)) :
    ∀ (lst : List Nat) (s : DfsState), DfsInv adj univ s → s.temp = T →
      (∀ n ∈ P0, n ∈ s.perm) →
      (∀ v ∈ lst, (∀ m ∈ T, ∃ k, WalkF adj m (k + 1) v) ∧ v ∈ univ) →
      DfsInv adj univ (dfs_visitList f lst s) ∧
      (dfs_visitList f lst s).temp = s.temp ∧
      (∀ n ∈ s.perm, n ∈ (dfs_visitList f lst s).perm) ∧
      (∃ tail, (dfs_visitList f lst s).order = s.order ++ tail) ∧
      (s.cyclic = true → (dfs_visitList f lst s).cyclic = true) ∧
      (∀ v ∈ lst, v ∈ (dfs_visitList f lst s).perm ∨
        (dfs_visitList f lst s).cyclic = true) := by
  intro lst
  induction lst with
  | nil =>
    intro s hInv hT hP _
    exact ⟨hInv, rfl, fun n h => h, ⟨[], by show s.order = s.order ++ []; simp⟩,
      fun h => h, fun v hv => absurd hv (List.not_mem_nil v)⟩
  | cons v vs ih =>
    intro s hInv hT hP hlst
    have hv := hlst v (List.mem_cons_self _ _)
    obtain ⟨hInv1, hT1, hPmono1, ⟨t1, ht1⟩, hcyc1, hv1⟩ :=
      hf v s hInv hT hP hv.1 hv.2
    have hstep : dfs_visitList f (v :: vs) s = dfs_visitList f vs (f v s) := rfl
    rw [hstep]
    have hT1' : (f v s).temp = T := by rw [hT1, hT]
    have hP1 : ∀ n ∈ P0, n ∈ (f v s).perm := fun n h => hPmono1 n (hP n h)
    obtain ⟨Inv2, T2, Pmono2, ⟨t2, ht2⟩, cyc2, all2⟩ :=
      ih (f v s) hInv1 hT1' hP1 (fun w hw => hlst w (List.mem_cons_of_mem _ hw))
    refine ⟨Inv2, by rw [T2, hT1], fun n h => Pmono2 n (hPmono1 n h),
      ⟨t1 ++ t2, by rw [ht2, ht1, List.append_assoc]⟩,
      fun h => cyc2 (hcyc1 h), ?_⟩
    intro w hw
    rcases List.mem_cons.mp hw with hw | hw
    · subst hw
      rcases hv1 with h | h
      · exact Or.inl (Pmono2 w h)
      · exact Or.inr (cyc2 h)
    · exact all2 w hw

theorem dfs_visit_spec (adj : Nat → List Nat) (univ : List Nat)
    (hclosed : ∀ u ∈ univ, ∀ v ∈ adj u, v ∈ univ) :
    ∀ (fuel node : Nat) (s : DfsState), DfsInv adj univ s →
    (∀ m ∈ s.temp, ∃ k, WalkF adj m (k + 1) node) →
    node ∈ univ →
    (univ.toFinset \ (s.perm.toFinset ∪ s.temp.toFinset)).card < fuel →
    DfsVisitOut adj univ node s (dfs_visit adj fuel node s) := by
  intro fuel
  induction fuel with
  | zero =>
    intro node s _ _ _ hcard
    exact absurd hcard (by omega)
  | succ fuel ih =>
    intro node s hInv hchain hnode hcard
    obtain ⟨hTnd, hPnd, hdisj, hPuniv, hTuniv, hPO, hcj, htopo⟩ := hInv
    by_cases hp : node ∈ s.perm
    · have he : dfs_visit adj (fuel + 1) node s =
          { s with roots := s.roots.erase node } := by
        simp only [dfs_visit, if_pos hp]
      rw [he]
      exact ⟨⟨hTnd, hPnd, hdisj, hPuniv, hTuniv, hPO, hcj, htopo⟩, rfl,
        fun n h => h, ⟨[], by simp⟩, fun h => h, Or.inl hp⟩
    · by_cases ht : node ∈ s.temp
      · have he : dfs_visit adj (fuel + 1) node s =
            { s with roots := s.roots.erase node, cyclic := true } := by
          simp only [dfs_visit, if_neg hp, if_pos ht]
        rw [he]
        have hcyc : HasCycleF adj := by
          obtain ⟨k, hk⟩ := hchain node ht
          exact ⟨node, k, hk⟩
        exact ⟨⟨hTnd, hPnd, hdisj, hPuniv, hTuniv, hPO, fun _ => hcyc,
          fun u hu v hv => Or.inr rfl⟩,
          rfl, fun n h => h, ⟨[], by simp⟩, fun _ => rfl, Or.inr rfl⟩
      · -- a fresh node: mark temporarily, visit all children, then complete
        have hsetIns : setIns s.temp node = node :: s.temp := by
          unfold setIns
          rw [if_neg ht]
        have hInv1 : DfsInv adj univ { s with temp := node :: s.temp } := by
          refine ⟨List.nodup_cons.mpr ⟨ht, hTnd⟩, hPnd, ?_, hPuniv, ?_, hPO,
            hcj, htopo⟩
          · intro n hn
            rcases List.mem_cons.mp hn with hn | hn
            · subst hn
              exact hp
            · exact hdisj n hn
          · intro n hn
            rcases List.mem_cons.mp hn with hn | hn
            · subst hn
              exact hnode
            · exact hTuniv n hn
        have hchild : ∀ v ∈ adj node,
            (∀ m ∈ (node :: s.temp), ∃ k, WalkF adj m (k + 1) v) ∧ v ∈ univ := by
          intro v hv
          constructor
          · intro m hm
            rcases List.mem_cons.mp hm with hm | hm
            · rw [hm]
              exact ⟨0, ⟨node, rfl, hv⟩⟩
            · obtain ⟨k, hk⟩ := hchain m hm
              exact ⟨k + 1, ⟨node, hk, hv⟩⟩
          · exact hclosed node hnode v hv
        have hnodemem : node ∈ univ.toFinset \ (s.perm.toFinset ∪ s.temp.toFinset) := by
          rw [Finset.mem_sdiff, Finset.mem_union, List.mem_toFinset,
            List.mem_toFinset, List.mem_toFinset]
          push_neg
          exact ⟨hnode, hp, ht⟩
        have hfspec : ∀ v s', DfsInv adj univ s' → s'.temp = node :: s.temp →
            (∀ n ∈ s.perm, n ∈ s'.perm) →
            (∀ m ∈ (node :: s.temp), ∃ k, WalkF adj m (k + 1) v) → v ∈ univ →
            DfsVisitOut adj univ v s' (dfs_visit adj fuel v s') := by
          intro v s' hI hT hP hch hv
          apply ih v s' hI (by rw [hT]; exact hch) hv
          have hsub : univ.toFinset \ (s'.perm.toFinset ∪ s'.temp.toFinset) ⊆
              (univ.toFinset \ (s.perm.toFinset ∪ s.temp.toFinset)).erase node := by
            intro x hx
            rw [Finset.mem_sdiff, Finset.mem_union, List.mem_toFinset,
              List.mem_toFinset, List.mem_toFinset] at hx
            push_neg at hx
            obtain ⟨hxu, hxp, hxt⟩ := hx
            have hxnode : x ≠ node := by
              intro heq
              subst heq
              exact hxt (by rw [hT]; exact List.mem_cons_self _ _)
            rw [Finset.mem_erase, Finset.mem_sdiff, Finset.mem_union,
              List.mem_toFinset, List.mem_toFinset, List.mem_toFinset]
            push_neg
            refine ⟨hxnode, hxu, fun hc => hxp (hP x hc), fun hc => ?_⟩
            exact hxt (by rw [hT]; exact List.mem_cons_of_mem _ hc)
          have h1 := Finset.card_le_card hsub
          rw [Finset.card_erase_of_mem hnodemem] at h1
          have h2 : 0 < (univ.toFinset \ (s.perm.toFinset ∪ s.temp.toFinset)).card :=
            Finset.card_pos.mpr ⟨node, hnodemem⟩
          omega
        obtain ⟨Inv2, T2, Pmono2, ⟨tail2, horder2⟩, cyc2, all2⟩ :=
          dfs_visitList_go adj univ (node :: s.temp) s.perm (dfs_visit adj fuel)
            hfspec (adj node) { s with temp := node :: s.temp } hInv1 rfl
            (fun n h => h) hchild
        set s2 := dfs_visitList (dfs_visit adj fuel) (adj node)
          { s with temp := node :: s.temp } with hs2
        have he : dfs_visit adj (fuel + 1) node s =
            { s2 with temp := s2.temp.erase node, perm := setIns s2.perm node,
                      order := s2.order ++ [node] } := by
          simp only [dfs_visit, if_neg hp, if_neg ht, hsetIns, hs2]
        obtain ⟨Tnd2, Pnd2, disj2, Puniv2, Tuniv2, PO2, cj2, topo2⟩ := Inv2
        have hmemT2 : node ∈ s2.temp := by
          rw [T2]
          exact List.mem_cons_self _ _
        have hnp2 : node ∉ s2.perm := disj2 node hmemT2
        have hno2 : node ∉ s2.order := fun hc => hnp2 (PO2.mem_iff.mpr hc)
        have hsetIns2 : setIns s2.perm node = node :: s2.perm := by
          unfold setIns
          rw [if_neg hnp2]
        have hT3 : s2.temp.erase node = s.temp := by
          rw [T2]
          exact List.erase_cons_head node s.temp
        rw [he, hsetIns2]
        refine ⟨⟨?_, ?_, ?_, ?_, ?_, ?_, ?_, ?_⟩, hT3, ?_, ?_, ?_, ?_⟩
        · rw [hT3]
          exact hTnd
        · exact List.nodup_cons.mpr ⟨hnp2, Pnd2⟩
        · intro n hn
          rw [hT3] at hn
          have hn2 : n ∈ s2.temp := by
            rw [T2]
            exact List.mem_cons_of_mem _ hn
          have hne : n ≠ node := fun heq => ht (heq ▸ hn)
          intro hc
          rcases List.mem_cons.mp hc with hc | hc
          · exact hne hc
          · exact disj2 n hn2 hc
        · intro n hn
          rcases List.mem_cons.mp hn with hn | hn
          · subst hn
            exact hnode
          · exact Puniv2 n hn
        · intro n hn
          rw [hT3] at hn
          exact hTuniv n hn
        · exact (List.Perm.cons node PO2).trans
            (List.perm_append_singleton node s2.order).symm
        · exact fun h => cj2 h
        · intro u hu v hv
          rcases List.mem_cons.mp hu with hu | hu
          · subst hu
            rcases all2 v hv with h | h
            · refine Or.inl ⟨List.mem_cons_of_mem _ h, ?_⟩
              exact ⟨s2.order, [u], rfl, PO2.mem_iff.mp h, hno2,
                List.mem_cons_self _ _⟩
            · exact Or.inr h
          · rcases topo2 u hu v hv with ⟨h1, h2⟩ | h
            · exact Or.inl ⟨List.mem_cons_of_mem _ h1,
                before_append s2.order [node] v u h2⟩
            · exact Or.inr h
        · intro n hn
          exact List.mem_cons_of_mem _ (Pmono2 n hn)
        · exact ⟨tail2 ++ [node], by rw [horder2]; simp⟩
        · exact fun h => cyc2 h
        · exact Or.inl (List.mem_cons_self _ _)

/-- One step of the `for origin in graph.get_all()` loop of
`depth_first_search`. -/
def dfsOuterStep (adj : Nat → List Nat) (fuel : Nat) (st : DfsState)
    (origin : Nat) : DfsState :=
  if origin ∉ st.perm ∧ origin ∉ st.temp then
    dfs_visit adj fuel origin { st with roots := setIns st.roots origin }
  else st

theorem depth_first_search_core_eq (all : List Nat) (adj : Nat → List Nat)
    (fuel : Nat) :
    depth_first_search_core all adj fuel =
      { all.foldl (dfsOuterStep adj fuel) ⟨[], [], false, [], []⟩ with
        order :=
          (all.foldl (dfsOuterStep adj fuel) ⟨[], [], false, [], []⟩).order.reverse } :=
  rfl

theorem dfs_fold_spec (adj : Nat → List Nat) (univ : List Nat)
    (hclosed : ∀ u ∈ univ, ∀ v ∈ adj u, v ∈ univ) (fuel : Nat)
    (hfuel : univ.toFinset.card < fuel) :
    ∀ (lst : List Nat) (s : DfsState), DfsInv adj univ s → s.temp = [] →
      (∀ o ∈ lst, o ∈ univ) →
      DfsInv adj univ (lst.foldl (dfsOuterStep adj fuel) s) ∧
      (lst.foldl (dfsOuterStep adj fuel) s).temp = [] ∧
      (∀ n ∈ s.perm, n ∈ (lst.foldl (dfsOuterStep adj fuel) s).perm) ∧
      (s.cyclic = true → (lst.foldl (dfsOuterStep adj fuel) s).cyclic = true) ∧
      (∀ o ∈ lst, o ∈ (lst.foldl (dfsOuterStep adj fuel) s).perm ∨
        (lst.foldl (dfsOuterStep adj fuel) s).cyclic = true) := by
  intro lst
  induction lst with
  | nil =>
    intro s hInv hT _
    exact ⟨hInv, hT, fun n h => h, fun h => h,
      fun o ho => absurd ho (List.not_mem_nil o)⟩
  | cons o os ih =>
    intro s hInv hT hmem
    have hstep : (o :: os).foldl (dfsOuterStep adj fuel) s =
        os.foldl (dfsOuterStep adj fuel) (dfsOuterStep adj fuel s o) := rfl
    rw [hstep]
    by_cases hcond : o ∉ s.perm ∧ o ∉ s.temp
    · have hso : dfsOuterStep adj fuel s o =
          dfs_visit adj fuel o { s with roots := setIns s.roots o } := by
        unfold dfsOuterStep
        rw [if_pos hcond]
      have hInv' : DfsInv adj univ { s with roots := setIns s.roots o } := hInv
      have hchain : ∀ m ∈ ({ s with roots := setIns s.roots o } : DfsState).temp,
          ∃ k, WalkF adj m (k + 1) o := by
        intro m hm
        rw [show ({ s with roots := setIns s.roots o } : DfsState).temp = s.temp
          from rfl, hT] at hm
        exact absurd hm (List.not_mem_nil m)
      have hcard : (univ.toFinset \
          (({ s with roots := setIns s.roots o } : DfsState).perm.toFinset ∪
           ({ s with roots := setIns s.roots o } : DfsState).temp.toFinset)).card
          < fuel := by
        have hsub := Finset.sdiff_subset (s := univ.toFinset)
          (t := (({ s with roots := setIns s.roots o } : DfsState).perm.toFinset ∪
            ({ s with roots := setIns s.roots o } : DfsState).temp.toFinset))
        have := Finset.card_le_card hsub
        omega
      obtain ⟨Inv1, T1, Pmono1, ⟨tail1, _⟩, cyc1, ho1⟩ :=
        dfs_visit_spec adj univ hclosed fuel o
          { s with roots := setIns s.roots o } hInv' hchain
          (hmem o (List.mem_cons_self _ _)) hcard
      rw [hso]
      have hT1 : (dfs_visit adj fuel o { s with roots := setIns s.roots o }).temp
          = [] := by
        rw [T1]
        exact hT
      obtain ⟨Inv2, T2, Pmono2, cyc2, all2⟩ :=
        ih (dfs_visit adj fuel o { s with roots := setIns s.roots o }) Inv1 hT1
          (fun w hw => hmem w (List.mem_cons_of_mem _ hw))
      refine ⟨Inv2, T2, fun n h => Pmono2 n (Pmono1 n h),
        fun h => cyc2 (cyc1 h), ?_⟩
      intro w hw
      rcases List.mem_cons.mp hw with hw | hw
      · subst hw
        rcases ho1 with h | h
        · exact Or.inl (Pmono2 w h)
        · exact Or.inr (cyc2 h)
      · exact all2 w hw
    · have hso : dfsOuterStep adj fuel s o = s := by
        unfold dfsOuterStep
        rw [if_neg hcond]
      rw [hso]
      obtain ⟨Inv2, T2, Pmono2, cyc2, all2⟩ :=
        ih s hInv hT (fun w hw => hmem w (List.mem_cons_of_mem _ hw))
      refine ⟨Inv2, T2, Pmono2, cyc2, ?_⟩
      intro w hw
      rcases List.mem_cons.mp hw with hw | hw
      · subst hw
        rw [not_and_or, not_not, not_not] at hcond
        rcases hcond with h | h
        · exact Or.inl (Pmono2 w h)
        · rw [hT] at h
          exact absurd h (List.not_mem_nil w)
      · exact all2 w hw

theorem mem_get_adj_key {g : DirectedGraph} {u v : Nat} (h : v ∈ g.get_adj u) :
    u ∈ g.get_all := by
  unfold DirectedGraph.get_adj at h
  cases hl : lookupA g.adj u with
  | none =>
    rw [hl] at h
    exact absurd h (List.not_mem_nil v)
  | some l => exact lookupA_eq_some_mem_keys hl

theorem nodes_closed (g : DirectedGraph) :
    ∀ u ∈ g.nodes, ∀ v ∈ g.get_adj u, v ∈ g.nodes := by
  intro u _ v hv
  have hu : u ∈ g.get_all := mem_get_adj_key hv
  unfold DirectedGraph.nodes
  rw [List.mem_dedup, List.mem_append]
  refine Or.inr ?_
  rw [List.mem_flatten]
  exact ⟨g.get_adj u, List.mem_map.mpr ⟨u, hu, rfl⟩, hv⟩

theorem get_all_mem_nodes (g : DirectedGraph) :
    ∀ o ∈ g.get_all, o ∈ g.nodes := by
  intro o ho
  unfold DirectedGraph.nodes
  rw [List.mem_dedup, List.mem_append]
  exact Or.inl ho

theorem nodes_subset_dfsUniv (g : DirectedGraph) :
    ∀ n ∈ g.nodes, n ∈ g.dfsUniv := by
  intro n hn
  unfold DirectedGraph.nodes at hn
  unfold DirectedGraph.dfsUniv
  rw [List.mem_dedup, List.mem_append] at hn ⊢
  rcases hn with hn | hn
  · exact Or.inl hn
  · rw [List.mem_flatten] at hn
    obtain ⟨l, hl, hnl⟩ := hn
    obtain ⟨u, hu, hul⟩ := List.mem_map.mp hl
    have hnl' : n ∈ g.get_adj u := by rw [hul]; exact hnl
    unfold DirectedGraph.get_adj at hnl'
    cases hlk : lookupA g.adj u with
    | none =>
      rw [hlk] at hnl'
      exact absurd hnl' (List.not_mem_nil n)
    | some l' =>
      rw [hlk] at hnl'
      refine Or.inr ?_
      rw [List.mem_flatten]
      exact ⟨l', List.mem_map.mpr ⟨(u, l'), lookupA_eq_some_mem hlk, rfl⟩, hnl'⟩

theorem dfs_perm_walk_before {adj : Nat → List Nat} {univ : List Nat}
    {F : DfsState} (hInv : DfsInv adj univ F) (hcyc : F.cyclic = false) :
    ∀ k u v, u ∈ F.perm → WalkF adj u (k + 1) v →
      v ∈ F.perm ∧ before F.order v u := by
  obtain ⟨_, _, _, _, _, _, _, topo⟩ := hInv
  intro k
  induction k with
  | zero =>
    intro u v hu hw
    obtain ⟨m, hm, hv⟩ := hw
    have hm' : m = u := hm
    rw [hm'] at hv
    rcases topo u hu v hv with h | h
    · exact h
    · rw [hcyc] at h
      exact absurd h (by simp)
  | succ k ih =>
    intro u v hu hw
    obtain ⟨m, hm, hv⟩ := hw
    obtain ⟨hmp, hmb⟩ := ih u m hu hm
    rcases topo m hmp v hv with ⟨hvp, hvb⟩ | h
    · exact ⟨hvp, before_trans hvb hmb⟩
    · rw [hcyc] at h
      exact absurd h (by simp)

theorem walk_first_edge {adj : Nat → List Nat} :
    ∀ k n v, WalkF adj n (k + 1) v → ∃ x, x ∈ adj n := by
  intro k
  induction k with
  | zero =>
    intro n v hw
    obtain ⟨m, hm, hv⟩ := hw
    have hm' : m = n := hm
    rw [hm'] at hv
    exact ⟨v, hv⟩
  | succ k ih =>
    intro n v hw
    obtain ⟨m, hm, _⟩ := hw
    exact ih n m hm

/-- C2: `depth_first_search` reports `cyclic = true` exactly when the graph's
edge relation has a directed cycle (all of whose nodes DFS necessarily
explores); and when it reports `cyclic = false`, the returned order lists every
node of the graph (every key and every member of a key's adjacency set)
exactly once, with `u` preceding `v` for every edge `(u, v)`. -/
theorem dfs_cyclic_topo (g : DirectedGraph) :
    ((g.depth_first_search).cyclic = true ↔ HasCycleF g.get_adj) ∧
    ((g.depth_first_search).cyclic = false →
      (g.depth_first_search).order.Nodup ∧
      (∀ n, n ∈ (g.depth_first_search).order ↔ n ∈ g.nodes) ∧
      (∀ u v, v ∈ g.get_adj u → [u, v].Sublist (g.depth_first_search).order)) := by
  have hfuel : g.nodes.toFinset.card < g.dfsUniv.length + 1 := by
    have h1 : g.nodes.toFinset ⊆ g.dfsUniv.toFinset := by
      intro n hn
      rw [List.mem_toFinset] at hn ⊢
      exact nodes_subset_dfsUniv g n hn
    have h2 := Finset.card_le_card h1
    have h3 := List.toFinset_card_le g.dfsUniv
    omega
  have hInv0 : DfsInv g.get_adj g.nodes ⟨[], [], false, [], []⟩ := by
    refine ⟨List.nodup_nil, List.nodup_nil, ?_, ?_, ?_, List.Perm.refl [], ?_, ?_⟩
    · intro n hn
      exact absurd hn (List.not_mem_nil n)
    · intro n hn
      exact absurd hn (List.not_mem_nil n)
    · intro n hn
      exact absurd hn (List.not_mem_nil n)
    · intro h
      exact absurd h (by simp)
    · intro u hu
      exact absurd hu (List.not_mem_nil u)
  obtain ⟨InvF, TF, _, _, allF⟩ :=
    dfs_fold_spec g.get_adj g.nodes (nodes_closed g) (g.dfsUniv.length + 1)
      hfuel g.get_all ⟨[], [], false, [], []⟩ hInv0 rfl (get_all_mem_nodes g)
  set F := g.get_all.foldl (dfsOuterStep g.get_adj (g.dfsUniv.length + 1))
    ⟨[], [], false, [], []⟩ with hF
  have hR : g.depth_first_search = { F with order := F.order.reverse } :=
    depth_first_search_core_eq g.get_all g.get_adj (g.dfsUniv.length + 1)
  rw [hR]
  obtain ⟨Tnd, Pnd, disj, Puniv, Tuniv, PO, cj, topo⟩ := InvF
  have hkey_perm : ∀ u, (∃ x, x ∈ g.get_adj u) → F.cyclic = false →
      u ∈ F.perm := by
    intro u ⟨x, hx⟩ hcyc
    rcases allF u (mem_get_adj_key hx) with h | h
    · exact h
    · rw [hcyc] at h
      exact absurd h (by simp)
  constructor
  · constructor
    · exact cj
    · intro hcycle
      by_cases hc : F.cyclic = true
      · exact hc
      · exfalso
        have hcf : F.cyclic = false := by
          cases h : F.cyclic
          · rfl
          · exact absurd h hc
        obtain ⟨n, k, hw⟩ := hcycle
        have hn : n ∈ F.perm := hkey_perm n (walk_first_edge k n n hw) hcf
        have := dfs_perm_walk_before ⟨Tnd, Pnd, disj, Puniv, Tuniv, PO, cj, topo⟩
          hcf k n n hn hw
        exact before_irrefl F.order n this.2
  · intro hcyc
    have hOnd : F.order.Nodup := (PO.nodup_iff).mp Pnd
    refine ⟨List.nodup_reverse.mpr hOnd, ?_, ?_⟩
    · intro n
      rw [List.mem_reverse]
      have hmemP : n ∈ F.order ↔ n ∈ F.perm := (PO.mem_iff).symm
      rw [hmemP]
      constructor
      · intro h
        exact Puniv n h
      · intro h
        unfold DirectedGraph.nodes at h
        rw [List.mem_dedup, List.mem_append] at h
        rcases h with h | h
        · rcases allF n h with h | h
          · exact h
          · rw [hcyc] at h
            exact absurd h (by simp)
        · rw [List.mem_flatten] at h
          obtain ⟨l, hl, hnl⟩ := h
          obtain ⟨u, hu, hul⟩ := List.mem_map.mp hl
          have hnl' : n ∈ g.get_adj u := by rw [hul]; exact hnl
          have hup : u ∈ F.perm := by
            rcases allF u hu with h | h
            · exact h
            · rw [hcyc] at h
              exact absurd h (by simp)
          rcases topo u hup n hnl' with ⟨h, _⟩ | h
          · exact h
          · rw [hcyc] at h
            exact absurd h (by simp)
    · intro u v hv
      have hup : u ∈ F.perm := hkey_perm u ⟨v, hv⟩ hcyc
      rcases topo u hup v hv with ⟨hvp, hvb⟩ | h
      · obtain ⟨l1, l2, he, hvl, hul, hu2⟩ := hvb
        have hrev : F.order.reverse = l2.reverse ++ l1.reverse := by
          rw [he, List.reverse_append]
        rw [show ({ F with order := F.order.reverse } : DfsState).order =
          F.order.reverse from rfl, hrev]
        have hsub1 : [u].Sublist l2.reverse :=
          List.singleton_sublist.mpr (List.mem_reverse.mpr hu2)
        have hsub2 : [v].Sublist l1.reverse :=
          List.singleton_sublist.mpr (List.mem_reverse.mpr hvl)
        exact List.Sublist.append hsub1 hsub2
      · rw [hcyc] at h
        exact absurd h (by simp)

/-! ## Dijkstra correctness (claim C1) -/

/-- A weighted walk of exactly `k` edges from `u` to `v` of total weight `c`. -/
def WWalk (g : WeightedGraph) (u : Nat) : Nat → Nat → Nat → Prop
  | 0, v, c => v = u ∧ c = 0
  | k + 1, v, c => ∃ m w c', WWalk g u k m c' ∧ (v, w) ∈ g.get_adj_weighted m ∧
      c = c' + w

/-- `c` is the least total weight over all walks from `o` to `n`. -/
def MinW (g : WeightedGraph) (o n c : Nat) : Prop :=
  (∃ k, WWalk g o k n c) ∧ ∀ k' c', WWalk g o k' n c' → c ≤ c'

/-- The node list `q` is a path of `g` of total weight `c`: consecutive nodes
are joined by weighted edges whose weights sum to `c`. -/
def IsPathW (g : WeightedGraph) : List Nat → Nat → Prop
  | [], _ => False
  | [_], c => c = 0
  | x :: y :: rest, c => ∃ w c', (y, w) ∈ g.get_adj_weighted x ∧
      IsPathW g (y :: rest) c' ∧ c = w + c'

theorem MinW_unique {g : WeightedGraph} {o n c1 c2 : Nat} (h1 : MinW g o n c1)
    (h2 : MinW g o n c2) : c1 = c2 := by
  obtain ⟨⟨k1, hw1⟩, hm1⟩ := h1
  obtain ⟨⟨k2, hw2⟩, hm2⟩ := h2
  exact Nat.le_antisymm (hm1 k2 c2 hw2) (hm2 k1 c1 hw1)

theorem MinW_origin (g : WeightedGraph) (o : Nat) : MinW g o o 0 :=
  ⟨⟨0, rfl, rfl⟩, fun _ c _ => Nat.zero_le c⟩

theorem WWalk_cons {g : WeightedGraph} {u y v w c k : Nat}
    (hedge : (y, w) ∈ g.get_adj_weighted u) (hwalk : WWalk g y k v c) :
    WWalk g u (k + 1) v (w + c) := by
  induction k generalizing v c with
  | zero =>
    obtain ⟨hv, hc⟩ := hwalk
    subst hv
    subst hc
    exact ⟨u, w, 0, ⟨rfl, rfl⟩, hedge, by omega⟩
  | succ k ih =>
    obtain ⟨m, w', c', hw, he, hc⟩ := hwalk
    subst hc
    exact ⟨m, w', w + c', ih hw, he, by omega⟩

theorem IsPathW_snoc {g : WeightedGraph} :
    ∀ (q : List Nat) (c m v w : Nat), IsPathW g q c → q.getLast? = some m →
    (v, w) ∈ g.get_adj_weighted m →
    IsPathW g (q ++ [v]) (c + w) ∧ (q ++ [v]).head? = q.head? := by
  intro q
  induction q with
  | nil =>
    intro c m v w hp _ _
    exact absurd hp (by simp [IsPathW])
  | cons x rest ih =>
    intro c m v w hp hlast hedge
    cases rest with
    | nil =>
      have hxm : x = m := by
        simp at hlast
        exact hlast
      have hc : c = 0 := hp
      subst hxm
      subst hc
      refine ⟨⟨w, 0, hedge, rfl, by omega⟩, rfl⟩
    | cons y rest' =>
      obtain ⟨w0, c0, he0, hp0, hc0⟩ := hp
      have hlast' : (y :: rest').getLast? = some m := by
        rw [List.getLast?_cons_cons] at hlast
        exact hlast
      obtain ⟨hp1, _⟩ := ih c0 m v w hp0 hlast' hedge
      refine ⟨⟨w0, c0 + w, he0, hp1, by omega⟩, rfl⟩

theorem path_of_walk {g : WeightedGraph} {o : Nat} :
    ∀ k v c, WWalk g o k v c →
    ∃ q, IsPathW g q c ∧ q.head? = some o ∧ q.getLast? = some v := by
  intro k
  induction k with
  | zero =>
    intro v c hw
    obtain ⟨hv, hc⟩ := hw
    exact ⟨[o], hc, rfl, by rw [hv]; simp⟩
  | succ k ih =>
    intro v c hw
    obtain ⟨m, w, c', hwalk, hedge, hc⟩ := hw
    obtain ⟨q, hp, hh, hl⟩ := ih m c' hwalk
    obtain ⟨hp', hh'⟩ := IsPathW_snoc q c' m v w hp hl hedge
    subst hc
    refine ⟨q ++ [v], hp', by rw [hh']; exact hh, List.getLast?_concat q⟩

theorem walk_of_path {g : WeightedGraph} :
    ∀ (q : List Nat) (c u v : Nat), IsPathW g q c → q.head? = some u →
    q.getLast? = some v → ∃ k, WWalk g u k v c := by
  intro q
  induction q with
  | nil =>
    intro c u v hp _ _
    exact absurd hp (by simp [IsPathW])
  | cons x rest ih =>
    intro c u v hp hh hl
    have hxu : x = u := by
      simp at hh
      exact hh
    subst hxu
    cases rest with
    | nil =>
      have hxv : x = v := by
        simp at hl
        exact hl
      have hc : c = 0 := hp
      subst hxv
      subst hc
      exact ⟨0, rfl, rfl⟩
    | cons y rest' =>
      obtain ⟨w, c', hedge, hp', hc⟩ := hp
      have hl' : (y :: rest').getLast? = some v := by
        rw [List.getLast?_cons_cons] at hl
        exact hl
      obtain ⟨k, hk⟩ := ih c' y v hp' rfl hl'
      subst hc
      exact ⟨k + 1, WWalk_cons hedge hk⟩

theorem minByKeyW_cons_isSome (a : Nat × Nat) (t : List (Nat × Nat)) :
    ∃ p, minByKeyW (a :: t) = some p := by
  show ∃ p, (match minByKeyW t with
    | none => some a
    | some q => if a.2 ≤ q.2 then some a else some q) = some p
  cases minByKeyW t with
  | none => exact ⟨a, rfl⟩
  | some q =>
    by_cases h : a.2 ≤ q.2
    · refine ⟨a, ?_⟩
      show (if a.2 ≤ q.2 then some a else some q) = some a
      rw [if_pos h]
    · refine ⟨q, ?_⟩
      show (if a.2 ≤ q.2 then some a else some q) = some q
      rw [if_neg h]

theorem minByKeyW_spec :
    ∀ (l : List (Nat × Nat)) (p : Nat × Nat), minByKeyW l = some p →
    p ∈ l ∧ ∀ q ∈ l, p.2 ≤ q.2 := by
  intro l
  induction l with
  | nil =>
    intro p h
    exact absurd h (by simp [minByKeyW])
  | cons a t ih =>
    intro p h
    have hshow : (match minByKeyW t with
        | none => some a
        | some q => if a.2 ≤ q.2 then some a else some q) = some p := h
    cases hm : minByKeyW t with
    | none =>
      rw [hm] at hshow
      have hs2 : some a = some p := hshow
      have hap : a = p := Option.some.inj hs2
      subst hap
      constructor
      · exact List.mem_cons_self _ _
      · intro q hq
        rcases List.mem_cons.mp hq with hq | hq
        · subst hq
          exact le_refl _
        · exfalso
          cases t with
          | nil => exact absurd hq (List.not_mem_nil q)
          | cons b t' =>
            obtain ⟨r, hr⟩ := minByKeyW_cons_isSome b t'
            rw [hr] at hm
            exact Option.noConfusion hm
    | some r =>
      rw [hm] at hshow
      have hs2 : (if a.2 ≤ r.2 then some a else some r) = some p := hshow
      obtain ⟨hr, hrmin⟩ := ih r hm
      by_cases har : a.2 ≤ r.2
      · rw [if_pos har] at hs2
        have hap : a = p := Option.some.inj hs2
        subst hap
        constructor
        · exact List.mem_cons_self _ _
        · intro q hq
          rcases List.mem_cons.mp hq with hq | hq
          · subst hq
            exact le_refl _
          · exact le_trans har (hrmin q hq)
      · rw [if_neg har] at hs2
        have hrp : r = p := Option.some.inj hs2
        subst hrp
        constructor
        · exact List.mem_cons_of_mem _ hr
        · intro q hq
          rcases List.mem_cons.mp hq with hq | hq
          · subst hq
            omega
          · exact hrmin q hq

theorem mem_lookupA_of_nodup {β : Type} :
    ∀ {l : List (Nat × β)} {n : Nat} {v : β}, (n, v) ∈ l →
    (l.map Prod.fst).Nodup → lookupA l n = some v := by
  intro l
  induction l with
  | nil =>
    intro n v h _
    exact absurd h (List.not_mem_nil _)
  | cons a t ih =>
    intro n v h hnd
    obtain ⟨k, w⟩ := a
    rw [List.map_cons, List.nodup_cons] at hnd
    rcases List.mem_cons.mp h with h | h
    · have hk : k = n ∧ w = v := by
        have := Prod.mk.injEq k w n v ▸ h.symm
        exact ⟨congrArg Prod.fst h.symm, congrArg Prod.snd h.symm⟩
      obtain ⟨hk1, hk2⟩ := hk
      subst hk1
      subst hk2
      simp [lookupA]
    · have hkn : k ≠ n := by
        intro he
        subst he
        exact hnd.1 (List.mem_map.mpr ⟨(k, v), h, rfl⟩)
      simp only [lookupA, if_neg hkn]
      exact ih h hnd.2

theorem keys_removeA_nodup {β : Type} {l : List (Nat × β)} (n : Nat)
    (hnd : (l.map Prod.fst).Nodup) : ((removeA l n).map Prod.fst).Nodup :=
  ((removeA_sublist l n).map Prod.fst).nodup hnd

/-- One iteration of the relax loop of `dijkstras` (the body of the `for`). -/
def relaxStep (origin node weight : Nat)
    (acc : List (Nat × Nat) × List (Nat × Nat)) (e : Nat × Nat) :
    List (Nat × Nat) × List (Nat × Nat) :=
  match lookupA acc.1 e.1, lookupA acc.2 e.1 with
  | some node_weight, some _ =>
    if node_weight > weight + e.2 then
      (upsertA acc.1 e.1 (weight + e.2), upsertA acc.2 e.1 node)
    else acc
  | none, none =>
    if e.1 ≠ origin then
      (upsertA acc.1 e.1 (weight + e.2), upsertA acc.2 e.1 node)
    else acc
  | _, _ => acc

theorem relaxEdges_eq (origin node weight : Nat) (edges : List (Nat × Nat))
    (dist prev : List (Nat × Nat)) :
    relaxEdges origin node weight edges dist prev =
      edges.foldl (relaxStep origin node weight) (dist, prev) := rfl

theorem relaxEdges_cons (origin node weight : Nat) (e : Nat × Nat)
    (es : List (Nat × Nat)) (dist prev : List (Nat × Nat)) :
    relaxEdges origin node weight (e :: es) dist prev =
      relaxEdges origin node weight es
        (relaxStep origin node weight (dist, prev) e).1
        (relaxStep origin node weight (dist, prev) e).2 := by
  rw [relaxEdges_eq, relaxEdges_eq, List.foldl_cons]

/-- What the relax loop guarantees relative to its entry state. -/
def RelaxOut (origin node weight : Nat)
    (edges dist prev rd rp : List (Nat × Nat)) : Prop :=
  (rd.map Prod.fst).Nodup ∧ (rp.map Prod.fst).Nodup ∧
  lookupA rp origin = none ∧
  (∀ n d, lookupA dist n = some d → ∃ d', lookupA rd n = some d' ∧ d' ≤ d) ∧
  (∀ n d', lookupA rd n = some d' →
    (lookupA dist n = some d' ∧ lookupA rp n = lookupA prev n) ∨
    (n ≠ origin ∧ (∃ w, (n, w) ∈ edges ∧ d' = weight + w) ∧
      lookupA rp n = some node ∧
      ((lookupA dist n = none ∧ lookupA prev n = none) ∨
        (∃ dOld, lookupA dist n = some dOld ∧ d' ≤ dOld)))) ∧
  (∀ n, lookupA rd n = none →
    lookupA dist n = none ∧ lookupA rp n = lookupA prev n) ∧
  (∀ n, lookupA dist n = none → lookupA prev n ≠ none →
    lookupA rd n = none ∧ lookupA rp n = lookupA prev n) ∧
  (∀ v w, (v, w) ∈ edges → v = origin ∨
    (lookupA dist v = none ∧ lookupA prev v ≠ none) ∨
    (∃ d', lookupA rd v = some d' ∧ d' ≤ weight + w))

theorem relaxEdges_spec (origin node weight : Nat) :
    ∀ (edges dist prev : List (Nat × Nat)),
    (dist.map Prod.fst).Nodup → (prev.map Prod.fst).Nodup →
    lookupA prev origin = none →
    (∀ n, lookupA dist n ≠ none → lookupA prev n = none → n = origin) →
    RelaxOut origin node weight edges dist prev
      (relaxEdges origin node weight edges dist prev).1
      (relaxEdges origin node weight edges dist prev).2 := by
  intro edges
  induction edges with
  | nil =>
    intro dist prev hnd hnp hpo _
    refine ⟨hnd, hnp, hpo, ?_, ?_, ?_, ?_, ?_⟩
    · intro n d h
      exact ⟨d, h, le_refl d⟩
    · intro n d' h
      exact Or.inl ⟨h, rfl⟩
    · intro n h
      exact ⟨h, rfl⟩
    · intro n h1 _
      exact ⟨h1, rfl⟩
    · intro v w hv
      exact absurd hv (List.not_mem_nil _)
  | cons e es ih =>
    intro dist prev hnd hnp hpo hsn
    obtain ⟨v0, w0⟩ := e
    rw [relaxEdges_cons]
    -- case analysis on the step
    rcases hcase : relaxStep origin node weight (dist, prev) (v0, w0) with ⟨d1, p1⟩
    -- characterize (d1, p1)
    have hstep : (lookupA dist v0 = none ∧ lookupA prev v0 = none ∧ v0 ≠ origin ∧
          d1 = upsertA dist v0 (weight + w0) ∧ p1 = upsertA prev v0 node) ∨
        (∃ dw, lookupA dist v0 = some dw ∧ (lookupA prev v0).isSome = true ∧
          dw > weight + w0 ∧
          d1 = upsertA dist v0 (weight + w0) ∧ p1 = upsertA prev v0 node) ∨
        ((d1 = dist ∧ p1 = prev) ∧
          (∀ hw : lookupA dist v0 = none, lookupA prev v0 = none → v0 = origin) ∧
          (∀ dw, lookupA dist v0 = some dw → (lookupA prev v0).isSome = true →
            dw ≤ weight + w0)) := by
      have hred : (d1, p1) =
          (match lookupA dist v0, lookupA prev v0 with
            | some node_weight, some _ =>
              if node_weight > weight + w0 then
                (upsertA dist v0 (weight + w0), upsertA prev v0 node)
              else (dist, prev)
            | none, none =>
              if v0 ≠ origin then
                (upsertA dist v0 (weight + w0), upsertA prev v0 node)
              else (dist, prev)
            | _, _ => (dist, prev)) := hcase ▸ rfl
      cases hd : lookupA dist v0 with
      | some dw =>
        cases hp : lookupA prev v0 with
        | some x =>
          rw [hd, hp] at hred
          have hred2 : (d1, p1) = (if dw > weight + w0 then
              (upsertA dist v0 (weight + w0), upsertA prev v0 node)
              else (dist, prev)) := hred
          by_cases hgt : dw > weight + w0
          · rw [if_pos hgt] at hred2
            exact Or.inr (Or.inl ⟨dw, rfl, rfl, hgt,
              congrArg Prod.fst hred2, congrArg Prod.snd hred2⟩)
          · rw [if_neg hgt] at hred2
            refine Or.inr (Or.inr ⟨⟨congrArg Prod.fst hred2,
              congrArg Prod.snd hred2⟩, ?_, ?_⟩)
            · intro hw
              exact Option.noConfusion hw
            · intro dw' hdw' _
              have hde : dw = dw' := Option.some.inj hdw'
              omega
        | none =>
          rw [hd, hp] at hred
          have hred2 : (d1, p1) = (dist, prev) := hred
          refine Or.inr (Or.inr ⟨⟨congrArg Prod.fst hred2,
            congrArg Prod.snd hred2⟩, ?_, ?_⟩)
          · intro hw
            exact Option.noConfusion hw
          · intro dw' hdw' hps
            simp at hps
      | none =>
        cases hp : lookupA prev v0 with
        | some x =>
          rw [hd, hp] at hred
          have hred2 : (d1, p1) = (dist, prev) := hred
          refine Or.inr (Or.inr ⟨⟨congrArg Prod.fst hred2,
            congrArg Prod.snd hred2⟩, ?_, ?_⟩)
          · intro _ hpn
            exact Option.noConfusion hpn
          · intro dw' hdw' _
            exact Option.noConfusion hdw'
        | none =>
          rw [hd, hp] at hred
          have hred2 : (d1, p1) = (if v0 ≠ origin then
              (upsertA dist v0 (weight + w0), upsertA prev v0 node)
              else (dist, prev)) := hred
          by_cases hvo : v0 ≠ origin
          · rw [if_pos hvo] at hred2
            exact Or.inl ⟨rfl, rfl, hvo, congrArg Prod.fst hred2,
              congrArg Prod.snd hred2⟩
          · rw [if_neg hvo] at hred2
            refine Or.inr (Or.inr ⟨⟨congrArg Prod.fst hred2,
              congrArg Prod.snd hred2⟩, ?_, ?_⟩)
            · intro _ _
              exact not_not.mp hvo
            · intro dw' hdw' _
              exact Option.noConfusion hdw'
    -- now three cases
    rcases hstep with ⟨hd, hp, hvo, hd1, hp1⟩ | ⟨dw, hd, hp, hgt, hd1, hp1⟩ |
      ⟨⟨hd1, hp1⟩, hsn0, hle0⟩
    · -- fresh discovery
      subst hd1
      subst hp1
      have hnd1 := keys_upsertA_nodup v0 (weight + w0) hnd
      have hnp1 := keys_upsertA_nodup v0 node hnp
      have hpo1 : lookupA (upsertA prev v0 node) origin = none := by
        rw [lookupA_upsertA_ne prev v0 origin node (Ne.symm hvo)]
        exact hpo
      have hsn1 : ∀ n, lookupA (upsertA dist v0 (weight + w0)) n ≠ none →
          lookupA (upsertA prev v0 node) n = none → n = origin := by
        intro n h1 h2
        by_cases hnv : n = v0
        · subst hnv
          rw [lookupA_upsertA_self] at h2
          exact Option.noConfusion h2
        · rw [lookupA_upsertA_ne dist v0 n _ hnv] at h1
          rw [lookupA_upsertA_ne prev v0 n _ hnv] at h2
          exact hsn n h1 h2
      obtain ⟨ndA, ndB, oA, B, C, D, F, E⟩ := ih _ _ hnd1 hnp1 hpo1 hsn1
      refine ⟨ndA, ndB, oA, ?_, ?_, ?_, ?_, ?_⟩
      · intro n d h
        have hnv : n ≠ v0 := by
          intro he
          rw [he, hd] at h
          exact Option.noConfusion h
        apply B n d
        rw [lookupA_upsertA_ne dist v0 n _ hnv]
        exact h
      · intro n d' h
        rcases C n d' h with ⟨h1, h2⟩ | ⟨h1, ⟨w, hw, hdw⟩, h3, hsub⟩
        · by_cases hnv : n = v0
          · subst hnv
            rw [lookupA_upsertA_self] at h1
            have hdv : d' = weight + w0 := (Option.some.inj h1).symm
            rw [lookupA_upsertA_self] at h2
            exact Or.inr ⟨hvo, ⟨w0, List.mem_cons_self _ _, hdv⟩, h2,
              Or.inl ⟨hd, hp⟩⟩
          · rw [lookupA_upsertA_ne dist v0 n _ hnv] at h1
            rw [lookupA_upsertA_ne prev v0 n _ hnv] at h2
            exact Or.inl ⟨h1, h2⟩
        · refine Or.inr ⟨h1, ⟨w, List.mem_cons_of_mem _ hw, hdw⟩, h3, ?_⟩
          by_cases hnv : n = v0
          · exact Or.inl ⟨by rw [hnv]; exact hd, by rw [hnv]; exact hp⟩
          · rcases hsub with ⟨hs1, hs2⟩ | ⟨dOld, hs1, hs2⟩
            · rw [lookupA_upsertA_ne dist v0 n _ hnv] at hs1
              rw [lookupA_upsertA_ne prev v0 n _ hnv] at hs2
              exact Or.inl ⟨hs1, hs2⟩
            · rw [lookupA_upsertA_ne dist v0 n _ hnv] at hs1
              exact Or.inr ⟨dOld, hs1, hs2⟩
      · intro n h
        obtain ⟨h1, h2⟩ := D n h
        by_cases hnv : n = v0
        · subst hnv
          rw [lookupA_upsertA_self] at h1
          exact Option.noConfusion h1
        · rw [lookupA_upsertA_ne dist v0 n _ hnv] at h1
          rw [lookupA_upsertA_ne prev v0 n _ hnv] at h2
          exact ⟨h1, h2⟩
      · intro n h1 h2
        by_cases hnv : n = v0
        · exfalso
          rw [hnv] at h2
          exact h2 hp
        · have h1' : lookupA (upsertA dist v0 (weight + w0)) n = none := by
            rw [lookupA_upsertA_ne dist v0 n _ hnv]
            exact h1
          have h2' : lookupA (upsertA prev v0 node) n ≠ none := by
            rw [lookupA_upsertA_ne prev v0 n _ hnv]
            exact h2
          obtain ⟨hf1, hf2⟩ := F n h1' h2'
          exact ⟨hf1, hf2.trans (lookupA_upsertA_ne prev v0 n _ hnv)⟩
      · intro v w hvw
        rcases List.mem_cons.mp hvw with hvw | hvw
        · have hv : v = v0 ∧ w = w0 :=
            ⟨congrArg Prod.fst hvw, congrArg Prod.snd hvw⟩
          obtain ⟨hv1, hv2⟩ := hv
          rw [hv1, hv2]
          refine Or.inr (Or.inr ?_)
          obtain ⟨d', hd', hle⟩ := B v0 (weight + w0) (lookupA_upsertA_self _ _ _)
          exact ⟨d', hd', hle⟩
        · rcases E v w hvw with h | ⟨h1, h2⟩ | h
          · exact Or.inl h
          · by_cases hnv : v = v0
            · subst hnv
              rw [lookupA_upsertA_self] at h1
              exact absurd h1 (by simp)
            · rw [lookupA_upsertA_ne dist v0 v _ hnv] at h1
              rw [lookupA_upsertA_ne prev v0 v _ hnv] at h2
              exact Or.inr (Or.inl ⟨h1, h2⟩)
          · exact Or.inr (Or.inr h)
    · -- improving update
      subst hd1
      subst hp1
      have hvo : v0 ≠ origin := by
        intro he
        rw [he, hpo] at hp
        exact absurd hp (by simp)
      have hnd1 := keys_upsertA_nodup v0 (weight + w0) hnd
      have hnp1 := keys_upsertA_nodup v0 node hnp
      have hpo1 : lookupA (upsertA prev v0 node) origin = none := by
        rw [lookupA_upsertA_ne prev v0 origin node (Ne.symm hvo)]
        exact hpo
      have hsn1 : ∀ n, lookupA (upsertA dist v0 (weight + w0)) n ≠ none →
          lookupA (upsertA prev v0 node) n = none → n = origin := by
        intro n h1 h2
        by_cases hnv : n = v0
        · subst hnv
          rw [lookupA_upsertA_self] at h2
          exact Option.noConfusion h2
        · rw [lookupA_upsertA_ne dist v0 n _ hnv] at h1
          rw [lookupA_upsertA_ne prev v0 n _ hnv] at h2
          exact hsn n h1 h2
      obtain ⟨ndA, ndB, oA, B, C, D, F, E⟩ := ih _ _ hnd1 hnp1 hpo1 hsn1
      refine ⟨ndA, ndB, oA, ?_, ?_, ?_, ?_, ?_⟩
      · intro n d h
        by_cases hnv : n = v0
        · rw [hnv] at h ⊢
          rw [hd] at h
          have hdd : dw = d := Option.some.inj h
          obtain ⟨d', hd', hle⟩ := B v0 (weight + w0) (lookupA_upsertA_self _ _ _)
          exact ⟨d', hd', by omega⟩
        · apply B n d
          rw [lookupA_upsertA_ne dist v0 n _ hnv]
          exact h
      · intro n d' h
        rcases C n d' h with ⟨h1, h2⟩ | ⟨h1, ⟨w, hw, hdw⟩, h3, hsub⟩
        · by_cases hnv : n = v0
          · subst hnv
            rw [lookupA_upsertA_self] at h1
            have hdv : d' = weight + w0 := (Option.some.inj h1).symm
            rw [lookupA_upsertA_self] at h2
            exact Or.inr ⟨hvo, ⟨w0, List.mem_cons_self _ _, hdv⟩, h2,
              Or.inr ⟨dw, hd, by omega⟩⟩
          · rw [lookupA_upsertA_ne dist v0 n _ hnv] at h1
            rw [lookupA_upsertA_ne prev v0 n _ hnv] at h2
            exact Or.inl ⟨h1, h2⟩
        · refine Or.inr ⟨h1, ⟨w, List.mem_cons_of_mem _ hw, hdw⟩, h3, ?_⟩
          by_cases hnv : n = v0
          · rcases hsub with ⟨hs1, hs2⟩ | ⟨dOld, hs1, hs2⟩
            · exfalso
              rw [hnv, lookupA_upsertA_self] at hs1
              exact Option.noConfusion hs1
            · rw [hnv, lookupA_upsertA_self] at hs1
              have hdo : dOld = weight + w0 := (Option.some.inj hs1).symm
              refine Or.inr ⟨dw, ?_, by omega⟩
              rw [hnv]
              exact hd
          · rcases hsub with ⟨hs1, hs2⟩ | ⟨dOld, hs1, hs2⟩
            · rw [lookupA_upsertA_ne dist v0 n _ hnv] at hs1
              rw [lookupA_upsertA_ne prev v0 n _ hnv] at hs2
              exact Or.inl ⟨hs1, hs2⟩
            · rw [lookupA_upsertA_ne dist v0 n _ hnv] at hs1
              exact Or.inr ⟨dOld, hs1, hs2⟩
      · intro n h
        obtain ⟨h1, h2⟩ := D n h
        by_cases hnv : n = v0
        · subst hnv
          rw [lookupA_upsertA_self] at h1
          exact Option.noConfusion h1
        · rw [lookupA_upsertA_ne dist v0 n _ hnv] at h1
          rw [lookupA_upsertA_ne prev v0 n _ hnv] at h2
          exact ⟨h1, h2⟩
      · intro n h1 h2
        have hnv : n ≠ v0 := by
          intro he
          rw [he, hd] at h1
          exact Option.noConfusion h1
        have h1' : lookupA (upsertA dist v0 (weight + w0)) n = none := by
          rw [lookupA_upsertA_ne dist v0 n _ hnv]
          exact h1
        have h2' : lookupA (upsertA prev v0 node) n ≠ none := by
          rw [lookupA_upsertA_ne prev v0 n _ hnv]
          exact h2
        obtain ⟨hf1, hf2⟩ := F n h1' h2'
        exact ⟨hf1, hf2.trans (lookupA_upsertA_ne prev v0 n _ hnv)⟩
      · intro v w hvw
        rcases List.mem_cons.mp hvw with hvw | hvw
        · have hv : v = v0 ∧ w = w0 :=
            ⟨congrArg Prod.fst hvw, congrArg Prod.snd hvw⟩
          obtain ⟨hv1, hv2⟩ := hv
          rw [hv1, hv2]
          obtain ⟨d', hd', hle⟩ := B v0 (weight + w0) (lookupA_upsertA_self _ _ _)
          exact Or.inr (Or.inr ⟨d', hd', hle⟩)
        · rcases E v w hvw with h | ⟨h1, h2⟩ | h
          · exact Or.inl h
          · by_cases hnv : v = v0
            · subst hnv
              rw [lookupA_upsertA_self] at h1
              exact absurd h1 (by simp)
            · rw [lookupA_upsertA_ne dist v0 v _ hnv] at h1
              rw [lookupA_upsertA_ne prev v0 v _ hnv] at h2
              exact Or.inr (Or.inl ⟨h1, h2⟩)
          · exact Or.inr (Or.inr h)
    · -- no-op step
      rw [hd1, hp1]
      obtain ⟨ndA, ndB, oA, B, C, D, F, E⟩ := ih dist prev hnd hnp hpo hsn
      refine ⟨ndA, ndB, oA, B, ?_, D, F, ?_⟩
      · intro n d' h
        rcases C n d' h with h | ⟨h1, ⟨w, hw, hdw⟩, h3, hsub⟩
        · exact Or.inl h
        · exact Or.inr ⟨h1, ⟨w, List.mem_cons_of_mem _ hw, hdw⟩, h3, hsub⟩
      · intro v w hvw
        rcases List.mem_cons.mp hvw with hvw | hvw
        · have hv : v = v0 ∧ w = w0 :=
            ⟨congrArg Prod.fst hvw, congrArg Prod.snd hvw⟩
          obtain ⟨hv1, hv2⟩ := hv
          rw [hv1, hv2]
          cases hd : lookupA dist v0 with
          | none =>
            cases hp : lookupA prev v0 with
            | none =>
              exact Or.inl (hsn0 hd hp)
            | some x =>
              exact Or.inr (Or.inl ⟨rfl, fun hc => Option.noConfusion hc⟩)
          | some dw =>
            cases hp : lookupA prev v0 with
            | none =>
              refine Or.inl (hsn v0 ?_ hp)
              rw [hd]
              simp
            | some x =>
              have hle : dw ≤ weight + w0 := hle0 dw hd (by rw [hp]; rfl)
              obtain ⟨d', hd', hdle⟩ := B v0 dw hd
              exact Or.inr (Or.inr ⟨d', hd', by omega⟩)
        · rcases E v w hvw with h | h | h
          · exact Or.inl h
          · exact Or.inr (Or.inl h)
          · exact Or.inr (Or.inr h)

/-- The nodes Dijkstra's can ever place in its maps. -/
def djUniv (g : WeightedGraph) (origin : Nat) : List Nat :=
  origin :: g.dfsUniv

theorem edge_target_mem_dfsUniv {g : WeightedGraph} {m v w : Nat}
    (h : (v, w) ∈ g.get_adj_weighted m) : v ∈ g.dfsUniv := by
  unfold WeightedGraph.get_adj_weighted at h
  cases hl : lookupA g.adj m with
  | none =>
    rw [hl] at h
    exact absurd h (List.not_mem_nil _)
  | some l =>
    rw [hl] at h
    unfold WeightedGraph.dfsUniv
    rw [List.mem_dedup, List.mem_append]
    refine Or.inr ?_
    rw [List.mem_flatten]
    exact ⟨l.map Prod.fst,
      List.mem_map.mpr ⟨(m, l), lookupA_eq_some_mem hl, rfl⟩,
      List.mem_map.mpr ⟨(v, w), h, rfl⟩⟩

theorem lookupA_removeA_some {β : Type} {l : List (Nat × β)} {k n : Nat} {v : β}
    (hnd : (l.map Prod.fst).Nodup) (h : lookupA (removeA l k) n = some v) :
    lookupA l n = some v := by
  by_cases hnk : n = k
  · subst hnk
    rw [lookupA_removeA_self_of_nodup n hnd] at h
    exact Option.noConfusion h
  · rw [lookupA_removeA_ne l k n hnk] at h
    exact h

/-- The Dijkstra loop invariant: the maps have set semantics, the settled set
`known` carries true minimum distances linked by tight predecessor edges into
earlier-settled nodes, every tentative entry is one settled-set relaxation with
best possible value, and edges out of the settled set stay inside
`known ∪ dist`. -/
def DjInv (g : WeightedGraph) (origin : Nat)
    (dist prev : List (Nat × Nat)) (known : List Nat) : Prop :=
  (dist.map Prod.fst).Nodup ∧
  (prev.map Prod.fst).Nodup ∧
  known.Nodup ∧
  lookupA prev origin = none ∧
  (∀ n ∈ known, n ∈ djUniv g origin) ∧
  (∀ n d, lookupA dist n = some d → n ∈ djUniv g origin) ∧
  (∀ n d, lookupA dist n = some d → n ∉ known) ∧
  (origin ∈ known ∨ lookupA dist origin = some 0) ∧
  (∀ n x, lookupA prev n = some x → n ∈ known ∨ ∃ d, lookupA dist n = some d) ∧
  (∀ n ∈ known, ∃ c, MinW g origin n c) ∧
  (∀ n ∈ known, n ≠ origin → ∃ m w c_m c_n k2, (∃ k1, known = k1 ++ n :: k2) ∧
    m ∈ k2 ∧ lookupA prev n = some m ∧ (n, w) ∈ g.get_adj_weighted m ∧
    MinW g origin m c_m ∧ MinW g origin n c_n ∧ c_n = c_m + w) ∧
  (∀ n d, lookupA dist n = some d → (n = origin ∧ d = 0) ∨
    (∃ m w c_m, lookupA prev n = some m ∧ m ∈ known ∧
      (n, w) ∈ g.get_adj_weighted m ∧ MinW g origin m c_m ∧ d = c_m + w)) ∧
  (∀ n d, lookupA dist n = some d → ∀ m ∈ known, ∀ w c_m,
    (n, w) ∈ g.get_adj_weighted m → MinW g origin m c_m → d ≤ c_m + w) ∧
  (∀ m ∈ known, ∀ v w, (v, w) ∈ g.get_adj_weighted m →
    v ∈ known ∨ ∃ d, lookupA dist v = some d)

theorem dj_cover (g : WeightedGraph) (origin : Nat)
    (dist prev : List (Nat × Nat)) (known : List Nat)
    (hInv : DjInv g origin dist prev known) :
    ∀ k x c, WWalk g origin k x c → x ∉ known →
      ∃ y d, lookupA dist y = some d ∧ d ≤ c := by
  obtain ⟨_, _, _, _, _, _, _, hK7, _, hK1, _, _, hK5, hK8⟩ := hInv
  intro k
  induction k with
  | zero =>
    intro x c hw hx
    obtain ⟨hxo, hc⟩ := hw
    rw [hxo] at hx
    rcases hK7 with h | h
    · exact absurd h hx
    · exact ⟨origin, 0, h, by omega⟩
  | succ k ih =>
    intro x c hw hx
    obtain ⟨m, w, c', hwalk, hedge, hc⟩ := hw
    by_cases hm : m ∈ known
    · obtain ⟨c_m, hcm⟩ := hK1 m hm
      have hcm_le : c_m ≤ c' := hcm.2 k c' hwalk
      rcases hK8 m hm x w hedge with hxk | ⟨d, hd⟩
      · exact absurd hxk hx
      · refine ⟨x, d, hd, ?_⟩
        have := hK5 x d hd m hm w c_m hedge hcm
        omega
    · obtain ⟨y, d, hd, hdle⟩ := ih m c' hwalk hm
      exact ⟨y, d, hd, by omega⟩

theorem dj_settle (g : WeightedGraph) (origin : Nat)
    (dist prev : List (Nat × Nat)) (known : List Nat)
    (hInv : DjInv g origin dist prev known)
    (node weight : Nat) (hmin : minByKeyW dist = some (node, weight)) :
    node ∉ known ∧ MinW g origin node weight ∧
    DjInv g origin
      (relaxEdges origin node weight (g.get_adj_weighted node)
        (removeA dist node) prev).1
      (relaxEdges origin node weight (g.get_adj_weighted node)
        (removeA dist node) prev).2
      (node :: known) := by
  obtain ⟨hndD, hndP, hndK, hPO, hKU, hDU, hdisj, hK7, hP1, hK1, hK2, hK4,
    hK5, hK8⟩ := hInv
  obtain ⟨hmem, hminall⟩ := minByKeyW_spec dist (node, weight) hmin
  have hlook : lookupA dist node = some weight := mem_lookupA_of_nodup hmem hndD
  have hnk : node ∉ known := hdisj node weight hlook
  have hMinNode : MinW g origin node weight := by
    constructor
    · rcases hK4 node weight hlook with ⟨hno, hw0⟩ |
        ⟨m, w, c_m, hprev, hmk, hedge, hMinm, hdw⟩
      · exact ⟨0, hno, hw0⟩
      · obtain ⟨k, hwalk⟩ := hMinm.1
        refine ⟨k + 1, ?_⟩
        rw [hdw]
        exact ⟨m, w, c_m, hwalk, hedge, rfl⟩
    · intro k' c' hw
      obtain ⟨y, d, hy, hdc⟩ := dj_cover g origin dist prev known
        ⟨hndD, hndP, hndK, hPO, hKU, hDU, hdisj, hK7, hP1, hK1, hK2, hK4,
          hK5, hK8⟩ k' node c' hw hnk
      have hyd : (y, d) ∈ dist := lookupA_eq_some_mem hy
      have hwd : weight ≤ d := hminall (y, d) hyd
      omega
  set dist1 := removeA dist node with hdist1
  have hndD1 : (dist1.map Prod.fst).Nodup := keys_removeA_nodup node hndD
  have hd1self : lookupA dist1 node = none :=
    lookupA_removeA_self_of_nodup node hndD
  have hd1ne : ∀ n, n ≠ node → lookupA dist1 n = lookupA dist n :=
    fun n hn => lookupA_removeA_ne dist node n hn
  have hd1some : ∀ n v, lookupA dist1 n = some v → lookupA dist n = some v :=
    fun n v h => lookupA_removeA_some hndD h
  have hsn : ∀ n, lookupA dist1 n ≠ none → lookupA prev n = none →
      n = origin := by
    intro n h1 h2
    cases hc : lookupA dist1 n with
    | none => exact absurd hc h1
    | some d =>
      rcases hK4 n d (hd1some n d hc) with ⟨hno, _⟩ | ⟨m, w, c_m, hprev, _⟩
      · exact hno
      · rw [hprev] at h2
        exact Option.noConfusion h2
  obtain ⟨ndA, ndB, oA, B, C, D, F, E⟩ :=
    relaxEdges_spec origin node weight (g.get_adj_weighted node) dist1 prev
      hndD1 hndP hPO hsn
  have hprev_node : node = origin ∨ ∃ m, lookupA prev node = some m := by
    rcases hK4 node weight hlook with ⟨hno, _⟩ | ⟨m, _, _, hprev, _⟩
    · exact Or.inl hno
    · exact Or.inr ⟨m, hprev⟩
  refine ⟨hnk, hMinNode, ?_, ?_, ?_, ?_, ?_, ?_, ?_, ?_, ?_, ?_, ?_, ?_, ?_, ?_⟩
  · exact ndA
  · exact ndB
  · exact List.nodup_cons.mpr ⟨hnk, hndK⟩
  · exact oA
  · intro n hn
    rcases List.mem_cons.mp hn with hn | hn
    · rw [hn]
      exact hDU node weight hlook
    · exact hKU n hn
  · intro n d' h
    rcases C n d' h with ⟨h1, _⟩ | ⟨_, ⟨w, hw, _⟩, _, _⟩
    · exact hDU n d' (hd1some n d' h1)
    · exact List.mem_cons_of_mem _ (edge_target_mem_dfsUniv hw)
  · intro n d' h hin
    rcases List.mem_cons.mp hin with hn | hn
    · rcases C n d' h with ⟨h1, _⟩ | ⟨hno, _, _, hsub⟩
      · rw [hn] at h1
        rw [hd1self] at h1
        exact Option.noConfusion h1
      · rcases hsub with ⟨hs1, hs2⟩ | ⟨dOld, hs1, _⟩
        · rw [hn] at hs2 hno
          rcases hprev_node with ho | ⟨m, hm⟩
          · exact hno ho
          · rw [hm] at hs2
            exact Option.noConfusion hs2
        · rw [hn, hd1self] at hs1
          exact Option.noConfusion hs1
    · rcases C n d' h with ⟨h1, _⟩ | ⟨hno, _, _, hsub⟩
      · exact hdisj n d' (hd1some n d' h1) hn
      · rcases hsub with ⟨hs1, hs2⟩ | ⟨dOld, hs1, _⟩
        · obtain ⟨m, w, c_m, c_n, k2, _, _, hprev, _⟩ := hK2 n hn hno
          rw [hprev] at hs2
          exact Option.noConfusion hs2
        · exact hdisj n dOld (hd1some n dOld hs1) hn
  · by_cases ho : origin ∈ known
    · exact Or.inl (List.mem_cons_of_mem _ ho)
    · by_cases hon : node = origin
      · rw [hon]
        exact Or.inl (List.mem_cons_self _ _)
      · rcases hK7 with h | h
        · exact absurd h ho
        · have h1 : lookupA dist1 origin = some 0 := by
            rw [hd1ne origin (fun he => hon he.symm)]
            exact h
          obtain ⟨d', hd', hle⟩ := B origin 0 h1
          have hd0 : d' = 0 := by omega
          rw [hd0] at hd'
          exact Or.inr hd'
  · intro n x h
    cases hc : lookupA (relaxEdges origin node weight (g.get_adj_weighted node)
        dist1 prev).1 n with
    | some d' => exact Or.inr ⟨d', rfl⟩
    | none =>
      obtain ⟨hd1n, hrpn⟩ := D n hc
      rw [hrpn] at h
      rcases hP1 n x h with hn | ⟨d, hd⟩
      · exact Or.inl (List.mem_cons_of_mem _ hn)
      · by_cases hnn : n = node
        · rw [hnn]
          exact Or.inl (List.mem_cons_self _ _)
        · rw [hd1ne n hnn] at hd1n
          rw [hd1n] at hd
          exact Option.noConfusion hd
  · intro n hn
    rcases List.mem_cons.mp hn with hn | hn
    · rw [hn]
      exact ⟨weight, hMinNode⟩
    · exact hK1 n hn
  · intro n hn hno
    rcases List.mem_cons.mp hn with hn | hn
    · rcases hK4 node weight hlook with ⟨hno', _⟩ |
        ⟨m, w, c_m, hprev, hmk, hedge, hMinm, hdw⟩
      · rw [hn] at hno
        exact absurd hno' hno
      · have hfr : lookupA (relaxEdges origin node weight
            (g.get_adj_weighted node) dist1 prev).2 node = some m := by
          obtain ⟨_, hf2⟩ := F node hd1self (by rw [hprev]; exact Option.noConfusion)
          rw [hf2]
          exact hprev
        refine ⟨m, w, c_m, weight, known, ⟨[], by rw [hn]; rfl⟩, hmk, ?_,
          hn.symm ▸ hedge, hMinm, ?_, hdw⟩
        · rw [hn]
          exact hfr
        · rw [hn]
          exact hMinNode
    · obtain ⟨m, w, c_m, c_n, k2, ⟨k1, hsplit⟩, hm, hprev, hedge, hMm, hMn,
        hcn⟩ := hK2 n hn hno
      have hdn : lookupA dist n = none := by
        cases hc : lookupA dist n with
        | none => rfl
        | some d => exact absurd hn (hdisj n d hc)
      have hnn : n ≠ node := fun he => hnk (he ▸ hn)
      have hd1n : lookupA dist1 n = none := by
        rw [hd1ne n hnn]
        exact hdn
      have hfr : lookupA (relaxEdges origin node weight
          (g.get_adj_weighted node) dist1 prev).2 n = some m := by
        obtain ⟨_, hf2⟩ := F n hd1n (by rw [hprev]; exact Option.noConfusion)
        rw [hf2]
        exact hprev
      exact ⟨m, w, c_m, c_n, k2, ⟨node :: k1, by rw [hsplit]; rfl⟩, hm, hfr,
        hedge, hMm, hMn, hcn⟩
  · intro n d' h
    rcases C n d' h with ⟨h1, h2⟩ | ⟨hno, ⟨w, hw, hdw⟩, h3, _⟩
    · rcases hK4 n d' (hd1some n d' h1) with ⟨hno, hd0⟩ |
        ⟨m, w, c_m, hprev, hmk, hedge, hMm, hdd⟩
      · exact Or.inl ⟨hno, hd0⟩
      · exact Or.inr ⟨m, w, c_m, h2.trans hprev, List.mem_cons_of_mem _ hmk,
          hedge, hMm, hdd⟩
    · exact Or.inr ⟨node, w, weight, h3, List.mem_cons_self _ _, hw,
        hMinNode, hdw⟩
  · intro n d' h m hm w' c_m hedge hMm
    rcases List.mem_cons.mp hm with hm | hm
    · rw [hm] at hedge hMm
      have hcm : c_m = weight := MinW_unique hMm hMinNode
      rcases E n w' hedge with hno | ⟨hm1, hm2⟩ | ⟨d'', hd'', hle⟩
      · rcases C n d' h with ⟨h1, _⟩ | ⟨hno', _, _, _⟩
        · rcases hK4 n d' (hd1some n d' h1) with ⟨_, hd0⟩ |
            ⟨m', _, _, hprev, _⟩
          · omega
          · rw [hno, hPO] at hprev
            exact Option.noConfusion hprev
        · exact absurd hno hno'
      · obtain ⟨hf1, _⟩ := F n hm1 hm2
        rw [hf1] at h
        exact Option.noConfusion h
      · rw [h] at hd''
        have hde : d'' = d' := (Option.some.inj hd'').symm
        omega
    · rcases C n d' h with ⟨h1, _⟩ | ⟨hno, ⟨w, hw, hdw⟩, _, hsub⟩
      · exact hK5 n d' (hd1some n d' h1) m hm w' c_m hedge hMm
      · rcases hsub with ⟨hs1, hs2⟩ | ⟨dOld, hs1, hs2⟩
        · exfalso
          rcases hK8 m hm n w' hedge with hin | ⟨d, hd⟩
          · obtain ⟨_, _, _, _, _, _, _, hprev, _⟩ := hK2 n hin hno
            rw [hprev] at hs2
            exact Option.noConfusion hs2
          · have hnn : n ≠ node := by
              intro he
              rw [he] at hs2 hno
              rcases hprev_node with ho | ⟨m', hm'⟩
              · exact hno ho
              · rw [hm'] at hs2
                exact Option.noConfusion hs2
            rw [hd1ne n hnn, hd] at hs1
            exact Option.noConfusion hs1
        · have hold := hK5 n dOld (hd1some n dOld hs1) m hm w' c_m hedge hMm
          omega
  · intro m hm v w' hedge
    rcases List.mem_cons.mp hm with hm | hm
    · rw [hm] at hedge
      rcases E v w' hedge with hvo | ⟨hm1, hm2⟩ | ⟨d', hd', _⟩
      · rcases hK7 with h | h
        · rw [hvo]
          exact Or.inl (List.mem_cons_of_mem _ h)
        · by_cases hon : origin = node
          · rw [hvo, hon]
            exact Or.inl (List.mem_cons_self _ _)
          · have h1 : lookupA dist1 origin = some 0 := by
              rw [hd1ne origin hon]
              exact h
            obtain ⟨d', hd', _⟩ := B origin 0 h1
            rw [hvo]
            exact Or.inr ⟨d', hd'⟩
      · cases hc : lookupA prev v with
        | none => exact absurd hc hm2
        | some x =>
          rcases hP1 v x hc with hin | ⟨d, hd⟩
          · exact Or.inl (List.mem_cons_of_mem _ hin)
          · by_cases hvn : v = node
            · rw [hvn]
              exact Or.inl (List.mem_cons_self _ _)
            · rw [hd1ne v hvn, hd] at hm1
              exact Option.noConfusion hm1
      · exact Or.inr ⟨d', hd'⟩
    · rcases hK8 m hm v w' hedge with hin | ⟨d, hd⟩
      · exact Or.inl (List.mem_cons_of_mem _ hin)
      · by_cases hvn : v = node
        · rw [hvn]
          exact Or.inl (List.mem_cons_self _ _)
        · have h1 : lookupA dist1 v = some d := by
            rw [hd1ne v hvn]
            exact hd
          obtain ⟨d', hd', _⟩ := B v d h1
          exact Or.inr ⟨d', hd'⟩

theorem split_unique {n : Nat} :
    ∀ (k1 k1' k2 k2' : List Nat), k1 ++ n :: k2 = k1' ++ n :: k2' →
    n ∉ k1 → n ∉ k1' → k1 = k1' ∧ k2 = k2' := by
  intro k1
  induction k1 with
  | nil =>
    intro k1' k2 k2' he _ hn'
    cases k1' with
    | nil =>
      simp at he
      exact ⟨rfl, he⟩
    | cons a t' =>
      simp at he
      obtain ⟨ha, _⟩ := he
      exact absurd (by rw [ha]; exact List.mem_cons_self _ _ : n ∈ a :: t') hn'
  | cons a t ih =>
    intro k1' k2 k2' he hn hn'
    cases k1' with
    | nil =>
      simp at he
      obtain ⟨ha, _⟩ := he
      exact absurd (by rw [ha]; exact List.mem_cons_self _ _ : n ∈ a :: t) hn
    | cons a' t' =>
      simp only [List.cons_append, List.cons.injEq] at he
      obtain ⟨ha, ht⟩ := he
      have hnt : n ∉ t := fun hc => hn (List.mem_cons_of_mem _ hc)
      have hnt' : n ∉ t' := fun hc => hn' (List.mem_cons_of_mem _ hc)
      obtain ⟨h1, h2⟩ := ih t' k2 k2' ht hnt hnt'
      exact ⟨by rw [ha, h1], h2⟩

theorem prevWalkAux_none (prev : List (Nat × Nat)) (fuel : Nat)
    (res : List Nat) : prevWalkAux prev fuel none res = res := by
  cases fuel <;> rfl

theorem prevWalkAux_some (prev : List (Nat × Nat)) (fuel : Nat) (curr : Nat)
    (res : List Nat) :
    prevWalkAux prev (fuel + 1) (some curr) res =
      prevWalkAux prev fuel (lookupA prev curr) (res ++ [curr]) := rfl

theorem dj_known_le_prev (g : WeightedGraph) (origin : Nat)
    (dist prev : List (Nat × Nat)) (known : List Nat)
    (hInv : DjInv g origin dist prev known) :
    known.length ≤ prev.length + 1 := by
  obtain ⟨_, _, hndK, _, _, _, _, _, _, _, hK2, _, _, _⟩ := hInv
  have hsub : known.toFinset.erase origin ⊆ (prev.map Prod.fst).toFinset := by
    intro n hn
    rw [Finset.mem_erase, List.mem_toFinset] at hn
    obtain ⟨hno, hnk⟩ := hn
    obtain ⟨m, w, c_m, c_n, k2, _, _, hprev, _⟩ := hK2 n hnk hno
    exact List.mem_toFinset.mpr (lookupA_eq_some_mem_keys hprev)
  have h1 := Finset.card_le_card hsub
  have h2 := List.toFinset_card_le (prev.map Prod.fst)
  rw [List.length_map] at h2
  have h3 : known.toFinset.card = known.length :=
    List.toFinset_card_of_nodup hndK
  by_cases ho : origin ∈ known.toFinset
  · have := Finset.card_erase_add_one ho
    omega
  · have he : known.toFinset.erase origin = known.toFinset :=
      Finset.erase_eq_of_not_mem ho
    rw [he] at h1
    omega

theorem dj_chain (g : WeightedGraph) (origin : Nat)
    (dist prev : List (Nat × Nat)) (known : List Nat)
    (hInv : DjInv g origin dist prev known) :
    ∀ (k2len : Nat) (n : Nat) (k1 k2 : List Nat), known = k1 ++ n :: k2 →
    k2.length = k2len →
    ∃ chain c,
      (∀ fuel res, chain.length ≤ fuel + 1 →
        prevWalkAux prev fuel (lookupA prev n) (res ++ [n]) = res ++ chain) ∧
      MinW g origin n c ∧
      IsPathW g chain.reverse c ∧
      chain.reverse.head? = some origin ∧
      chain.reverse.getLast? = some n ∧
      chain.length ≤ k2.length + 1 := by
  obtain ⟨_, _, hndK, hPO, _, _, _, _, _, _, hK2, _, _, _⟩ := hInv
  intro k2len
  induction k2len using Nat.strong_induction_on with
  | _ k2len ih =>
    intro n k1 k2 hsplit hlen
    have hnk : n ∈ known := by
      rw [hsplit]
      exact List.mem_append.mpr (Or.inr (List.mem_cons_self _ _))
    by_cases hno : n = origin
    · refine ⟨[n], 0, ?_, ?_, ?_, ?_, ?_, ?_⟩
      · intro fuel res _
        rw [hno, hPO]
        exact prevWalkAux_none prev fuel (res ++ [origin])
      · rw [hno]
        exact MinW_origin g origin
      · show (0 : Nat) = 0
        rfl
      · simp [hno]
      · simp
      · simp
    · obtain ⟨m, w, c_m, c_n, k2', ⟨k1', hsplit'⟩, hm, hprev, hedge, hMm, hMn,
        hcn⟩ := hK2 n hnk hno
      -- the two splits at n agree
      have hn_not1 : n ∉ k1 := by
        rw [hsplit] at hndK
        rw [List.nodup_append] at hndK
        exact fun hc => hndK.2.2 hc (List.mem_cons_self _ _)
      have hn_not1' : n ∉ k1' := by
        rw [hsplit'] at hndK
        rw [List.nodup_append] at hndK
        exact fun hc => hndK.2.2 hc (List.mem_cons_self _ _)
      obtain ⟨_, hk2eq⟩ := split_unique k1 k1' k2 k2'
        (by rw [← hsplit, ← hsplit']) hn_not1 hn_not1'
      -- m sits strictly deeper
      have hmk2 : m ∈ k2 := by
        rw [hk2eq]
        exact hm
      obtain ⟨x, y, hk2split⟩ := List.append_of_mem hmk2
      have hsplitm : known = (k1 ++ n :: x) ++ m :: y := by
        rw [hsplit, hk2split]
        simp
      have hxy : k2.length = x.length + 1 + y.length := by
        rw [hk2split]
        simp only [List.length_append, List.length_cons]
        omega
      have hylen : y.length < k2len := by omega
      obtain ⟨chain_m, c_m', hW1, hMm', hPath, hHead, hLast, hLen⟩ :=
        ih y.length hylen m (k1 ++ n :: x) y hsplitm rfl
      have hcm_eq : c_m' = c_m := MinW_unique hMm' hMm
      have hchain_ne : chain_m ≠ [] := by
        intro hc
        rw [hc] at hLast
        exact Option.noConfusion hLast
      refine ⟨n :: chain_m, c_n, ?_, hMn, ?_, ?_, ?_, ?_⟩
      · intro fuel res hfuel
        have hlen1 : 1 ≤ chain_m.length := by
          cases chain_m with
          | nil => exact absurd rfl hchain_ne
          | cons a t => simp
        cases fuel with
        | zero =>
          simp only [List.length_cons] at hfuel
          omega
        | succ fuel' =>
          rw [hprev, prevWalkAux_some]
          have hrec := hW1 fuel' (res ++ [n])
            (by simp only [List.length_cons] at hfuel; omega)
          rw [hrec]
          simp
      · rw [List.reverse_cons]
        have hp := (IsPathW_snoc chain_m.reverse c_m' m n w hPath hLast hedge).1
        rw [hcm_eq, ← hcn] at hp
        exact hp
      · rw [List.reverse_cons, List.head?_append]
        cases hh : chain_m.reverse.head? with
        | some a =>
          rw [hh] at hHead
          rw [hHead]
          rfl
        | none =>
          rw [hh] at hHead
          exact Option.noConfusion hHead
      · rw [List.reverse_cons]
        exact List.getLast?_concat _
      · simp only [List.length_cons]
        omega

theorem dj_buildPath (g : WeightedGraph) (origin : Nat)
    (dist prev : List (Nat × Nat)) (known : List Nat)
    (hInv : DjInv g origin dist prev known) (t : Nat) (ht : t ∈ known) :
    ∃ c, MinW g origin t c ∧ IsPathW g (buildPath prev t) c ∧
      (buildPath prev t).head? = some origin ∧
      (buildPath prev t).getLast? = some t := by
  obtain ⟨s, k2, hsplit⟩ := List.append_of_mem ht
  obtain ⟨chain, c, hW1, hMin, hPath, hHead, hLast, hLen⟩ :=
    dj_chain g origin dist prev known hInv k2.length t s k2 hsplit rfl
  have hklen : known.length ≤ prev.length + 1 :=
    dj_known_le_prev g origin dist prev known hInv
  have hk2 : k2.length + 1 ≤ known.length := by
    rw [hsplit]
    simp only [List.length_append, List.length_cons]
    omega
  have hfuel : chain.length ≤ (prev.length + 1) + 1 := by omega
  have heq : prevWalkAux prev (prev.length + 1) (lookupA prev t) [t] =
      chain := by
    have hw := hW1 (prev.length + 1) [] hfuel
    simpa using hw
  unfold buildPath
  rw [heq]
  exact ⟨c, hMin, hPath, hHead, hLast⟩

theorem minByKeyW_eq_none {l : List (Nat × Nat)} (h : minByKeyW l = none) :
    ∀ n v, lookupA l n ≠ some v := by
  cases l with
  | nil =>
    intro n v hc
    simp [lookupA] at hc
  | cons a t =>
    obtain ⟨p, hp⟩ := minByKeyW_cons_isSome a t
    rw [hp] at h
    exact Option.noConfusion h

/-- What holds of the loop result: `none` only when the target is unreachable,
and any returned path is a minimum-weight origin-to-target path. -/
def DjPost (g : WeightedGraph) (origin target : Nat)
    (r : Option (List Nat)) : Prop :=
  (r = none → ∀ k c, ¬ WWalk g origin k target c) ∧
  (∀ p, r = some p → ∃ c, MinW g origin target c ∧ IsPathW g p c ∧
    p.head? = some origin ∧ p.getLast? = some target)

theorem dijkstrasLoop_succ (g : WeightedGraph) (origin target fuel : Nat)
    (dist prev : List (Nat × Nat)) (known : List Nat) :
    dijkstrasLoop g origin target (fuel + 1) dist prev known =
      (if target ∈ known then some (some (buildPath prev target))
      else
        match minByKeyW dist with
        | some (node, weight) =>
          if node ∈ known then
            dijkstrasLoop g origin target fuel (removeA dist node) prev known
          else
            dijkstrasLoop g origin target fuel
              (relaxEdges origin node weight (g.get_adj_weighted node)
                (removeA dist node) prev).1
              (relaxEdges origin node weight (g.get_adj_weighted node)
                (removeA dist node) prev).2
              (setIns known node)
        | none => some none) := rfl

theorem dijkstrasLoop_succ_pop (g : WeightedGraph)
    (origin target fuel : Nat) (dist prev : List (Nat × Nat))
    (known : List Nat) (node weight : Nat) (htk : target ∉ known)
    (hmin : minByKeyW dist = some (node, weight)) :
    dijkstrasLoop g origin target (fuel + 1) dist prev known =
      (if node ∈ known then
        dijkstrasLoop g origin target fuel (removeA dist node) prev known
      else
        dijkstrasLoop g origin target fuel
          (relaxEdges origin node weight (g.get_adj_weighted node)
            (removeA dist node) prev).1
          (relaxEdges origin node weight (g.get_adj_weighted node)
            (removeA dist node) prev).2
          (setIns known node)) := by
  rw [dijkstrasLoop_succ, if_neg htk, hmin]

theorem dijkstrasLoop_succ_empty (g : WeightedGraph)
    (origin target fuel : Nat) (dist prev : List (Nat × Nat))
    (known : List Nat) (htk : target ∉ known)
    (hmin : minByKeyW dist = none) :
    dijkstrasLoop g origin target (fuel + 1) dist prev known = some none := by
  rw [dijkstrasLoop_succ, if_neg htk, hmin]

theorem dijkstrasLoop_post (g : WeightedGraph) (origin target : Nat) :
    ∀ (fuel : Nat) (dist prev : List (Nat × Nat)) (known : List Nat),
    DjInv g origin dist prev known →
    ((djUniv g origin).toFinset \ known.toFinset).card < fuel →
    ∃ r, dijkstrasLoop g origin target fuel dist prev known = some r ∧
      DjPost g origin target r := by
  intro fuel
  induction fuel with
  | zero =>
    intro dist prev known _ hcard
    exact absurd hcard (by omega)
  | succ fuel ih =>
    intro dist prev known hInv hcard
    by_cases htk : target ∈ known
    · refine ⟨some (buildPath prev target), ?_, ?_, ?_⟩
      · rw [dijkstrasLoop_succ, if_pos htk]
      · intro h
        exact Option.noConfusion h
      · intro p hp
        have hpe : buildPath prev target = p := Option.some.inj hp
        obtain ⟨c, hMin, hPath, hHead, hLast⟩ :=
          dj_buildPath g origin dist prev known hInv target htk
        rw [hpe] at hPath hHead hLast
        exact ⟨c, hMin, hPath, hHead, hLast⟩
    · cases hmin : minByKeyW dist with
      | none =>
        refine ⟨none, dijkstrasLoop_succ_empty g origin target fuel dist prev
          known htk hmin, ?_, ?_⟩
        · intro _ k c hw
          obtain ⟨y, d, hy, _⟩ :=
            dj_cover g origin dist prev known hInv k target c hw htk
          exact minByKeyW_eq_none hmin y d hy
        · intro p hp
          exact Option.noConfusion hp
      | some pr =>
        obtain ⟨node, weight⟩ := pr
        obtain ⟨hnk, hMinNode, hInv'⟩ :=
          dj_settle g origin dist prev known hInv node weight hmin
        have hsetK : setIns known node = node :: known := by
          unfold setIns
          rw [if_neg hnk]
        obtain ⟨hndD, _, _, _, _, hDU, _, _, _, _, _, _, _, _⟩ := hInv
        obtain ⟨hmem, _⟩ := minByKeyW_spec dist (node, weight) hmin
        have hlook : lookupA dist node = some weight :=
          mem_lookupA_of_nodup hmem hndD
        have hnodeU : node ∈ djUniv g origin := hDU node weight hlook
        have hnodemem : node ∈ (djUniv g origin).toFinset \ known.toFinset := by
          rw [Finset.mem_sdiff, List.mem_toFinset, List.mem_toFinset]
          exact ⟨hnodeU, hnk⟩
        have hcard' : ((djUniv g origin).toFinset \
            (node :: known).toFinset).card < fuel := by
          have he : (djUniv g origin).toFinset \ (node :: known).toFinset =
              ((djUniv g origin).toFinset \ known.toFinset).erase node := by
            rw [List.toFinset_cons]
            exact Finset.sdiff_insert _ _ _
          rw [he, Finset.card_erase_of_mem hnodemem]
          have hpos : 0 < ((djUniv g origin).toFinset \ known.toFinset).card :=
            Finset.card_pos.mpr ⟨node, hnodemem⟩
          omega
        obtain ⟨r, heq, hpost⟩ := ih
          (relaxEdges origin node weight (g.get_adj_weighted node)
            (removeA dist node) prev).1
          (relaxEdges origin node weight (g.get_adj_weighted node)
            (removeA dist node) prev).2
          (node :: known) hInv' hcard'
        refine ⟨r, ?_, hpost⟩
        rw [dijkstrasLoop_succ_pop g origin target fuel dist prev known node
          weight htk hmin, if_neg hnk, hsetK]
        exact heq

theorem dj_init (g : WeightedGraph) (origin : Nat) :
    DjInv g origin [(origin, 0)] [] [] := by
  have hlk : ∀ n d, lookupA [(origin, 0)] n = some d → n = origin ∧ d = 0 := by
    intro n d h
    unfold lookupA at h
    by_cases hn : origin = n
    · rw [if_pos hn] at h
      exact ⟨hn.symm, (Option.some.inj h).symm⟩
    · rw [if_neg hn] at h
      exact Option.noConfusion h
  refine ⟨by simp, by simp, List.nodup_nil, rfl, ?_, ?_, ?_, ?_, ?_, ?_, ?_,
    ?_, ?_, ?_⟩
  · intro n hn
    exact absurd hn (List.not_mem_nil _)
  · intro n d h
    obtain ⟨hn, _⟩ := hlk n d h
    rw [hn]
    exact List.mem_cons_self _ _
  · intro n d _
    exact List.not_mem_nil _
  · right
    unfold lookupA
    rw [if_pos rfl]
  · intro n x h
    exact Option.noConfusion h
  · intro n hn
    exact absurd hn (List.not_mem_nil _)
  · intro n hn
    exact absurd hn (List.not_mem_nil _)
  · intro n d h
    obtain ⟨hn, hd⟩ := hlk n d h
    exact Or.inl ⟨hn, hd⟩
  · intro n d _ m hm
    exact absurd hm (List.not_mem_nil _)
  · intro m hm
    exact absurd hm (List.not_mem_nil _)

theorem dj_fuel (g : WeightedGraph) (origin : Nat) :
    ((djUniv g origin).toFinset \ ([] : List Nat).toFinset).card <
      g.dijkstrasFuel origin := by
  have h1 : ((djUniv g origin).toFinset \ ([] : List Nat).toFinset).card ≤
      (origin :: g.dfsUniv).length := by
    rw [List.toFinset_nil, Finset.sdiff_empty]
    exact List.toFinset_card_le _
  unfold WeightedGraph.dijkstrasFuel
  have h2 : ((origin :: g.dfsUniv).length + 2) * 1 ≤
      ((origin :: g.dfsUniv).length + 2) *
        ((origin :: g.dfsUniv).length + 2) :=
    Nat.mul_le_mul_left _ (by omega)
  omega

/-- C1: `dijkstras g origin target` returns `none` exactly when no path joins
`origin` to `target`; and whenever it returns `some p`, the list `p` is a path
of the graph starting at `origin` and ending at `target` (both inclusive) whose
total edge weight is least among all origin-to-target paths. -/
theorem dijkstras_optimal (g : WeightedGraph) (origin target : Nat) :
    (dijkstras g origin target = none ↔
      ¬ ∃ q c, IsPathW g q c ∧ q.head? = some origin ∧
        q.getLast? = some target) ∧
    (∀ p, dijkstras g origin target = some p →
      p.head? = some origin ∧ p.getLast? = some target ∧
      ∃ c, IsPathW g p c ∧
        ∀ q c', IsPathW g q c' → q.head? = some origin →
          q.getLast? = some target → c ≤ c') := by
  obtain ⟨r, heq, hpost⟩ :=
    dijkstrasLoop_post g origin target (g.dijkstrasFuel origin)
      [(origin, 0)] [] [] (dj_init g origin) (dj_fuel g origin)
  have hpost2 : (r = none → ∀ k c, ¬ WWalk g origin k target c) ∧
      (∀ p, r = some p → ∃ c, MinW g origin target c ∧ IsPathW g p c ∧
        p.head? = some origin ∧ p.getLast? = some target) := hpost
  obtain ⟨hnone, hsome⟩ := hpost2
  have hd : dijkstras g origin target = r := by
    unfold dijkstras
    rw [heq]
    rfl
  constructor
  · constructor
    · rintro h0 ⟨q, c, hp, hh, hl⟩
      have hr : r = none := by
        rw [← hd]
        exact h0
      obtain ⟨k, hw⟩ := walk_of_path q c origin target hp hh hl
      exact hnone hr k c hw
    · intro hno
      cases hsr : r with
      | none =>
        rw [hd, hsr]
      | some p =>
        obtain ⟨c, _, hip, hph, hpl⟩ := hsome p hsr
        exact absurd ⟨p, c, hip, hph, hpl⟩ hno
  · intro p hp
    rw [hd] at hp
    obtain ⟨c, hmin, hip, hph, hpl⟩ := hsome p hp
    refine ⟨hph, hpl, c, hip, ?_⟩
    intro q c' hq hqh hql
    obtain ⟨k, hw⟩ := walk_of_path q c' origin target hq hqh hql
    exact hmin.2 k c' hw

end Spec2Proof
